import Mathlib

/-!
# ScaleHLS: token-stream insertion pass and HLS C++ emitter

A shallow embedding of

* `lib/Transforms/Dataflow/CreateTokenStream.cpp` (namespace `CreateTokenStream`), and
* `lib/EmitHLSCpp/EmitHLSCpp.cpp` (namespace `EmitHLSCpp`),

followed by the properties established about them.

Pointer identity of IR objects (SSA values, node operations, block arguments,
operation results) is modelled by natural-number identities drawn from one
allocation counter carried in the pass state: creating an IR object takes the
next unused identity.  Undefined behaviour of the C++ code (touching an erased
operation, an out-of-range insertion) is modelled by the result `none`.
-/

namespace CreateTokenStream

/-! ## Data model -/

/-- Types of SSA values, as far as the pass distinguishes them. -/
inductive Ty where
  | i1
  | memref (k : Nat)
  | stream (elem : Ty) (depth : Nat)
  | other (k : Nat)
  deriving DecidableEq, Repr

/-- Source locations; `b.getUnknownLoc()` is `unknown`. -/
inductive Loc where
  | unknown
  | known (k : Nat)
  deriving DecidableEq, Repr

/-- An SSA value visible in the schedule: its identity and its type. -/
structure Value where
  id : Nat
  ty : Ty
  deriving DecidableEq, Repr

/-- A block argument of a node body. -/
structure BlockArg where
  id : Nat
  ty : Ty
  loc : Loc
  deriving DecidableEq, Repr

/-- Operations of a node body.  `other k` is any operation the pass does not
create; `constant r v` is `arith.constant` of the boolean attribute `v` with
result `r`; `streamWrite ch v` writes the local value `v` to the channel held by
block argument `ch`; `streamRead ch` reads from it and has no result. -/
inductive BodyOp where
  | other (k : Nat)
  | constant (result : Nat) (value : Bool)
  | streamWrite (channel : Nat) (value : Nat)
  | streamRead (channel : Nat)
  deriving DecidableEq, Repr

/-- The single block of a node body. -/
structure Block where
  args : List BlockArg
  ops : List BodyOp
  deriving DecidableEq, Repr

/-- The operands, attributes and body of a `NodeOp`. -/
structure Node where
  loc : Loc
  inputs : List Value
  outputs : List Value
  params : List Value
  inputTaps : List Nat
  level : Option Nat
  body : Block
  deriving DecidableEq, Repr

/-- Operations of the schedule body, in order. -/
inductive Op where
  | buffer (memref : Value)
  | stream (channel : Value) (loc : Loc)
  | node (uid : Nat) (n : Node)
  | other (k : Nat)
  deriving DecidableEq, Repr

/-- The schedule being rewritten, the allocation counter, and the failure bit of
the pass (set only by `signalPassFailure`). -/
structure PassState where
  ops : List Op
  next : Nat
  failed : Bool
  deriving DecidableEq, Repr

/-! ## Library operations used by the pass -/

/-- Insertion before position `i`, as `SmallVector::insert(begin() + i, x)`. -/
def insertAt {α : Type} (l : List α) (i : Nat) (x : α) : List α :=
  l.take i ++ x :: l.drop i

/-- Position of the first occurrence, as `llvm::find(range, v) - range.begin()`:
the length of the range when `v` does not occur. -/
def findIndex (l : List Value) (v : Value) : Nat :=
  List.indexOf v l

/-- Insertion of a fresh block argument, as `Block::insertArgument`; the index
must not exceed the number of arguments. -/
def Block.insertArgument (b : Block) (index : Nat) (arg : BlockArg) : Option Block :=
  if index ≤ b.args.length then
    some { b with args := insertAt b.args index arg }
  else
    none

/-- The memrefs of the `BufferOp`s of the schedule, in order
(`schedule.getOps<BufferOp>()`). -/
def getBuffers : List Op → List Value
  | [] => []
  | .buffer m :: rest => m :: getBuffers rest
  | _ :: rest => getBuffers rest

/-- The node operation with identity `uid`, when it is (still) in the schedule. -/
def findNode : List Op → Nat → Option Node
  | [], _ => none
  | .node u n :: rest, uid => if u = uid then some n else findNode rest uid
  | _ :: rest, uid => findNode rest uid

/-- Creation of `new` in front of the node `uid` followed by erasure of that node. -/
def replaceNode : List Op → Nat → Op → List Op
  | [], _, _ => []
  | .node u n :: rest, uid, new =>
      if u = uid then new :: rest else .node u n :: replaceNode rest uid new
  | o :: rest, uid, new => o :: replaceNode rest uid new

/-- Creation of `new` right after the `BufferOp` defining `buffer`
(`setInsertionPointAfter(buffer)`). -/
def insertAfterBuffer : List Op → Value → Op → List Op
  | [], _, _ => []
  | .buffer m :: rest, buffer, new =>
      if m = buffer then .buffer m :: new :: rest
      else .buffer m :: insertAfterBuffer rest buffer new
  | o :: rest, buffer, new => o :: insertAfterBuffer rest buffer new

/-- Modelled from the spec: `getProducers` is declared outside the given sources;
the spec calls a Node a producer of a Buffer when the Buffer is present in its
outputs.  The nodes are returned in schedule order, each once. -/
def getProducers (ops : List Op) (buffer : Value) : List Nat :=
  ops.filterMap fun o =>
    match o with
    | .node uid n => if buffer ∈ n.outputs then some uid else none
    | _ => none

/-- Modelled from the spec: `getConsumers` is declared outside the given sources;
the spec calls a Node a consumer of a Buffer when the Buffer is present in its
inputs.  The nodes are returned in schedule order, each once. -/
def getConsumers (ops : List Op) (buffer : Value) : List Nat :=
  ops.filterMap fun o =>
    match o with
    | .node uid n => if buffer ∈ n.inputs then some uid else none
    | _ => none

/-! ## The pass -/

/-- The type of the token streams: `StreamType::get(ctx, b.getI1Type(), 1)`. -/
def tokenType : Ty := .stream .i1 1

/-- Body of the producer loop at the level of one node: the rebuilt node for
`node`, with the token inserted into the outputs at the position of the buffer,
the body moved over, a block argument inserted for the token and the constant
and the write appended.  `argId` and `valueId` are the identities of the new
block argument and of the result of the new constant. -/
def rebuildProducer (node : Node) (buffer token : Value) (tokenLoc : Loc)
    (argId valueId : Nat) : Option Node :=
  let outputIdx := findIndex node.outputs buffer
  let outputs := insertAt node.outputs outputIdx token
  let newNode : Node :=
    { loc := node.loc, inputs := node.inputs, outputs := outputs, params := node.params,
      inputTaps := node.inputTaps, level := node.level, body := node.body }
  match newNode.body.insertArgument (outputIdx + newNode.inputs.length)
      ⟨argId, token.ty, tokenLoc⟩ with
  | none => none
  | some body =>
      some { newNode with
        body := { body with
          ops := body.ops ++ [.constant valueId true, .streamWrite argId valueId] } }

/-- Body of the consumer loop at the level of one node: the token is inserted
into the inputs and tap `0` into the input taps at the position of the buffer,
the body is moved over, a block argument is inserted for the token and the read
is put in front.  An insertion position past the end of the taps is undefined
behaviour of `SmallVector::insert` (`none`). -/
def rebuildConsumer (node : Node) (buffer token : Value) (tokenLoc : Loc)
    (argId : Nat) : Option Node :=
  let inputIdx := findIndex node.inputs buffer
  let inputs := insertAt node.inputs inputIdx token
  if inputIdx ≤ node.inputTaps.length then
    let inputTaps := insertAt node.inputTaps inputIdx 0
    let newNode : Node :=
      { loc := node.loc, inputs := inputs, outputs := node.outputs, params := node.params,
        inputTaps := inputTaps, level := node.level, body := node.body }
    match newNode.body.insertArgument inputIdx ⟨argId, token.ty, tokenLoc⟩ with
    | none => none
    | some body =>
        some { newNode with body := { body with ops := .streamRead argId :: body.ops } }
  else
    none

/-- One iteration of `for (auto node : producers)`: the node handle `uid` of the
snapshot is dereferenced, the rebuilt node takes its place in the schedule. -/
def rewriteProducer (buffer token : Value) (tokenLoc : Loc) (st : PassState)
    (uid : Nat) : Option PassState :=
  match findNode st.ops uid with
  | none => none
  | some node =>
      match rebuildProducer node buffer token tokenLoc (st.next + 1) (st.next + 2) with
      | none => none
      | some newNode =>
          some { st with
            ops := replaceNode st.ops uid (.node st.next newNode), next := st.next + 3 }

/-- One iteration of `for (auto node : consumers)`. -/
def rewriteConsumer (buffer token : Value) (tokenLoc : Loc) (st : PassState)
    (uid : Nat) : Option PassState :=
  match findNode st.ops uid with
  | none => none
  | some node =>
      match rebuildConsumer node buffer token tokenLoc (st.next + 1) with
      | none => none
      | some newNode =>
          some { st with
            ops := replaceNode st.ops uid (.node st.next newNode), next := st.next + 2 }

/-- The loop `for (auto node : producers)`. -/
def rewriteProducers (buffer token : Value) (tokenLoc : Loc) :
    List Nat → PassState → Option PassState
  | [], st => some st
  | uid :: rest, st =>
      match rewriteProducer buffer token tokenLoc st uid with
      | none => none
      | some st1 => rewriteProducers buffer token tokenLoc rest st1

/-- The loop `for (auto node : consumers)`. -/
def rewriteConsumers (buffer token : Value) (tokenLoc : Loc) :
    List Nat → PassState → Option PassState
  | [], st => some st
  | uid :: rest, st =>
      match rewriteConsumer buffer token tokenLoc st uid with
      | none => none
      | some st1 => rewriteConsumers buffer token tokenLoc rest st1

/-- The part of the loop body after the two snapshots have been taken: the early
`continue`, the creation of the token stream, the two rewriting loops. -/
def rewriteBuffer (st : PassState) (buffer : Value) (producers consumers : List Nat) :
    Option PassState :=
  if producers.isEmpty || consumers.isEmpty then
    some st
  else
    let loc := Loc.unknown
    let token : Value := ⟨st.next, tokenType⟩
    let st1 : PassState :=
      { st with ops := insertAfterBuffer st.ops buffer (.stream token loc), next := st.next + 1 }
    match rewriteProducers buffer token loc producers st1 with
    | none => none
    | some st2 => rewriteConsumers buffer token loc consumers st2

/-- The body of `for (auto buffer : schedule.getOps<BufferOp>())`. -/
def processBuffer (st : PassState) (buffer : Value) : Option PassState :=
  rewriteBuffer st buffer (getProducers st.ops buffer) (getConsumers st.ops buffer)

/-- The loop over the buffers; the pass creates and erases no `BufferOp`, so the
buffers visited are those of the schedule at entry, in order. -/
def processBuffers : List Value → PassState → Option PassState
  | [], st => some st
  | buffer :: rest, st =>
      match processBuffer st buffer with
      | none => none
      | some st1 => processBuffers rest st1

/-- `CreateTokenStream::runOnOperation` on the schedule held in `st`. -/
def runOnOperation (st : PassState) : Option PassState :=
  processBuffers (getBuffers st.ops) st

/-! ## Observations on schedules -/

/-- The node operations of the schedule, in order. -/
def nodesOf : List Op → List Node
  | [] => []
  | .node _ n :: rest => n :: nodesOf rest
  | _ :: rest => nodesOf rest

/-- The identities of the node operations of the schedule, in order. -/
def nodeUids : List Op → List Nat
  | [] => []
  | .node u _ :: rest => u :: nodeUids rest
  | _ :: rest => nodeUids rest

/-- The block argument a stream operation of a body refers to. -/
def BodyOp.channel : BodyOp → Option Nat
  | .streamWrite ch _ => some ch
  | .streamRead ch => some ch
  | _ => none

/-- The operand a block argument stands for: block arguments follow the inputs,
then the outputs, so the argument at position `i` stands for operand `i` of
`inputs ++ outputs`. -/
def Node.operandOfArg (n : Node) (argId : Nat) : Option Value :=
  (n.inputs ++ n.outputs)[List.indexOf argId (n.body.args.map BlockArg.id)]?

/-- Whether a body operation of `n` is a write to the stream `t`. -/
def Node.isWriteTo (n : Node) (t : Value) : BodyOp → Bool
  | .streamWrite ch _ => decide (n.operandOfArg ch = some t)
  | _ => false

/-- Whether a body operation of `n` is a read of the stream `t`. -/
def Node.isReadOf (n : Node) (t : Value) : BodyOp → Bool
  | .streamRead ch => decide (n.operandOfArg ch = some t)
  | _ => false

/-- Number of writes to the stream `t` in the body of `n`. -/
def Node.writesTo (n : Node) (t : Value) : Nat :=
  n.body.ops.countP (n.isWriteTo t)

/-- Number of reads of the stream `t` in the body of `n`. -/
def Node.readsOf (n : Node) (t : Value) : Nat :=
  n.body.ops.countP (n.isReadOf t)

/-- Number of writes to the stream `t` in all node bodies of the schedule. -/
def totalWrites (ops : List Op) (t : Value) : Nat :=
  ((nodesOf ops).map fun n => n.writesTo t).sum

/-- Number of reads of the stream `t` in all node bodies of the schedule. -/
def totalReads (ops : List Op) (t : Value) : Nat :=
  ((nodesOf ops).map fun n => n.readsOf t).sum

/-! ## Well-formed schedules -/

/-- The body arguments cover the inputs and the outputs, and there is one tap
per input. -/
def Node.ShapeOk (n : Node) : Prop :=
  n.inputTaps.length = n.inputs.length ∧
    n.inputs.length + n.outputs.length ≤ n.body.args.length

/-- Every identity the node mentions is below the allocation counter `k`. -/
def Node.IdsBelow (n : Node) (k : Nat) : Prop :=
  (∀ v ∈ n.inputs ++ n.outputs, v.id < k) ∧
    (∀ a ∈ n.body.args, a.id < k) ∧
    (∀ op ∈ n.body.ops, ∀ ch, op.channel = some ch → ch < k)

/-- No buffer of `buffers` is both read and written by the node. -/
def Node.NoInOut (n : Node) (buffers : List Value) : Prop :=
  ∀ b ∈ buffers, ¬ (b ∈ n.inputs ∧ b ∈ n.outputs)

/-- Well-formed pass states: node operations and buffers are pairwise distinct
objects, every identity in use is below the allocation counter, every node has
the shape of `Node.ShapeOk`, and no node both reads and writes one buffer (the
consumer loop would otherwise dereference a node erased by the producer loop). -/
def WellFormed (st : PassState) : Prop :=
  (nodeUids st.ops).Nodup ∧
    (∀ u ∈ nodeUids st.ops, u < st.next) ∧
    (getBuffers st.ops).Nodup ∧
    (∀ b ∈ getBuffers st.ops, b.id < st.next) ∧
    (∀ n ∈ nodesOf st.ops,
      n.ShapeOk ∧ n.IdsBelow st.next ∧ n.NoInOut (getBuffers st.ops))

instance (n : Node) : Decidable n.ShapeOk := by
  unfold Node.ShapeOk; infer_instance

instance (n : Node) (k : Nat) : Decidable (n.IdsBelow k) := by
  unfold Node.IdsBelow; infer_instance

instance (n : Node) (bs : List Value) : Decidable (n.NoInOut bs) := by
  unfold Node.NoInOut; infer_instance

instance (st : PassState) : Decidable (WellFormed st) := by
  unfold WellFormed; infer_instance

/-! ## Auxiliary notions for the proofs -/

/-- What one rebuild does to a node, for producers and consumers alike: the token
enters the list of inputs followed by outputs at position `j` and its block
argument enters the argument list at the same position. -/
structure TokenInserted (n n' : Node) (t : Value) (a j : Nat) : Prop where
  operands : n'.inputs ++ n'.outputs = insertAt (n.inputs ++ n.outputs) j t
  args : n'.body.args.map BlockArg.id = insertAt (n.body.args.map BlockArg.id) j a
  j_le_operands : j ≤ (n.inputs ++ n.outputs).length
  j_le_args : j ≤ n.body.args.length

/-- The new block argument is fresh for the node: no argument carries its identity
and no stream operation of the body refers to it. -/
def Node.FreshArg (n : Node) (a : Nat) : Prop :=
  a ∉ n.body.args.map BlockArg.id ∧ ∀ op ∈ n.body.ops, op.channel ≠ some a

/-- The node `rebuildProducer` returns when it returns one. -/
def producerNode (node : Node) (buffer token : Value) (loc : Loc) (a c : Nat) : Node :=
  { loc := node.loc, inputs := node.inputs,
    outputs := insertAt node.outputs (findIndex node.outputs buffer) token,
    params := node.params, inputTaps := node.inputTaps, level := node.level,
    body :=
      { args := insertAt node.body.args (findIndex node.outputs buffer + node.inputs.length)
          ⟨a, token.ty, loc⟩,
        ops := node.body.ops ++ [.constant c true, .streamWrite a c] } }

/-- The node `rebuildConsumer` returns when it returns one. -/
def consumerNode (node : Node) (buffer token : Value) (loc : Loc) (a : Nat) : Node :=
  { loc := node.loc,
    inputs := insertAt node.inputs (findIndex node.inputs buffer) token,
    outputs := node.outputs,
    params := node.params,
    inputTaps := insertAt node.inputTaps (findIndex node.inputs buffer) 0,
    level := node.level,
    body :=
      { args := insertAt node.body.args (findIndex node.inputs buffer) ⟨a, token.ty, loc⟩,
        ops := .streamRead a :: node.body.ops } }

/-- Iteration of one rewriting step over a snapshot of node handles. -/
def forEachNode (step : PassState → Nat → Option PassState) :
    List Nat → PassState → Option PassState
  | [], st => some st
  | uid :: rest, st =>
      match step st uid with
      | none => none
      | some st1 => forEachNode step rest st1

/-- How a rewriting loop over the handles `us` changes one operation of the
schedule: a node whose handle is in `us` is replaced by a node with a fresh
identity in `[lo, hi)` related to it by `R`, everything else stays. -/
def OpUpd (R : Node → Node → Prop) (us : List Nat) (lo hi : Nat) (o o' : Op) : Prop :=
  match o with
  | .node u n =>
      (u ∉ us ∧ o' = o) ∨ (u ∈ us ∧ ∃ u' n', o' = .node u' n' ∧ lo ≤ u' ∧ u' < hi ∧ R n n')
  | _ => o' = o

/-- The nodes the producer loop may put in place of `n`. -/
def RebuiltP (b t : Value) (lo hi : Nat) (n n' : Node) : Prop :=
  ∃ a c, lo ≤ a ∧ a < hi ∧ n' = producerNode n b t Loc.unknown a c

/-- The nodes the consumer loop may put in place of `n`. -/
def RebuiltC (b t : Value) (lo hi : Nat) (n n' : Node) : Prop :=
  ∃ a, lo ≤ a ∧ a < hi ∧ n' = consumerNode n b t Loc.unknown a

/-- The invariant of the two rewriting loops for the token `t`. -/
def LoopInv (t : Value) (st : PassState) : Prop :=
  WellFormed st ∧ t.id < st.next ∧ t ∉ getBuffers st.ops

/-- How the loop body for the buffer `b` with token `t` changes one operation of
the schedule once the token stream is in place: a producer is replaced by its
rebuilt producer, a consumer by its rebuilt consumer, both under fresh
identities in `[lo, hi)`; everything else stays. -/
def BufferStep (b t : Value) (lo hi : Nat) (o o' : Op) : Prop :=
  match o with
  | .node _ n =>
      (b ∈ n.outputs ∧ ∃ u' n', o' = .node u' n' ∧ lo ≤ u' ∧ u' < hi ∧ RebuiltP b t lo hi n n') ∨
      (b ∉ n.outputs ∧ b ∈ n.inputs ∧
        ∃ u' n', o' = .node u' n' ∧ lo ≤ u' ∧ u' < hi ∧ RebuiltC b t lo hi n n') ∨
      (b ∉ n.outputs ∧ b ∉ n.inputs ∧ o' = o)
  | _ => o' = o

/-- The effect of the loop body for the buffer `b`, from `st` to `st'`: nothing
when the buffer lacks a producer or a consumer; otherwise the token stream
`⟨st.next, tokenType⟩` is created right after the buffer and the producers and
consumers are rebuilt. -/
def StepFacts (st : PassState) (b : Value) (st' : PassState) : Prop :=
  ((getProducers st.ops b = [] ∨ getConsumers st.ops b = []) ∧ st' = st) ∨
  (getProducers st.ops b ≠ [] ∧ getConsumers st.ops b ≠ [] ∧
    st'.failed = st.failed ∧ st.next < st'.next ∧
    List.Forall₂ (BufferStep b ⟨st.next, tokenType⟩ st.next st'.next)
      (insertAfterBuffer st.ops b (.stream ⟨st.next, tokenType⟩ Loc.unknown)) st'.ops)

/-- Two operations are the same operation unless both are nodes. -/
def SameUnlessNode (o o' : Op) : Prop :=
  match o with
  | .node _ _ => ∃ u' n', o' = .node u' n'
  | _ => o' = o

/-- The effect of the loop body for the buffer `b` with token `t` on one node. -/
def NodeStep (b t : Value) (lo hi : Nat) (n n' : Node) : Prop :=
  (b ∈ n.outputs ∧ RebuiltP b t lo hi n n') ∨
  (b ∉ n.outputs ∧ b ∈ n.inputs ∧ RebuiltC b t lo hi n n') ∨
  (b ∉ n.outputs ∧ b ∉ n.inputs ∧ n' = n)

/-- What holds of every state `st` the pass reaches from the state `st0` at entry:
it is well-formed, the buffers are those at entry, the counter has not gone back,
the failure bit is untouched, and every value of the schedule at entry has as
many producers and consumers as at entry. -/
def Reached (st0 st : PassState) : Prop :=
  WellFormed st ∧ getBuffers st.ops = getBuffers st0.ops ∧ st0.next ≤ st.next ∧
    st.failed = st0.failed ∧
    ∀ v : Value, v.id < st0.next →
      (getProducers st.ops v).length = (getProducers st0.ops v).length ∧
      (getConsumers st.ops v).length = (getConsumers st0.ops v).length

/-! ## Scenario D of the specification -/

/-- The buffer of Scenario D. -/
def ScenarioD.buf0 : Value := ⟨0, .memref 0⟩

/-- The producer of Scenario D: `outputs = [buf0]`. -/
def ScenarioD.N1 : Node :=
  { loc := .known 1, inputs := [], outputs := [ScenarioD.buf0], params := [], inputTaps := [],
    level := none, body := { args := [⟨1, .memref 0, .known 1⟩], ops := [.other 1] } }

/-- The first consumer of Scenario D: `inputs = [buf0]`. -/
def ScenarioD.N2 : Node :=
  { loc := .known 2, inputs := [ScenarioD.buf0], outputs := [], params := [], inputTaps := [3],
    level := none, body := { args := [⟨2, .memref 0, .known 2⟩], ops := [.other 2] } }

/-- The second consumer of Scenario D: `inputs = [buf0]`. -/
def ScenarioD.N3 : Node :=
  { loc := .known 3, inputs := [ScenarioD.buf0], outputs := [], params := [], inputTaps := [5],
    level := none, body := { args := [⟨3, .memref 0, .known 3⟩], ops := [.other 3] } }

/-- The schedule of Scenario D. -/
def ScenarioD.schedule : PassState :=
  { ops := [.buffer ScenarioD.buf0, .node 10 ScenarioD.N1, .node 11 ScenarioD.N2,
      .node 12 ScenarioD.N3],
    next := 20, failed := false }

/-- The channel of the stream the pass creates in Scenario D. -/
def ScenarioD.token : Value := ⟨20, tokenType⟩

/-- Whether an operation of the schedule is a `StreamOp`. -/
def Op.isStream : Op → Bool
  | .stream _ _ => true
  | _ => false

/-- The body arguments correspond one to one and in order to the inputs followed
by the outputs: as many, and each of the type of its operand. -/
def Node.ArgsMatch (n : Node) : Prop :=
  n.body.args.map BlockArg.ty = (n.inputs ++ n.outputs).map Value.ty

instance (n : Node) : Decidable n.ArgsMatch := by
  unfold Node.ArgsMatch; infer_instance

/-- A buffer is shared in a schedule when it has a producer and a consumer. -/
def Shared (ops : List Op) (b : Value) : Prop :=
  getProducers ops b ≠ [] ∧ getConsumers ops b ≠ []

instance (ops : List Op) (b : Value) : Decidable (Shared ops b) := by
  unfold Shared; infer_instance

/-- `StreamsInserted shared lo ops ops'`: the schedule `ops'` is the schedule `ops`
with one new stream operation, of element type `i1` and depth 1 and with a
channel identity from `lo` on, right after every buffer that is `shared`, nothing
after the other buffers, every node operation replaced by a node operation, and
every other operation left as it is, all in the same order. -/
inductive StreamsInserted (shared : Value → Prop) (lo : Nat) : List Op → List Op → Prop where
  | nil : StreamsInserted shared lo [] []
  | token {b : Value} {id : Nat} {rest rest' : List Op} :
      shared b → lo ≤ id → StreamsInserted shared lo rest rest' →
      StreamsInserted shared lo (Op.buffer b :: rest)
        (Op.buffer b :: Op.stream ⟨id, Ty.stream Ty.i1 1⟩ Loc.unknown :: rest')
  | plain {b : Value} {rest rest' : List Op} :
      ¬ shared b → StreamsInserted shared lo rest rest' →
      StreamsInserted shared lo (Op.buffer b :: rest) (Op.buffer b :: rest')
  | node {u u' : Nat} {n n' : Node} {rest rest' : List Op} :
      StreamsInserted shared lo rest rest' →
      StreamsInserted shared lo (Op.node u n :: rest) (Op.node u' n' :: rest')
  | stream {c : Value} {l : Loc} {rest rest' : List Op} :
      StreamsInserted shared lo rest rest' →
      StreamsInserted shared lo (Op.stream c l :: rest) (Op.stream c l :: rest')
  | other {k : Nat} {rest rest' : List Op} :
      StreamsInserted shared lo rest rest' →
      StreamsInserted shared lo (Op.other k :: rest) (Op.other k :: rest')

/-- The stream `t` is the token of the buffer `b0` in the schedule `ops`: its
`StreamOp` stands right after the `BufferOp`, and every node writes it once if it
has the buffer among its outputs and never otherwise, and reads it once if it has
the buffer among its inputs and never otherwise. -/
def TokenFor (b0 t : Value) (ops : List Op) : Prop :=
  (∃ pre post, ops = pre ++ Op.buffer b0 :: Op.stream t Loc.unknown :: post) ∧
    ∀ n ∈ nodesOf ops,
      n.writesTo t = (if b0 ∈ n.outputs then 1 else 0) ∧
      n.readsOf t = (if b0 ∈ n.inputs then 1 else 0)

/-! ## A pipeline of three stages -/

/-- The first buffer of the pipeline. -/
def Pipeline.bufA : Value := ⟨0, .memref 0⟩

/-- The second buffer of the pipeline. -/
def Pipeline.bufB : Value := ⟨1, .memref 0⟩

/-- The first stage writes `bufA`. -/
def Pipeline.N1 : Node :=
  { loc := .known 1, inputs := [], outputs := [Pipeline.bufA], params := [], inputTaps := [],
    level := none, body := { args := [⟨2, .memref 0, .known 1⟩], ops := [.other 1] } }

/-- The middle stage reads `bufA` and writes `bufB`. -/
def Pipeline.N2 : Node :=
  { loc := .known 2, inputs := [Pipeline.bufA], outputs := [Pipeline.bufB], params := [],
    inputTaps := [0], level := none,
    body := { args := [⟨3, .memref 0, .known 2⟩, ⟨4, .memref 0, .known 2⟩], ops := [.other 2] } }

/-- The last stage reads `bufB`. -/
def Pipeline.N3 : Node :=
  { loc := .known 3, inputs := [Pipeline.bufB], outputs := [], params := [], inputTaps := [0],
    level := none, body := { args := [⟨5, .memref 0, .known 3⟩], ops := [.other 3] } }

/-- The schedule of the pipeline. -/
def Pipeline.schedule : PassState :=
  { ops := [.buffer Pipeline.bufA, .buffer Pipeline.bufB, .node 10 Pipeline.N1,
      .node 11 Pipeline.N2, .node 12 Pipeline.N3],
    next := 20, failed := false }

/-- The operations the producer rebuilds append, one pair per token: the constant
`true` with result `c` and the write of `c` to the block argument `a`. -/
def writePairs : List (Nat × Nat) → List BodyOp
  | [] => []
  | (a, c) :: rest => .constant c true :: .streamWrite a c :: writePairs rest

/-- The body of `n'` is the body of `n` between token reads in front and
constant/write pairs behind. -/
def BodyWrapped (n n' : Node) : Prop :=
  ∃ (reads : List Nat) (writes : List (Nat × Nat)),
    n'.body.ops = reads.map BodyOp.streamRead ++ n.body.ops ++ writePairs writes

end CreateTokenStream

/-! # The HLS C++ emitter -/

namespace EmitHLSCpp

/-! ## Data model -/

/-- Signedness of an integer type. -/
inductive Signedness where
  | signless
  | signed
  | unsigned
  deriving DecidableEq, Repr

/-- Types of values, by the kinds `emitValue` and `getName` switch on. -/
inductive Ty where
  | f32
  | f64
  | index
  | integer (width : Nat) (signedness : Signedness)
  | memref (shape : List Int) (elem : Ty)
  | other (k : Nat)
  deriving DecidableEq, Repr

/-- The value attribute of a `ConstantOp`, by the kind of its type: a float
attribute of type `f32` or `f64`, given by the text `to_string` renders its
double as (never empty: its first character and the rest); an integer attribute
of type `index` or integer, given by its value; an attribute of any other type. -/
inductive ConstAttr where
  | float (head : Char) (tail : String)
  | integer (value : Int)
  | other (k : Nat)
  deriving DecidableEq, Repr

/-- How a value is defined: as a block argument, as the result of a `ConstantOp`,
or as the result of another operation. -/
inductive ValueDef where
  | blockArgument
  | constant (attr : ConstAttr)
  | operation (k : Nat)
  deriving DecidableEq, Repr

/-- An SSA value: its identity, its type and its definition. -/
structure Value where
  id : Nat
  ty : Ty
  defn : ValueDef
  deriving DecidableEq, Repr

/-- The state shared by the emitters (`HLSCppEmitterState`) together with the name
table of the `ModuleEmitter`: the text written to the stream so far, the failure
flag, the number of diagnostics reported through `emitError` (they go to the
diagnostic engine), the indentation, and the name table as its entries in order
of insertion. -/
structure HLSCppEmitterState where
  os : String
  encounteredError : Bool
  diagnostics : Nat
  currentIndent : Nat
  nameTable : List (Value × String)
  deriving DecidableEq, Repr

/-- The state of a fresh emitter. -/
def HLSCppEmitterState.init : HLSCppEmitterState :=
  { os := "", encounteredError := false, diagnostics := 0, currentIndent := 0, nameTable := [] }

/-! ## The name table -/

/-- The name recorded for `val`, if the table has an entry for it. -/
def find? : List (Value × String) → Value → Option String
  | [], _ => none
  | (k, name) :: rest, val => if k = val then some name else find? rest val

/-- Reading `nameTable[val]`: the recorded name; when there is no entry, an entry
with the empty name is inserted and the empty name is returned. -/
def lookupOrInsert (table : List (Value × String)) (val : Value) :
    String × List (Value × String) :=
  match find? table val with
  | some name => (name, table)
  | none => ("", table ++ [(val, "")])

/-- Writing `nameTable[val] = name`: the entry of `val` is overwritten, or
inserted when there is none. -/
def assign : List (Value × String) → Value → String → List (Value × String)
  | [], val, name => [(val, name)]
  | (k, old) :: rest, val, name =>
      if k = val then (k, name) :: rest else (k, old) :: assign rest val name

/-! ## Naming -/

/-- Report of an error on an operation (`HLSCppEmitterBase::emitError`): the
failure flag is set; the diagnostic goes to the diagnostic engine, not to the
output stream, and is counted. -/
def emitError (st : HLSCppEmitterState) : HLSCppEmitterState :=
  { st with encounteredError := true, diagnostics := st.diagnostics + 1 }

/-- `ModuleEmitter::getName`.  The result is `none` where the C++ function reports
an unsupported constant type and then flows off its end without returning. -/
def getName (val : Value) (st : HLSCppEmitterState) : Option (String × HLSCppEmitterState) :=
  match val.defn with
  | .blockArgument =>
      let r := lookupOrInsert st.nameTable val
      some (r.1, { st with nameTable := r.2 })
  | .constant (.float head tail) => some (String.singleton head ++ tail, st)
  | .constant (.integer value) => some (toString value, st)
  | .constant (.other _) => none
  | .operation _ =>
      let r := lookupOrInsert st.nameTable val
      some (r.1, { st with nameTable := r.2 })

/-- `ModuleEmitter::addName`: the new name is `val` followed by the size of the
name table, after `*` for a pointer. -/
def addName (val : Value) (isPtr : Bool) (st : HLSCppEmitterState) :
    String × HLSCppEmitterState :=
  let newName := (if isPtr then "*" else "") ++ ("val" ++ toString st.nameTable.length)
  (newName, { st with nameTable := assign st.nameTable val newName })

/-- The type `emitValue` lowers: the element type of a memref type, the type
itself otherwise. -/
def elementType : Ty → Ty
  | .memref _ elem => elem
  | t => t

/-- The type prefix `emitValue` writes for a new value; for a type it cannot
lower it reports an error on the defining operation, which a block argument
does not have (`none`). -/
def emitValueType (val : Value) (st : HLSCppEmitterState) : Option HLSCppEmitterState :=
  match elementType val.ty with
  | .f32 => some { st with os := st.os ++ "float " }
  | .f64 => some { st with os := st.os ++ "double " }
  | .index => some { st with os := st.os ++ "int " }
  | .integer width signedness =>
      some { st with
        os := st.os ++ "ap_" ++ (if signedness = .unsigned then "u" else "") ++ "int<" ++
          toString width ++ "> " }
  | _ =>
      match val.defn with
      | .blockArgument => none
      | _ => some (emitError st)

/-- `ModuleEmitter::emitValue`. -/
def emitValue (val : Value) (isPtr : Bool) (st : HLSCppEmitterState) :
    Option HLSCppEmitterState :=
  match getName val st with
  | none => none
  | some (valName, st1) =>
      if valName ≠ "" then
        some { st1 with os := st1.os ++ valName }
      else
        match emitValueType val st1 with
        | none => none
        | some st2 =>
            let r := addName val isPtr st2
            some { r.2 with os := r.2.os ++ r.1 }

/-! ## Sequences of calls -/

/-- A call of `getName` or of `emitValue`. -/
inductive Call where
  | getName (val : Value)
  | emitValue (val : Value) (isPtr : Bool)
  deriving DecidableEq, Repr

/-- One call, on the state. -/
def runCall (st : HLSCppEmitterState) : Call → Option HLSCppEmitterState
  | .getName val => (getName val st).map Prod.snd
  | .emitValue val isPtr => emitValue val isPtr st

/-- A sequence of calls, in order. -/
def runCalls : List Call → HLSCppEmitterState → Option HLSCppEmitterState
  | [], st => some st
  | c :: rest, st =>
      match runCall st c with
      | none => none
      | some st1 => runCalls rest st1

/-- Two distinct values never share a non-empty identifier in the table. -/
def NamesInjective (table : List (Value × String)) : Prop :=
  ∀ v w name, (v, name) ∈ table → (w, name) ∈ table → name ≠ "" → v = w

/-- Whether the value is the result of a `ConstantOp`. -/
def Value.isConstant (v : Value) : Bool :=
  match v.defn with
  | .constant _ => true
  | _ => false

/-- Declaration before use: every `getName` call of the sequence is on a constant
or on a value an earlier `emitValue` call (or one of `declared`) was on. -/
def declaredBeforeUse : List Value → List Call → Bool
  | _, [] => true
  | declared, .getName val :: rest =>
      (val.isConstant || decide (val ∈ declared)) && declaredBeforeUse declared rest
  | declared, .emitValue val _ :: rest => declaredBeforeUse (val :: declared) rest

/-- No `emitValue` call of the sequence is on a value that holds an empty entry in
the name table at the time of the call, that is, on a value `getName` was called
on before any `emitValue` call was. -/
def declaresNoUsedValue : HLSCppEmitterState → List Call → Bool
  | _, [] => true
  | st, c :: rest =>
      (match c with
        | .emitValue val _ => decide (find? st.nameTable val ≠ some "")
        | .getName _ => true) &&
      (match runCall st c with
        | some st1 => declaresNoUsedValue st1 rest
        | none => true)

/-- The value a call is on. -/
def Call.value : Call → Value
  | .getName val => val
  | .emitValue val _ => val

/-- Whether the C++ functions return on the value: it is not a constant of an
unsupported type, and it is not a block argument of a type `emitValue` cannot
lower. -/
def Value.emittable (v : Value) : Bool :=
  match v.defn with
  | .constant (.other _) => false
  | .blockArgument =>
      match elementType v.ty with
      | .f32 => true
      | .f64 => true
      | .index => true
      | .integer _ _ => true
      | _ => false
  | _ => true

/-- The digit a character stands for. -/
def digitValue (c : Char) : Nat := c.toNat - 48

/-- The number a list of decimal digits stands for. -/
def decodeDigits (l : List Char) : Nat :=
  l.foldl (fun acc c => acc * 10 + digitValue c) 0

/-- The name `addName` builds from the pointer flag and the table size. -/
def mkName (isPtr : Bool) (size : Nat) : String :=
  (if isPtr then "*" else "") ++ ("val" ++ toString size)

/-- The invariant of the name table under declaration before use: the keys are
distinct and the entry at position `i` holds the name numbered `i + 1`. -/
def TableInv (table : List (Value × String)) : Prop :=
  (table.map Prod.fst).Nodup ∧
    ∀ i k name, table[i]? = some (k, name) → ∃ isPtr, name = mkName isPtr (i + 1)

/-- The invariant of the name table when no value is declared after it was used:
the keys are distinct and the entry at position `i` holds the empty name or the
name numbered `i + 1`. -/
def Numbered (table : List (Value × String)) : Prop :=
  (table.map Prod.fst).Nodup ∧
    ∀ i k name, table[i]? = some (k, name) → name = "" ∨ ∃ isPtr, name = mkName isPtr (i + 1)

/-- The invariant of a run under declaration before use: the table invariant
holds and every declared value that is not a constant has an entry. -/
def RunInv (declared : List Value) (st : HLSCppEmitterState) : Prop :=
  TableInv st.nameTable ∧
    ∀ v ∈ declared, v.isConstant = true ∨ v ∈ st.nameTable.map Prod.fst

/-! ## Operations, functions, modules -/

/-- The binary operations of the vocabulary other than comparisons. -/
inductive BinaryKind where
  | addF | subF | mulF | divF | remF
  | addI | subI | mulI | signedDivI | signedRemI | unsignedDivI | unsignedRemI
  | xOr | and | or | shiftLeft | signedShiftRight | unsignedShiftRight
  deriving DecidableEq, Repr

/-- The unary operations of the vocabulary. -/
inductive UnaryKind where
  | absF | ceilF | negF | cos | sin | tanh | sqrt | rsqrt | exp | exp2 | log | log2 | log10
  deriving DecidableEq, Repr

/-- The predicates of `CmpFOp`. -/
inductive CmpFPredicate where
  | AlwaysFalse | OEQ | OGT | OGE | OLT | OLE | ONE | ORD
  | UEQ | UGT | UGE | ULT | ULE | UNE | UNO | AlwaysTrue
  deriving DecidableEq, Repr

/-- The predicates of `CmpIOp`. -/
inductive CmpIPredicate where
  | eq | ne | slt | sle | sgt | sge | ult | ule | ugt | uge
  deriving DecidableEq, Repr

/-- Operations, by the cases of `dispatchVisitor`, with the operands, results and
attributes the emitters read.  `affineFor` carries its induction variable, its
constant bounds when it has them, its step and the operations of the front block
of its region; `unsupported` is any operation outside the vocabulary. -/
inductive Operation where
  | alloc (result : Value)
  | load (result base : Value) (indices : List Value)
  | store (value base : Value) (indices : List Value)
  | affineFor (iv : Value) (lb ub : Option Int) (step : Int) (body : List Operation)
  | affineIf
  | affineParallel
  | affineApply
  | affineMax
  | affineMin
  | affineLoad
  | affineStore
  | unary (kind : UnaryKind) (result operand : Value)
  | binary (kind : BinaryKind) (result lhs rhs : Value)
  | cmpF (predicate : CmpFPredicate) (result lhs rhs : Value)
  | cmpI (predicate : CmpIPredicate) (result lhs rhs : Value)
  | affineYield
  | constant (result : Value)
  | return (operands : List Value)
  | unsupported (k : Nat)

/-- A block of a function body: its arguments and its operations, the last of
which is its terminator. -/
structure FuncBlock where
  args : List Value
  ops : List Operation

/-- A `FuncOp`: its name, the number of results of its type, and its blocks. -/
structure FuncOp where
  name : String
  numResults : Nat
  blocks : List FuncBlock

/-- An operation of the body of a module. -/
inductive TopLevelOp where
  | func (f : FuncOp)
  | moduleTerminator
  | other (k : Nat)

/-! ## Emission -/

/-- Why an emitter does not return: the process is aborted (`abort()`), in the
state given, or the behaviour of the C++ code is undefined. -/
inductive Stop where
  | aborted (st : HLSCppEmitterState)
  | undefined
  deriving DecidableEq, Repr

/-- The result of an emitter: the state it returns in, or why it does not return. -/
abbrev Emit := Except Stop HLSCppEmitterState

/-- Undefined behaviour of `getName` and `emitValue` carried over. -/
def orUndefined {α : Type} : Option α → Except Stop α
  | some a => .ok a
  | none => .error .undefined

/-- The text written by `raw_ostream::indent(n)`: `n` spaces. -/
def spaces (n : Nat) : String := String.mk (List.replicate n ' ')

/-- `os << text`. -/
def write (st : HLSCppEmitterState) (text : String) : HLSCppEmitterState :=
  { st with os := st.os ++ text }

/-- `HLSCppEmitterBase::indent`. -/
def indent (st : HLSCppEmitterState) : HLSCppEmitterState :=
  write st (spaces st.currentIndent)

/-- `HLSCppEmitterBase::addIndent`. -/
def addIndent (st : HLSCppEmitterState) : HLSCppEmitterState :=
  { st with currentIndent := st.currentIndent + 2 }

/-- `HLSCppEmitterBase::reduceIndent`; it is only called after `addIndent`, so
the unsigned subtraction does not wrap. -/
def reduceIndent (st : HLSCppEmitterState) : HLSCppEmitterState :=
  { st with currentIndent := st.currentIndent - 2 }

/-- The shape of a memref type. -/
def Ty.shape : Ty → List Int
  | .memref shape _ => shape
  | _ => []

/-- The loop `for (auto &shape : ...) os << "[" << shape << "]"` of `emitFunction`. -/
def emitShape (shape : List Int) (st : HLSCppEmitterState) : HLSCppEmitterState :=
  shape.foldl (fun s d => write s ("[" ++ toString d ++ "]")) st

/-- `ModuleEmitter::emitAlloc`. -/
def emitAlloc (result : Value) (st : HLSCppEmitterState) : Emit :=
  match emitValue result false (indent st) with
  | none => .error .undefined
  | some st1 =>
      .ok (result.ty.shape.foldl (fun s d => write s ("[" ++ toString d ++ "];\n")) st1)

/-- The loop of `emitLoad` over the indices. -/
def emitLoadIndices : List Value → HLSCppEmitterState → Emit
  | [], st => .ok st
  | indice :: rest, st =>
      match getName indice st with
      | none => .error .undefined
      | some (name, st1) => emitLoadIndices rest (write st1 ("[" ++ name ++ "];\n"))

/-- `ModuleEmitter::emitLoad`. -/
def emitLoad (result base : Value) (indices : List Value) (st : HLSCppEmitterState) : Emit :=
  match emitValue result false (indent st) with
  | none => .error .undefined
  | some st1 =>
      match getName base st1 with
      | none => .error .undefined
      | some (name, st2) => emitLoadIndices indices (write st2 (" = " ++ name))

/-- The loop of `emitStore` over the indices. -/
def emitStoreIndices : List Value → HLSCppEmitterState → Emit
  | [], st => .ok st
  | indice :: rest, st =>
      match getName indice st with
      | none => .error .undefined
      | some (name, st1) => emitStoreIndices rest (write st1 ("[" ++ name ++ "]"))

/-- `ModuleEmitter::emitStore`. -/
def emitStore (value base : Value) (indices : List Value) (st : HLSCppEmitterState) : Emit :=
  match getName base (indent st) with
  | none => .error .undefined
  | some (name, st1) =>
      match emitStoreIndices indices (write st1 name) with
      | .error e => .error e
      | .ok st2 =>
          match getName value st2 with
          | none => .error .undefined
          | some (vname, st3) => .ok (write st3 (" = " ++ vname ++ ";\n"))

/-- `ModuleEmitter::emitBinary`. -/
def emitBinary (result lhs rhs : Value) (syntaxText : String) (st : HLSCppEmitterState) :
    Emit :=
  match emitValue result false (indent st) with
  | none => .error .undefined
  | some st1 =>
      match getName lhs st1 with
      | none => .error .undefined
      | some (l, st2) =>
          match getName rhs (write (write st2 (" = " ++ l)) (" " ++ syntaxText ++ " ")) with
          | none => .error .undefined
          | some (r, st3) => .ok (write st3 (r ++ ";\n"))

/-- `ModuleEmitter::emitUnary`. -/
def emitUnary (result operand : Value) (syntaxText : String) (st : HLSCppEmitterState) :
    Emit :=
  match emitValue result false (indent st) with
  | none => .error .undefined
  | some st1 =>
      match getName operand st1 with
      | none => .error .undefined
      | some (name, st2) => .ok (write st2 (" = " ++ syntaxText ++ "(" ++ name ++ ");\n"))

/-- The operator table of `ExprVisitor` for the binary operations. -/
def binarySyntax : BinaryKind → String
  | .addF => "+"
  | .subF => "-"
  | .mulF => "*"
  | .divF => "/"
  | .remF => "%"
  | .addI => "+"
  | .subI => "-"
  | .mulI => "*"
  | .signedDivI => "/"
  | .signedRemI => "/"
  | .unsignedDivI => "%"
  | .unsignedRemI => "%"
  | .xOr => "^"
  | .and => "&"
  | .or => "|"
  | .shiftLeft => "<<"
  | .signedShiftRight => ">>"
  | .unsignedShiftRight => ">>"

/-- The function table of `ExprVisitor` for the unary operations. -/
def unarySyntax : UnaryKind → String
  | .absF => "abs"
  | .ceilF => "ceil"
  | .negF => "-"
  | .cos => "cos"
  | .sin => "sin"
  | .tanh => "tanh"
  | .sqrt => "sqrt"
  | .rsqrt => "1.0 / sqrt"
  | .exp => "exp"
  | .exp2 => "exp2"
  | .log => "log"
  | .log2 => "log2"
  | .log10 => "log10"

/-- The operator `ExprVisitor::visitOp(CmpFOp)` emits, if it emits one. -/
def cmpFSyntax : CmpFPredicate → Option String
  | .OEQ => some "=="
  | .UEQ => some "=="
  | .ONE => some "!="
  | .UNE => some "!="
  | .OLT => some "<"
  | .ULT => some "<"
  | .OLE => some "<="
  | .ULE => some "<="
  | .OGT => some ">"
  | .UGT => some ">"
  | .OGE => some ">="
  | .UGE => some ">="
  | _ => none

/-- The operator `ExprVisitor::visitOp(CmpIOp)` emits. -/
def cmpISyntax : CmpIPredicate → String
  | .eq => "=="
  | .ne => "!="
  | .slt => "<"
  | .ult => "<"
  | .sle => "<="
  | .ule => "<="
  | .sgt => ">"
  | .ugt => ">"
  | .sge => ">="
  | .uge => ">="

/-- The result of a visitor: whether it claimed the operation, and the state. -/
abbrev Visit := Except Stop (Bool × HLSCppEmitterState)

/-- A visitor claims the operation when its emitter returns. -/
def claimed : Emit → Visit
  | .ok st => .ok (true, st)
  | .error e => .error e

/-- `ExprVisitor(*this).dispatchVisitor(op)`: the expressions are emitted and
claimed, the other operations of the vocabulary are not handled (`false`), an
operation outside the vocabulary reaches `visitInvalidOp`, which reports it on
the operation and calls `abort()`. -/
def ExprVisitor.dispatchVisitor (op : Operation) (st : HLSCppEmitterState) : Visit :=
  match op with
  | .binary kind result lhs rhs => claimed (emitBinary result lhs rhs (binarySyntax kind) st)
  | .cmpF predicate result lhs rhs =>
      match cmpFSyntax predicate with
      | some s => claimed (emitBinary result lhs rhs s st)
      | none => .ok (true, st)
  | .cmpI predicate result lhs rhs =>
      claimed (emitBinary result lhs rhs (cmpISyntax predicate) st)
  | .unary kind result operand => claimed (emitUnary result operand (unarySyntax kind) st)
  | .affineYield => .ok (true, st)
  | .constant _ => .ok (true, st)
  | .return _ => .ok (true, st)
  | .unsupported _ => .error (.aborted st)
  | _ => .ok (false, st)

/-- The header of the loop written by `emitAffineFor`, up to the opening brace. -/
def emitAffineForHeader (iv : Value) (lb ub : Option Int) (step : Int)
    (st : HLSCppEmitterState) : Emit :=
  match emitValue iv false (write (indent st) "for (") with
  | none => .error .undefined
  | some st1 =>
      let st2 := match lb with
        | some l => write st1 (" = " ++ toString l ++ "; ")
        | none => st1
      match (match ub with
          | some u =>
              match getName iv st2 with
              | none => none
              | some (name, st3) => some (write st3 (name ++ " < " ++ toString u ++ "; "))
          | none => some st2) with
      | none => .error .undefined
      | some st4 =>
          match getName iv st4 with
          | none => .error .undefined
          | some (name, st5) => .ok (write st5 (name ++ " += " ++ toString step ++ ") \x7b\n"))

/-- `ModuleEmitter::emitAffineFor`.  The operations of the region of the loop are
below the loop in the syntax tree, so the emission of the region
(`emitRegion(op->getRegion())`) is taken as the argument `emitRegion`. -/
def emitAffineFor (emitRegion : HLSCppEmitterState → Emit) (iv : Value) (lb ub : Option Int)
    (step : Int) (st : HLSCppEmitterState) : Emit :=
  match emitAffineForHeader iv lb ub step st with
  | .error e => .error e
  | .ok st1 =>
      match emitRegion st1 with
      | .error e => .error e
      | .ok st2 => .ok (write (indent st2) "\x7d\n")

/-- `StmtVisitor(*this).dispatchVisitor(op)`: the statements are emitted and
claimed, the other operations of the vocabulary are not handled (`false`), an
operation outside the vocabulary reaches `visitInvalidOp`.  The argument
`emitRegion` is the emission of the region of `op`, which `emitAffineFor` calls. -/
def StmtVisitor.dispatchVisitor (emitRegion : HLSCppEmitterState → Emit) (op : Operation)
    (st : HLSCppEmitterState) : Visit :=
  match op with
  | .alloc result => claimed (emitAlloc result st)
  | .load result base indices => claimed (emitLoad result base indices st)
  | .store value base indices => claimed (emitStore value base indices st)
  | .affineFor iv lb ub step _ => claimed (emitAffineFor emitRegion iv lb ub step st)
  | .affineIf => .ok (true, st)
  | .affineParallel => .ok (true, st)
  | .affineApply => .ok (true, st)
  | .affineMax => .ok (true, st)
  | .affineMin => .ok (true, st)
  | .affineLoad => .ok (true, st)
  | .affineStore => .ok (true, st)
  | .unsupported _ => .error (.aborted st)
  | _ => .ok (false, st)

/-- The body of `ModuleEmitter::emitOperation`: the expression visitor, then the
statement visitor, then the error; `emitRegion` is the emission of the region of
`op`. -/
def emitOperationWith (emitRegion : HLSCppEmitterState → Emit) (op : Operation)
    (st : HLSCppEmitterState) : Emit :=
  match ExprVisitor.dispatchVisitor op st with
  | .error e => .error e
  | .ok (true, st1) => .ok st1
  | .ok (false, st1) =>
      match StmtVisitor.dispatchVisitor emitRegion op st1 with
      | .error e => .error e
      | .ok (true, st2) => .ok st2
      | .ok (false, st2) => .ok (emitError st2)

mutual

/-- `ModuleEmitter::emitOperation`.  For the affine loop the emission of the
region is `emitRegion`: `addIndent`, the operations of the front block,
`reduceIndent`; the emitters of the other operations do not enter a region. -/
def emitOperation : Operation → HLSCppEmitterState → Emit
  | .affineFor iv lb ub step body, st =>
      emitOperationWith
        (fun s =>
          match emitBlock body (addIndent s) with
          | .error e => .error e
          | .ok s2 => .ok (reduceIndent s2))
        (.affineFor iv lb ub step body) st
  | op, st => emitOperationWith (fun s => .ok s) op st

/-- The loop `for (auto &op : block) emitOperation(&op)`. -/
def emitBlock : List Operation → HLSCppEmitterState → Emit
  | [], st => .ok st
  | op :: rest, st =>
      match emitOperation op st with
      | .error e => .error e
      | .ok st1 => emitBlock rest st1

end

/-- `ModuleEmitter::emitRegion`, on the operations of the front block of the
region. -/
def emitRegion (body : List Operation) (st : HLSCppEmitterState) : Emit :=
  match emitBlock body (addIndent st) with
  | .error e => .error e
  | .ok st2 => .ok (reduceIndent st2)

/-- The value of `n - 1` in `unsigned` arithmetic. -/
def unsignedPred (n : Nat) : Nat := (n + 4294967295) % 4294967296

/-- The loop of `emitFunction` over the arguments; `argIdx` counts them. -/
def emitFunctionArguments (numArguments numResults : Nat) :
    List Value → Nat → HLSCppEmitterState → Emit
  | [], _, st => .ok st
  | arg :: rest, argIdx, st =>
      match emitValue arg false (indent st) with
      | none => .error .undefined
      | some st1 =>
          let st2 := emitShape arg.ty.shape st1
          let st3 :=
            if argIdx = unsignedPred numArguments ∧ numResults = 0 then write st2 "\n"
            else write st2 ",\n"
          emitFunctionArguments numArguments numResults rest (argIdx + 1) st3

/-- The loop of `emitFunction` over the operands of the return; `resultIdx` counts
them. -/
def emitFunctionResults (numResults : Nat) : List Value → Nat → HLSCppEmitterState → Emit
  | [], _, st => .ok st
  | result :: rest, resultIdx, st =>
      match emitValue result true (indent st) with
      | none => .error .undefined
      | some st1 =>
          let st2 := emitShape result.ty.shape st1
          let st3 :=
            if resultIdx = unsignedPred numResults then write st2 "\n" else write st2 ",\n"
          emitFunctionResults numResults rest (resultIdx + 1) st3

/-- `ModuleEmitter::emitFunction`.  A function without a block has no front block
to take the arguments from, and a front block without operations has no
terminator (undefined behaviour).  The number of arguments of the function type
is the number of arguments of the front block. -/
def emitFunction (func : FuncOp) (st : HLSCppEmitterState) : Emit :=
  let st0 := if func.blocks.length ≠ 1 then emitError st else st
  let st1 := addIndent (write st0 ("void " ++ func.name ++ "(\n"))
  match func.blocks with
  | [] => .error .undefined
  | front :: _ =>
      match emitFunctionArguments front.args.length func.numResults front.args 0 st1 with
      | .error e => .error e
      | .ok st2 =>
          match front.ops.getLast? with
          | none => .error .undefined
          | some terminator =>
              match (match terminator with
                  | .return operands => emitFunctionResults func.numResults operands 0 st2
                  | _ => .ok (emitError st2)) with
              | .error e => .error e
              | .ok st3 =>
                  match emitBlock front.ops (addIndent (write (reduceIndent st3) ") \x7b\n")) with
                  | .error e => .error e
                  | .ok st4 => .ok (write (reduceIndent st4) "\x7d\n")

/-- The text `emitModule` starts the output with. -/
def preamble : String :=
  "\n" ++
  "//===------------------------------------------------------------*- C++ -*-===//\n" ++
  "//\n" ++
  "// Automatically generated file for High-level Synthesis (HLS).\n" ++
  "//\n" ++
  "//===----------------------------------------------------------------------===//\n" ++
  "\n" ++
  "\x23include <ap_axi_sdata.h>\n" ++
  "\x23include <ap_fixed.h>\n" ++
  "\x23include <ap_int.h>\n" ++
  "\x23include <hls_math.h>\n" ++
  "\x23include <hls_stream.h>\n" ++
  "\x23include <math.h>\n" ++
  "\x23include <stdint.h>\n" ++
  "\n"

/-- The loop of `emitModule` over the operations of the module body. -/
def emitTopLevel : List TopLevelOp → HLSCppEmitterState → Emit
  | [], st => .ok st
  | .func f :: rest, st =>
      match emitFunction f st with
      | .error e => .error e
      | .ok st1 => emitTopLevel rest st1
  | .moduleTerminator :: rest, st => emitTopLevel rest st
  | .other _ :: rest, st => emitTopLevel rest (emitError st)

/-- `ModuleEmitter::emitModule`. -/
def emitModule (module : List TopLevelOp) (st : HLSCppEmitterState) : Emit :=
  emitTopLevel module (write st preamble)

/-- `mlir::LogicalResult`. -/
inductive LogicalResult where
  | success
  | failure
  deriving DecidableEq, Repr

/-- `mlir::failure(bool isFailure)`. -/
def failure (isFailure : Bool) : LogicalResult :=
  if isFailure then LogicalResult.failure else LogicalResult.success

/-- `emitHLSCpp`: a fresh state, `emitModule`, and the result made of the failure
flag; the final state is returned with it, for the text written and the
diagnostics reported. -/
def emitHLSCpp (module : List TopLevelOp) : Except Stop (LogicalResult × HLSCppEmitterState) :=
  match emitModule module HLSCppEmitterState.init with
  | .error e => .error e
  | .ok st => .ok (failure st.encounteredError, st)

/-- Whether the kind of the operation is in the list of `dispatchVisitor`. -/
def Operation.inVocabulary : Operation → Bool
  | .unsupported _ => false
  | _ => true

/-- Whether `ExprVisitor` overrides `visitOp` for the kind of the operation; each
of its overrides returns `true`, the inherited `visitOp` returns `false`. -/
def ExprVisitor.claims : Operation → Bool
  | .unary _ _ _ => true
  | .binary _ _ _ _ => true
  | .cmpF _ _ _ _ => true
  | .cmpI _ _ _ _ => true
  | .affineYield => true
  | .constant _ => true
  | .return _ => true
  | _ => false

/-- Whether `StmtVisitor` overrides `visitOp` for the kind of the operation; each
of its overrides returns `true`, the inherited `visitOp` returns `false`. -/
def StmtVisitor.claims : Operation → Bool
  | .alloc _ => true
  | .load _ _ _ => true
  | .store _ _ _ => true
  | .affineFor _ _ _ _ _ => true
  | .affineIf => true
  | .affineParallel => true
  | .affineApply => true
  | .affineMax => true
  | .affineMin => true
  | .affineLoad => true
  | .affineStore => true
  | _ => false

/-- The emission of the region of an operation, `emitRegion(op->getRegion())`, for
the operation whose emitter calls it, the affine loop; the emitters of the other
operations do not call `emitRegion`. -/
def emitRegionOf : Operation → HLSCppEmitterState → Emit
  | .affineFor _ _ _ _ body => emitRegion body
  | _ => fun s => .ok s

/-- The state a visitor returns in. -/
def stateOf : Visit → Emit
  | .ok (_, st) => .ok st
  | .error e => .error e

/-! ## Auxiliary notions for the proofs about emission -/

/-- The type prefix of a declaration, for the types `emitValue` lowers. -/
def typeText : Ty → Option String
  | .f32 => some "float "
  | .f64 => some "double "
  | .index => some "int "
  | .integer width signedness =>
      some ("ap_" ++ (if signedness = .unsigned then "u" else "") ++ "int<" ++ toString width ++
        "> ")
  | _ => none

/-- The value has the name `name`: `getName` returns it, not empty, and leaves
the state as it is. -/
def HasName (st : HLSCppEmitterState) (val : Value) (name : String) : Prop :=
  getName val st = some (name, st) ∧ name ≠ ""

instance (st : HLSCppEmitterState) (val : Value) (name : String) :
    Decidable (HasName st val name) := by
  unfold HasName; infer_instance

/-- The value is fresh: it is not a constant and the name table has no entry
for it. -/
def Fresh (st : HLSCppEmitterState) (val : Value) : Prop :=
  val.isConstant = false ∧ find? st.nameTable val = none

instance (st : HLSCppEmitterState) (val : Value) : Decidable (Fresh st val) := by
  unfold Fresh; infer_instance

/-- The state after the declaration of a fresh value of type prefix `prefixText`:
the prefix and the new name are written, the value is entered in the name table
under the next number. -/
def declared (st : HLSCppEmitterState) (val : Value) (isPtr : Bool) (prefixText : String) :
    HLSCppEmitterState :=
  { os := st.os ++ prefixText ++ mkName isPtr (st.nameTable.length + 1),
    encounteredError := st.encounteredError,
    diagnostics := st.diagnostics,
    currentIndent := st.currentIndent,
    nameTable := st.nameTable ++ [(val, mkName isPtr (st.nameTable.length + 1))] }

/-- The failure flag follows the diagnostics reported through `emitError`: none
is withdrawn, and the flag is set afterwards exactly when it was set before or a
diagnostic has been reported in between. -/
def Reports (st st' : HLSCppEmitterState) : Prop :=
  st.diagnostics ≤ st'.diagnostics ∧
    (st'.encounteredError = true ↔
      st.encounteredError = true ∨ st.diagnostics < st'.diagnostics)

/-- What every emitter keeps when it returns: the indentation is the one it
started with, a failure flag that is set stays set, the flag follows the
diagnostics, and the output is extended. -/
def Extends (st st' : HLSCppEmitterState) : Prop :=
  st'.currentIndent = st.currentIndent ∧
    (st.encounteredError = true → st'.encounteredError = true) ∧
    Reports st st' ∧
    ∃ text, st'.os = st.os ++ text

/-- The state after the header of a loop with constant bounds whose induction
variable is fresh and of type `index`: the indentation and the header are
written, the induction variable is entered in the name table under the next
number. -/
def afterLoopHeader (st : HLSCppEmitterState) (iv : Value) (lb ub step : Int) :
    HLSCppEmitterState :=
  { os := st.os ++ (spaces st.currentIndent ++ "for (int " ++
      mkName false (st.nameTable.length + 1) ++ " = " ++ toString lb ++ "; " ++
      mkName false (st.nameTable.length + 1) ++ " < " ++ toString ub ++ "; " ++
      mkName false (st.nameTable.length + 1) ++ " += " ++ toString step ++ ") \x7b\n"),
    encounteredError := st.encounteredError,
    diagnostics := st.diagnostics,
    currentIndent := st.currentIndent,
    nameTable := st.nameTable ++ [(iv, mkName false (st.nameTable.length + 1))] }

/-- The bracketed extents of a shape. -/
def shapeText : List Int → String
  | [] => ""
  | d :: rest => "[" ++ toString d ++ "]" ++ shapeText rest

/-- The parameter of a signature for a fresh value: the indentation, the type
prefix, the identifier with the given number (after `*` for a pointer), the
bracketed extents. -/
def parameterLine (indentation : Nat) (isPtr : Bool) (number : Nat) (val : Value) : String :=
  spaces indentation ++ (typeText (elementType val.ty)).getD "" ++ mkName isPtr number ++
    shapeText val.ty.shape

/-- The parameters for a list of fresh values, numbered consecutively after
`size`. -/
def parameterLines (indentation : Nat) (isPtr : Bool) : Nat → List Value → List String
  | _, [] => []
  | size, val :: rest =>
      parameterLine indentation isPtr (size + 1) val ::
        parameterLines indentation isPtr (size + 1) rest

/-- The entries of the name table for a list of fresh values, numbered
consecutively after `size`. -/
def declarations (isPtr : Bool) : Nat → List Value → List (Value × String)
  | _, [] => []
  | size, val :: rest => (val, mkName isPtr (size + 1)) :: declarations isPtr (size + 1) rest

/-- The lines, each followed by a comma and a newline, the last one by `last`. -/
def separated (last : String) : List String → String
  | [] => ""
  | [line] => line ++ last
  | line :: rest => line ++ ",\n" ++ separated last rest

/-- The state after the signature of a function whose arguments and returned
values are fresh: the signature is written, with one parameter per argument and
then one pointer parameter per returned value, the values are entered in the
name table in that order, the indentation is that of the body. -/
def afterSignature (st : HLSCppEmitterState) (name : String) (args results : List Value) :
    HLSCppEmitterState :=
  { os := st.os ++ ("void " ++ name ++ "(\n" ++
      separated (if results.length = 0 then "\n" else ",\n")
        (parameterLines (st.currentIndent + 2) false st.nameTable.length args) ++
      separated "\n"
        (parameterLines (st.currentIndent + 2) true (st.nameTable.length + args.length)
          results) ++
      ") \x7b\n"),
    encounteredError := st.encounteredError,
    diagnostics := st.diagnostics,
    currentIndent := st.currentIndent + 2,
    nameTable := st.nameTable ++ declarations false st.nameTable.length args ++
      declarations true (st.nameTable.length + args.length) results }

/-- The values can be declared one after the other: they are fresh, of types
`emitValue` lowers, and pairwise distinct. -/
def Declarable (st : HLSCppEmitterState) (vals : List Value) : Prop :=
  vals.Nodup ∧ ∀ v ∈ vals, Fresh st v ∧ (typeText (elementType v.ty)).isSome = true

instance (st : HLSCppEmitterState) (vals : List Value) : Decidable (Declarable st vals) := by
  unfold Declarable; infer_instance

/-- The text an emitter has written when it returns. -/
def outputOf : Emit → Option String
  | .ok st => some st.os
  | .error _ => none

/-- The text an emitter has written when the process is aborted. -/
def abortedOutput : Emit → Option String
  | .error (.aborted st) => some st.os
  | _ => none

/-! ## Example values and states -/

/-- A 4x4 array of `f32` that is a block argument. -/
def Example.A : Value := ⟨1, .memref [4, 4] .f32, .blockArgument⟩

/-- An index that is a block argument. -/
def Example.i : Value := ⟨2, .index, .blockArgument⟩

/-- Another index that is a block argument. -/
def Example.j : Value := ⟨3, .index, .blockArgument⟩

/-- An operation result of type `f32`. -/
def Example.x : Value := ⟨4, .f32, .operation 0⟩

/-- Another operation result of type `f32`. -/
def Example.y : Value := ⟨5, .f32, .operation 1⟩

/-- A third operation result of type `f32`. -/
def Example.z : Value := ⟨6, .f32, .operation 2⟩

/-- A 4x4 array of `f32` that is the result of an operation. -/
def Example.R : Value := ⟨7, .memref [4, 4] .f32, .operation 3⟩

/-- A 32-bit signless integer that is a block argument. -/
def Example.B : Value := ⟨8, .integer 32 .signless, .blockArgument⟩

/-- The induction variable of the example loop. -/
def Example.iv : Value := ⟨9, .index, .blockArgument⟩

/-- A one-dimensional array of `f32` that is the result of an operation. -/
def Example.S : Value := ⟨10, .memref [8] .f32, .operation 4⟩

/-- A function of two blocks whose front block allocates an array and returns. -/
def Example.g : FuncOp :=
  { name := "g", numResults := 0,
    blocks := [
      { args := [], ops := [Operation.alloc Example.S, Operation.return []] },
      { args := [], ops := [Operation.return []] }] }

/-- A function of two blocks whose front block allocates an array and ends with a
branch, an operation outside the vocabulary. -/
def Example.gBranch : FuncOp :=
  { name := "g", numResults := 0,
    blocks := [
      { args := [], ops := [Operation.alloc Example.S, Operation.unsupported 0] },
      { args := [], ops := [Operation.return []] }] }

/-- A function of one block without arguments that returns. -/
def Example.h : FuncOp :=
  { name := "h", numResults := 0, blocks := [{ args := [], ops := [Operation.return []] }] }

/-- A 32-bit signless integer that is the result of an operation. -/
def Example.m : Value := ⟨12, .integer 32 .signless, .operation 5⟩

/-- Another 32-bit signless integer that is the result of an operation. -/
def Example.n : Value := ⟨13, .integer 32 .signless, .operation 6⟩

/-- A third 32-bit signless integer that is the result of an operation. -/
def Example.k : Value := ⟨14, .integer 32 .signless, .operation 7⟩

/-- A state at indentation 2 in which `m` and `n` are named. -/
def Example.integers : HLSCppEmitterState :=
  { os := "", encounteredError := false, diagnostics := 0, currentIndent := 2,
    nameTable := [(Example.m, "val1"), (Example.n, "val2")] }

/-- A state at indentation 2 in which `A`, `i`, `j`, `x` and `y` are named. -/
def Example.named : HLSCppEmitterState :=
  { os := "", encounteredError := false, diagnostics := 0, currentIndent := 2,
    nameTable := [(Example.A, "val1"), (Example.i, "val2"), (Example.j, "val3"),
      (Example.x, "val4"), (Example.y, "val5")] }

end EmitHLSCpp

/-! # Properties of the token-stream insertion pass -/

namespace CreateTokenStream

section InsertAt
variable {α : Type}

@[simp]
theorem insertAt_zero (l : List α) (x : α) : insertAt l 0 x = x :: l := by
  simp [insertAt]

@[simp]
theorem insertAt_nil (i : Nat) (x : α) : insertAt [] i x = [x] := by
  simp [insertAt]

@[simp]
theorem insertAt_cons_succ (a : α) (l : List α) (i : Nat) (x : α) :
    insertAt (a :: l) (i + 1) x = a :: insertAt l i x := by
  simp [insertAt]

@[simp]
theorem length_insertAt (l : List α) (i : Nat) (x : α) :
    (insertAt l i x).length = l.length + 1 := by
  induction l generalizing i with
  | nil => simp
  | cons a l ih => cases i <;> simp [ih]

@[simp]
theorem mem_insertAt (l : List α) (i : Nat) (x y : α) :
    y ∈ insertAt l i x ↔ y = x ∨ y ∈ l := by
  induction l generalizing i with
  | nil => simp
  | cons a l ih =>
    cases i with
    | zero => simp
    | succ i => simp [ih]; tauto

theorem map_insertAt {β : Type} (f : α → β) (l : List α) (i : Nat) (x : α) :
    (insertAt l i x).map f = insertAt (l.map f) i (f x) := by
  simp [insertAt, List.map_take, List.map_drop]

theorem getElem?_insertAt_lt (l : List α) (i p : Nat) (x : α) (h : p < i) (hi : i ≤ l.length) :
    (insertAt l i x)[p]? = l[p]? := by
  induction l generalizing i p with
  | nil => simp at hi; omega
  | cons a l ih =>
    cases i with
    | zero => omega
    | succ i =>
      cases p with
      | zero => simp
      | succ p => simp at hi ⊢; exact ih i p (by omega) hi

theorem getElem?_insertAt_self (l : List α) (i : Nat) (x : α) (hi : i ≤ l.length) :
    (insertAt l i x)[i]? = some x := by
  induction l generalizing i with
  | nil => simp at hi; subst hi; simp
  | cons a l ih =>
    cases i with
    | zero => simp
    | succ i => simp at hi ⊢; exact ih i hi

theorem getElem?_insertAt_ge (l : List α) (i p : Nat) (x : α) (h : i ≤ p) (hi : i ≤ l.length) :
    (insertAt l i x)[p + 1]? = l[p]? := by
  induction l generalizing i p with
  | nil => simp at hi; subst hi; simp
  | cons a l ih =>
    cases i with
    | zero => simp
    | succ i =>
      cases p with
      | zero => omega
      | succ p => simp at hi ⊢; exact ih i p (by omega) hi

theorem indexOf_insertAt_of_ne [DecidableEq α] (l : List α) (i : Nat) (x y : α) (hne : y ≠ x)
    (hi : i ≤ l.length) :
    List.indexOf y (insertAt l i x) =
      if List.indexOf y l < i then List.indexOf y l else List.indexOf y l + 1 := by
  induction l generalizing i with
  | nil => simp at hi; subst hi; simp [List.indexOf_cons, Ne.symm hne]
  | cons a l ih =>
    cases i with
    | zero => simp [List.indexOf_cons, Ne.symm hne]
    | succ i =>
      simp at hi
      by_cases hay : a = y
      · simp [List.indexOf_cons, hay]
      · simp [List.indexOf_cons, hay, ih i hi]
        split <;> rfl

theorem indexOf_insertAt_self [DecidableEq α] (l : List α) (i : Nat) (x : α) (hx : x ∉ l)
    (hi : i ≤ l.length) : List.indexOf x (insertAt l i x) = i := by
  induction l generalizing i with
  | nil => simp at hi; subst hi; simp
  | cons a l ih =>
    cases i with
    | zero => simp
    | succ i =>
      simp at hi hx
      simp [List.indexOf_cons, Ne.symm hx.1, ih i hx.2 hi]

theorem append_insertAt (l₁ l₂ : List α) (i : Nat) (x : α) :
    l₁ ++ insertAt l₂ i x = insertAt (l₁ ++ l₂) (l₁.length + i) x := by
  induction l₁ with
  | nil => simp
  | cons a l ih => simp [ih, Nat.add_right_comm]

theorem insertAt_append (l₁ l₂ : List α) (i : Nat) (x : α) (hi : i ≤ l₁.length) :
    insertAt l₁ i x ++ l₂ = insertAt (l₁ ++ l₂) i x := by
  induction l₁ generalizing i with
  | nil => simp at hi; subst hi; simp
  | cons a l ih =>
    cases i with
    | zero => simp
    | succ i => simp at hi; simp [ih i hi]

theorem eraseIdx_insertAt (l : List α) (i : Nat) (x : α) (hi : i ≤ l.length) :
    (insertAt l i x).eraseIdx i = l := by
  induction l generalizing i with
  | nil => simp at hi; subst hi; simp
  | cons a l ih =>
    cases i with
    | zero => simp
    | succ i => simp at hi; simp [ih i hi]

theorem filter_insertAt (p : α → Bool) (l : List α) (i : Nat) (x : α) (hx : p x = false) :
    (insertAt l i x).filter p = l.filter p := by
  have h : (insertAt l i x).filter p = (l.take i ++ l.drop i).filter p := by
    simp only [insertAt, List.filter_append, List.filter_cons, hx]
    simp
  rw [h, List.take_append_drop]

end InsertAt

/-! ### Lists of operations -/

@[simp]
theorem nodesOf_append (l₁ l₂ : List Op) : nodesOf (l₁ ++ l₂) = nodesOf l₁ ++ nodesOf l₂ := by
  induction l₁ with
  | nil => rfl
  | cons o l ih => cases o <;> simp [nodesOf, ih]

@[simp]
theorem nodeUids_append (l₁ l₂ : List Op) :
    nodeUids (l₁ ++ l₂) = nodeUids l₁ ++ nodeUids l₂ := by
  induction l₁ with
  | nil => rfl
  | cons o l ih => cases o <;> simp [nodeUids, ih]

@[simp]
theorem getBuffers_append (l₁ l₂ : List Op) :
    getBuffers (l₁ ++ l₂) = getBuffers l₁ ++ getBuffers l₂ := by
  induction l₁ with
  | nil => rfl
  | cons o l ih => cases o <;> simp [getBuffers, ih]

theorem mem_nodesOf {ops : List Op} {n : Node} : n ∈ nodesOf ops ↔ ∃ u, Op.node u n ∈ ops := by
  induction ops with
  | nil => simp [nodesOf]
  | cons o l ih =>
    cases o <;> simp [nodesOf, ih]
    rename_i u m
    constructor
    · rintro (h | ⟨u', h⟩)
      · exact ⟨u, Or.inl ⟨rfl, h⟩⟩
      · exact ⟨u', Or.inr h⟩
    · rintro ⟨u', (⟨_, h⟩ | h)⟩
      · exact Or.inl h
      · exact Or.inr ⟨u', h⟩

theorem mem_nodeUids {ops : List Op} {u : Nat} : u ∈ nodeUids ops ↔ ∃ n, Op.node u n ∈ ops := by
  induction ops with
  | nil => simp [nodeUids]
  | cons o l ih =>
    cases o <;> simp [nodeUids, ih]
    rename_i u' m
    constructor
    · rintro (h | ⟨n, h⟩)
      · exact ⟨m, Or.inl ⟨h, rfl⟩⟩
      · exact ⟨n, Or.inr h⟩
    · rintro ⟨n, (⟨h, _⟩ | h)⟩
      · exact Or.inl h
      · exact Or.inr ⟨n, h⟩

theorem mem_getBuffers {ops : List Op} {b : Value} : b ∈ getBuffers ops ↔ Op.buffer b ∈ ops := by
  induction ops with
  | nil => simp [getBuffers]
  | cons o l ih =>
    cases o <;> simp [getBuffers, ih]

/-- A node that `findNode` finds splits the schedule at its first occurrence, and
`replaceNode` exchanges it there. -/
theorem findNode_split {ops : List Op} {uid : Nat} {n : Node} (h : findNode ops uid = some n)
    (new : Op) :
    ∃ l₁ l₂, ops = l₁ ++ Op.node uid n :: l₂ ∧ replaceNode ops uid new = l₁ ++ new :: l₂ := by
  induction ops with
  | nil => simp [findNode] at h
  | cons o l ih =>
    cases o with
    | node u m =>
      by_cases hu : u = uid
      · subst hu
        simp [findNode] at h
        subst h
        exact ⟨[], l, by simp, by simp [replaceNode]⟩
      · simp [findNode, hu] at h
        obtain ⟨l₁, l₂, h₁, h₂⟩ := ih h
        exact ⟨Op.node u m :: l₁, l₂, by simp [h₁], by simp [replaceNode, hu, h₂]⟩
    | buffer m =>
      simp [findNode] at h
      obtain ⟨l₁, l₂, h₁, h₂⟩ := ih h
      exact ⟨Op.buffer m :: l₁, l₂, by simp [h₁], by simp [replaceNode, h₂]⟩
    | stream c lc =>
      simp [findNode] at h
      obtain ⟨l₁, l₂, h₁, h₂⟩ := ih h
      exact ⟨Op.stream c lc :: l₁, l₂, by simp [h₁], by simp [replaceNode, h₂]⟩
    | other k =>
      simp [findNode] at h
      obtain ⟨l₁, l₂, h₁, h₂⟩ := ih h
      exact ⟨Op.other k :: l₁, l₂, by simp [h₁], by simp [replaceNode, h₂]⟩

theorem findNode_of_mem {ops : List Op} {uid : Nat} {n : Node}
    (hnd : (nodeUids ops).Nodup) (h : Op.node uid n ∈ ops) : findNode ops uid = some n := by
  induction ops with
  | nil => simp at h
  | cons o l ih =>
    cases o with
    | node u m =>
      simp [nodeUids] at hnd
      simp at h
      by_cases hu : u = uid
      · subst hu
        rcases h with h | h
        · simp [findNode, h.2]
        · exact absurd (mem_nodeUids.2 ⟨n, h⟩) hnd.1
      · simp [findNode, hu]
        rcases h with h | h
        · exact absurd h.1.symm hu
        · exact ih hnd.2 h
    | buffer m => simp [nodeUids] at hnd; simp at h; simpa [findNode] using ih hnd h
    | stream c lc => simp [nodeUids] at hnd; simp at h; simpa [findNode] using ih hnd h
    | other k => simp [nodeUids] at hnd; simp at h; simpa [findNode] using ih hnd h

theorem findNode_mem {ops : List Op} {uid : Nat} {n : Node} (h : findNode ops uid = some n) :
    Op.node uid n ∈ ops := by
  obtain ⟨l₁, l₂, h₁, _⟩ := findNode_split h (Op.other 0)
  simp [h₁]

theorem findIndex_le (l : List Value) (v : Value) : findIndex l v ≤ l.length :=
  List.indexOf_le_length

theorem findIndex_lt_iff (l : List Value) (v : Value) : findIndex l v < l.length ↔ v ∈ l :=
  List.indexOf_lt_length

/-- The producer rebuild returns `producerNode` exactly when the block has enough
arguments for the insertion. -/
theorem rebuildProducer_eq (node : Node) (buffer token : Value) (loc : Loc) (a c : Nat) :
    rebuildProducer node buffer token loc a c =
      if findIndex node.outputs buffer + node.inputs.length ≤ node.body.args.length then
        some (producerNode node buffer token loc a c)
      else none := by
  unfold rebuildProducer producerNode Block.insertArgument
  by_cases h : findIndex node.outputs buffer + node.inputs.length ≤ node.body.args.length <;>
    simp [h]

/-- The consumer rebuild returns `consumerNode` exactly when there are enough taps
and block arguments for the insertions. -/
theorem rebuildConsumer_eq (node : Node) (buffer token : Value) (loc : Loc) (a : Nat) :
    rebuildConsumer node buffer token loc a =
      if findIndex node.inputs buffer ≤ node.inputTaps.length ∧
          findIndex node.inputs buffer ≤ node.body.args.length then
        some (consumerNode node buffer token loc a)
      else none := by
  unfold rebuildConsumer consumerNode Block.insertArgument
  by_cases h₁ : findIndex node.inputs buffer ≤ node.inputTaps.length <;>
    by_cases h₂ : findIndex node.inputs buffer ≤ node.body.args.length <;> simp [h₁, h₂]

theorem operandOfArg_of_ne {n n' : Node} {t : Value} {a j : Nat} (h : TokenInserted n n' t a j)
    (ch : Nat) (hne : ch ≠ a) : n'.operandOfArg ch = n.operandOfArg ch := by
  unfold Node.operandOfArg
  rw [h.operands, h.args, indexOf_insertAt_of_ne _ _ _ _ hne (by simpa using h.j_le_args)]
  split
  · next hlt => exact getElem?_insertAt_lt _ _ _ _ hlt h.j_le_operands
  · next hge => exact getElem?_insertAt_ge _ _ _ _ (by omega) h.j_le_operands

theorem operandOfArg_self {n n' : Node} {t : Value} {a j : Nat} (h : TokenInserted n n' t a j)
    (ha : a ∉ n.body.args.map BlockArg.id) : n'.operandOfArg a = some t := by
  unfold Node.operandOfArg
  rw [h.operands, h.args, indexOf_insertAt_self _ _ _ ha (by simpa using h.j_le_args)]
  exact getElem?_insertAt_self _ _ _ h.j_le_operands

theorem operandOfArg_mem {n : Node} {ch : Nat} {v : Value} (h : n.operandOfArg ch = some v) :
    v ∈ n.inputs ++ n.outputs := by
  unfold Node.operandOfArg at h
  exact List.getElem?_mem h

theorem Node.IdsBelow.freshArg {n : Node} {k a : Nat} (h : n.IdsBelow k) (ha : k ≤ a) :
    n.FreshArg a := by
  obtain ⟨_, h₂, h₃⟩ := h
  refine ⟨?_, ?_⟩
  · intro hm
    obtain ⟨x, hx, rfl⟩ := List.mem_map.1 hm
    have := h₂ x hx
    omega
  · intro op hop hch
    have := h₃ op hop a hch
    omega

theorem Node.IdsBelow.not_mem {n : Node} {k : Nat} {t : Value} (h : n.IdsBelow k)
    (ht : k ≤ t.id) : t ∉ n.inputs ++ n.outputs := by
  intro hm
  have := h.1 t hm
  omega

theorem isWriteTo_congr {n n' : Node} {t : Value} {a j : Nat} (h : TokenInserted n n' t a j)
    (t₀ : Value) (op : BodyOp) (hop : op.channel ≠ some a) :
    n'.isWriteTo t₀ op = n.isWriteTo t₀ op := by
  cases op with
  | streamWrite ch v =>
    have : ch ≠ a := fun e => hop (by simp [BodyOp.channel, e])
    simp [Node.isWriteTo, operandOfArg_of_ne h ch this]
  | _ => rfl

theorem isReadOf_congr {n n' : Node} {t : Value} {a j : Nat} (h : TokenInserted n n' t a j)
    (t₀ : Value) (op : BodyOp) (hop : op.channel ≠ some a) :
    n'.isReadOf t₀ op = n.isReadOf t₀ op := by
  cases op with
  | streamRead ch =>
    have : ch ≠ a := fun e => hop (by simp [BodyOp.channel, e])
    simp [Node.isReadOf, operandOfArg_of_ne h ch this]
  | _ => rfl

theorem countP_congr_mem {α : Type} (p q : α → Bool) (l : List α) (h : ∀ x ∈ l, p x = q x) :
    l.countP p = l.countP q := by
  induction l with
  | nil => rfl
  | cons x l ih =>
    have hx := h x (by simp)
    have hl := ih (fun y hy => h y (by simp [hy]))
    simp [List.countP_cons, hx, hl]

theorem writesTo_eq_zero {n : Node} {t : Value} (ht : t ∉ n.inputs ++ n.outputs) :
    n.writesTo t = 0 := by
  unfold Node.writesTo
  rw [List.countP_eq_zero]
  intro op _
  cases op with
  | streamWrite ch v =>
    simp only [Node.isWriteTo, decide_eq_true_eq]
    exact fun h => ht (operandOfArg_mem h)
  | _ => simp [Node.isWriteTo]

theorem readsOf_eq_zero {n : Node} {t : Value} (ht : t ∉ n.inputs ++ n.outputs) :
    n.readsOf t = 0 := by
  unfold Node.readsOf
  rw [List.countP_eq_zero]
  intro op _
  cases op with
  | streamRead ch =>
    simp only [Node.isReadOf, decide_eq_true_eq]
    exact fun h => ht (operandOfArg_mem h)
  | _ => simp [Node.isReadOf]

/-! ### The rebuilt producer and the rebuilt consumer -/

theorem producerNode_tokenInserted (n : Node) (b t : Value) (loc : Loc) (a c : Nat)
    (h : findIndex n.outputs b + n.inputs.length ≤ n.body.args.length) :
    TokenInserted n (producerNode n b t loc a c) t a (n.inputs.length + findIndex n.outputs b) where
  operands := by simp [producerNode, append_insertAt]
  args := by simp [producerNode, map_insertAt, Nat.add_comm]
  j_le_operands := by
    have := findIndex_le n.outputs b
    simp; omega
  j_le_args := by omega

theorem consumerNode_tokenInserted (n : Node) (b t : Value) (loc : Loc) (a : Nat)
    (h : findIndex n.inputs b ≤ n.body.args.length) :
    TokenInserted n (consumerNode n b t loc a) t a (findIndex n.inputs b) where
  operands := by simp [consumerNode, insertAt_append _ _ _ _ (findIndex_le n.inputs b)]
  args := by simp [consumerNode, map_insertAt]
  j_le_operands := by
    have := findIndex_le n.inputs b
    simp; omega
  j_le_args := h

theorem producerNode_writesTo (n : Node) (b t : Value) (loc : Loc) (a c : Nat)
    (h : findIndex n.outputs b + n.inputs.length ≤ n.body.args.length) (hf : n.FreshArg a)
    (t₀ : Value) :
    (producerNode n b t loc a c).writesTo t₀ = n.writesTo t₀ + if t₀ = t then 1 else 0 := by
  have hi := producerNode_tokenInserted n b t loc a c h
  have hself := operandOfArg_self hi hf.1
  have hold : n.body.ops.countP ((producerNode n b t loc a c).isWriteTo t₀) =
      n.body.ops.countP (n.isWriteTo t₀) :=
    countP_congr_mem _ _ _ fun op hop => isWriteTo_congr hi t₀ op (hf.2 op hop)
  have hops : (producerNode n b t loc a c).body.ops =
      n.body.ops ++ [.constant c true, .streamWrite a c] := rfl
  unfold Node.writesTo
  rw [hops, List.countP_append, hold]
  congr 1
  by_cases e : t₀ = t
  · simp [List.countP_cons, Node.isWriteTo, hself, e]
  · simp [List.countP_cons, Node.isWriteTo, hself, e, Ne.symm e]

theorem producerNode_readsOf (n : Node) (b t : Value) (loc : Loc) (a c : Nat)
    (h : findIndex n.outputs b + n.inputs.length ≤ n.body.args.length) (hf : n.FreshArg a)
    (t₀ : Value) :
    (producerNode n b t loc a c).readsOf t₀ = n.readsOf t₀ := by
  have hi := producerNode_tokenInserted n b t loc a c h
  have hold : n.body.ops.countP ((producerNode n b t loc a c).isReadOf t₀) =
      n.body.ops.countP (n.isReadOf t₀) :=
    countP_congr_mem _ _ _ fun op hop => isReadOf_congr hi t₀ op (hf.2 op hop)
  have hops : (producerNode n b t loc a c).body.ops =
      n.body.ops ++ [.constant c true, .streamWrite a c] := rfl
  unfold Node.readsOf
  rw [hops, List.countP_append, hold]
  simp [List.countP_cons, Node.isReadOf]

theorem consumerNode_readsOf (n : Node) (b t : Value) (loc : Loc) (a : Nat)
    (h : findIndex n.inputs b ≤ n.body.args.length) (hf : n.FreshArg a) (t₀ : Value) :
    (consumerNode n b t loc a).readsOf t₀ = n.readsOf t₀ + if t₀ = t then 1 else 0 := by
  have hi := consumerNode_tokenInserted n b t loc a h
  have hself := operandOfArg_self hi hf.1
  have hold : n.body.ops.countP ((consumerNode n b t loc a).isReadOf t₀) =
      n.body.ops.countP (n.isReadOf t₀) :=
    countP_congr_mem _ _ _ fun op hop => isReadOf_congr hi t₀ op (hf.2 op hop)
  have hops : (consumerNode n b t loc a).body.ops = .streamRead a :: n.body.ops := rfl
  unfold Node.readsOf
  rw [hops, List.countP_cons, hold]
  congr 1
  by_cases e : t₀ = t
  · simp [Node.isReadOf, hself, e]
  · simp [Node.isReadOf, hself, e, Ne.symm e]

theorem consumerNode_writesTo (n : Node) (b t : Value) (loc : Loc) (a : Nat)
    (h : findIndex n.inputs b ≤ n.body.args.length) (hf : n.FreshArg a) (t₀ : Value) :
    (consumerNode n b t loc a).writesTo t₀ = n.writesTo t₀ := by
  have hi := consumerNode_tokenInserted n b t loc a h
  have hold : n.body.ops.countP ((consumerNode n b t loc a).isWriteTo t₀) =
      n.body.ops.countP (n.isWriteTo t₀) :=
    countP_congr_mem _ _ _ fun op hop => isWriteTo_congr hi t₀ op (hf.2 op hop)
  have hops : (consumerNode n b t loc a).body.ops = .streamRead a :: n.body.ops := rfl
  unfold Node.writesTo
  rw [hops, List.countP_cons, hold]
  simp [Node.isWriteTo]

theorem Node.ShapeOk.producer_guard {n : Node} (h : n.ShapeOk) (b : Value) :
    findIndex n.outputs b + n.inputs.length ≤ n.body.args.length := by
  have := findIndex_le n.outputs b
  have := h.2
  omega

theorem Node.ShapeOk.consumer_guard {n : Node} (h : n.ShapeOk) (b : Value) :
    findIndex n.inputs b ≤ n.inputTaps.length ∧ findIndex n.inputs b ≤ n.body.args.length := by
  have := findIndex_le n.inputs b
  have := h.1
  have := h.2
  omega

theorem producerNode_shapeOk {n : Node} (h : n.ShapeOk) (b t : Value) (loc : Loc) (a c : Nat) :
    (producerNode n b t loc a c).ShapeOk := by
  have := h.1
  have := h.2
  constructor <;> simp [producerNode] <;> omega

theorem consumerNode_shapeOk {n : Node} (h : n.ShapeOk) (b t : Value) (loc : Loc) (a : Nat) :
    (consumerNode n b t loc a).ShapeOk := by
  have := h.1
  have := h.2
  constructor <;> simp [consumerNode] <;> omega

theorem producerNode_idsBelow {n : Node} {k k' : Nat} (h : n.IdsBelow k) (hk : k ≤ k')
    (b t : Value) (loc : Loc) (a c : Nat) (ht : t.id < k') (ha : a < k') :
    (producerNode n b t loc a c).IdsBelow k' := by
  obtain ⟨h₁, h₂, h₃⟩ := h
  refine ⟨?_, ?_, ?_⟩
  · intro v hv
    simp only [producerNode, List.mem_append, mem_insertAt] at hv
    rcases hv with hv | rfl | hv
    · exact lt_of_lt_of_le (h₁ v (by simp [hv])) hk
    · exact ht
    · exact lt_of_lt_of_le (h₁ v (by simp [hv])) hk
  · intro x hx
    simp only [producerNode, mem_insertAt] at hx
    rcases hx with rfl | hx
    · exact ha
    · exact lt_of_lt_of_le (h₂ x hx) hk
  · intro op hop ch hch
    simp only [producerNode, List.mem_append, List.mem_cons, List.mem_singleton,
      List.not_mem_nil, or_false] at hop
    rcases hop with hop | rfl | rfl
    · exact lt_of_lt_of_le (h₃ op hop ch hch) hk
    · simp [BodyOp.channel] at hch
    · simp [BodyOp.channel] at hch; omega

theorem consumerNode_idsBelow {n : Node} {k k' : Nat} (h : n.IdsBelow k) (hk : k ≤ k')
    (b t : Value) (loc : Loc) (a : Nat) (ht : t.id < k') (ha : a < k') :
    (consumerNode n b t loc a).IdsBelow k' := by
  obtain ⟨h₁, h₂, h₃⟩ := h
  refine ⟨?_, ?_, ?_⟩
  · intro v hv
    simp only [consumerNode, List.mem_append, mem_insertAt] at hv
    rcases hv with (rfl | hv) | hv
    · exact ht
    · exact lt_of_lt_of_le (h₁ v (by simp [hv])) hk
    · exact lt_of_lt_of_le (h₁ v (by simp [hv])) hk
  · intro x hx
    simp only [consumerNode, mem_insertAt] at hx
    rcases hx with rfl | hx
    · exact ha
    · exact lt_of_lt_of_le (h₂ x hx) hk
  · intro op hop ch hch
    simp only [consumerNode, List.mem_cons] at hop
    rcases hop with rfl | hop
    · simp [BodyOp.channel] at hch; omega
    · exact lt_of_lt_of_le (h₃ op hop ch hch) hk

theorem Node.IdsBelow.weaken {n : Node} {k k' : Nat} (h : n.IdsBelow k) (hk : k ≤ k') :
    n.IdsBelow k' :=
  ⟨fun v hv => lt_of_lt_of_le (h.1 v hv) hk, fun a ha => lt_of_lt_of_le (h.2.1 a ha) hk,
    fun op hop ch hch => lt_of_lt_of_le (h.2.2 op hop ch hch) hk⟩

theorem mem_producerNode_outputs (n : Node) (b t : Value) (loc : Loc) (a c : Nat) (v : Value) :
    v ∈ (producerNode n b t loc a c).outputs ↔ v = t ∨ v ∈ n.outputs := by
  simp [producerNode]

theorem mem_consumerNode_inputs (n : Node) (b t : Value) (loc : Loc) (a : Nat) (v : Value) :
    v ∈ (consumerNode n b t loc a).inputs ↔ v = t ∨ v ∈ n.inputs := by
  simp [consumerNode]

theorem producerNode_noInOut {n : Node} {bs : List Value} (h : n.NoInOut bs) (b t : Value)
    (loc : Loc) (a c : Nat) (ht : t ∉ bs) : (producerNode n b t loc a c).NoInOut bs := by
  intro v hv ⟨h₁, h₂⟩
  rw [mem_producerNode_outputs] at h₂
  rcases h₂ with rfl | h₂
  · exact ht hv
  · exact h v hv ⟨h₁, h₂⟩

theorem consumerNode_noInOut {n : Node} {bs : List Value} (h : n.NoInOut bs) (b t : Value)
    (loc : Loc) (a : Nat) (ht : t ∉ bs) : (consumerNode n b t loc a).NoInOut bs := by
  intro v hv ⟨h₁, h₂⟩
  rw [mem_consumerNode_inputs] at h₁
  rcases h₁ with rfl | h₁
  · exact ht hv
  · exact h v hv ⟨h₁, h₂⟩

/-! ### Replacing one node of the schedule -/

theorem forall₂_compose {α : Type} {R S T : α → α → Prop}
    (h : ∀ x y z, R x y → S y z → T x z) :
    ∀ {a b c : List α}, List.Forall₂ R a b → List.Forall₂ S b c → List.Forall₂ T a c := by
  intro a b c hab
  induction hab generalizing c with
  | nil => intro hbc; cases hbc; exact List.Forall₂.nil
  | cons hxy _ ih =>
    intro hbc
    cases hbc with
    | cons hyz hrest => exact List.Forall₂.cons (h _ _ _ hxy hyz) (ih hrest)

theorem forall₂_self {α : Type} {R : α → α → Prop} {l : List α} (h : ∀ x ∈ l, R x x) :
    List.Forall₂ R l l := by
  induction l with
  | nil => exact List.Forall₂.nil
  | cons x l ih =>
    exact List.Forall₂.cons (h x (by simp)) (ih fun y hy => h y (by simp [hy]))

theorem forall₂_append' {α : Type} {R : α → α → Prop} {a b c d : List α}
    (h₁ : List.Forall₂ R a b) (h₂ : List.Forall₂ R c d) : List.Forall₂ R (a ++ c) (b ++ d) := by
  induction h₁ with
  | nil => simpa using h₂
  | cons hxy _ ih => exact List.Forall₂.cons hxy ih

theorem opUpd_self_of_not_mem (R : Node → Node → Prop) (us : List Nat) (lo hi : Nat) (o : Op)
    (h : ∀ u n, o = Op.node u n → u ∉ us) : OpUpd R us lo hi o o := by
  cases o with
  | node u n => exact Or.inl ⟨h u n rfl, rfl⟩
  | _ => rfl

/-- Exchanging the node `uid` relates the schedules by `OpUpd` for the single
handle `uid`. -/
theorem forall₂_replace {R : Node → Node → Prop} {l₁ l₂ : List Op} {uid u' lo hi : Nat}
    {n n' : Node} (hnd : (nodeUids (l₁ ++ Op.node uid n :: l₂)).Nodup)
    (hlo : lo ≤ u') (hhi : u' < hi) (hR : R n n') :
    List.Forall₂ (OpUpd R [uid] lo hi) (l₁ ++ Op.node uid n :: l₂)
      (l₁ ++ Op.node u' n' :: l₂) := by
  simp only [nodeUids_append, nodeUids, List.nodup_append, List.nodup_cons,
    List.disjoint_cons_right] at hnd
  obtain ⟨_, ⟨h₂, _⟩, h₁, _⟩ := hnd
  refine forall₂_append' (forall₂_self ?_) (List.Forall₂.cons ?_ (forall₂_self ?_))
  · intro o ho
    refine opUpd_self_of_not_mem _ _ _ _ _ ?_
    rintro u m rfl hu
    simp only [List.mem_singleton] at hu
    subst hu
    exact h₁ (mem_nodeUids.2 ⟨m, ho⟩)
  · exact Or.inr ⟨by simp, u', n', rfl, hlo, hhi, hR⟩
  · intro o ho
    refine opUpd_self_of_not_mem _ _ _ _ _ ?_
    rintro u m rfl hu
    simp only [List.mem_singleton] at hu
    subst hu
    exact h₂ (mem_nodeUids.2 ⟨m, ho⟩)

/-- Exchanging a node for one that is well-shaped, mentions only identities below
the advanced counter and respects the buffers keeps the state well-formed. -/
theorem WellFormed.replace {st : PassState} (h : WellFormed st) {uid : Nat} {n n' : Node}
    {l₁ l₂ : List Op} (hops : st.ops = l₁ ++ Op.node uid n :: l₂) {k : Nat} (hk : 0 < k)
    (hs : n'.ShapeOk) (hi : n'.IdsBelow (st.next + k)) (hb : n'.NoInOut (getBuffers st.ops)) :
    WellFormed ⟨l₁ ++ Op.node st.next n' :: l₂, st.next + k, st.failed⟩ ∧
      getBuffers (l₁ ++ Op.node st.next n' :: l₂) = getBuffers st.ops := by
  obtain ⟨hnd, hlt, hbn, hbl, hn⟩ := h
  have hbuf : getBuffers (l₁ ++ Op.node st.next n' :: l₂) = getBuffers st.ops := by
    simp [hops, getBuffers]
  refine ⟨⟨?_, ?_, ?_, ?_, ?_⟩, hbuf⟩
  · simp only [hops, nodeUids_append, nodeUids, List.nodup_append, List.nodup_cons,
      List.disjoint_cons_right, List.mem_append, List.mem_cons] at hnd hlt ⊢
    obtain ⟨a, ⟨b, c⟩, d, e⟩ := hnd
    refine ⟨a, ⟨?_, c⟩, ?_, e⟩
    · intro hm
      have := hlt _ (Or.inr (Or.inr hm))
      omega
    · intro hm
      have := hlt _ (Or.inl hm)
      omega
  · show ∀ u ∈ nodeUids (l₁ ++ Op.node st.next n' :: l₂), u < st.next + k
    intro u hu
    simp only [hops, nodeUids_append, nodeUids, List.mem_append, List.mem_cons] at hu hlt
    rcases hu with hu | rfl | hu
    · have := hlt u (Or.inl hu); omega
    · omega
    · have := hlt u (Or.inr (Or.inr hu)); omega
  · show (getBuffers (l₁ ++ Op.node st.next n' :: l₂)).Nodup
    rw [hbuf]; exact hbn
  · show ∀ b ∈ getBuffers (l₁ ++ Op.node st.next n' :: l₂), b.id < st.next + k
    rw [hbuf]
    intro b hb'
    have := hbl b hb'
    omega
  · show ∀ m ∈ nodesOf (l₁ ++ Op.node st.next n' :: l₂), _
    intro m hm
    simp only [PassState.ops]
    rw [hbuf]
    simp only [nodesOf_append, nodesOf, List.mem_append, List.mem_cons] at hm
    have hold : ∀ m ∈ nodesOf st.ops,
        m.ShapeOk ∧ m.IdsBelow (st.next + k) ∧ m.NoInOut (getBuffers st.ops) := fun m hm =>
      ⟨(hn m hm).1, (hn m hm).2.1.weaken (by omega), (hn m hm).2.2⟩
    rcases hm with hm | rfl | hm
    · exact hold m (by simp [hops, hm])
    · exact ⟨hs, hi, hb⟩
    · exact hold m (by simp [hops, nodesOf, hm])

/-! ### The rewriting loops -/

theorem rewriteProducers_eq (b t : Value) (loc : Loc) (us : List Nat) (st : PassState) :
    rewriteProducers b t loc us st = forEachNode (rewriteProducer b t loc) us st := by
  induction us generalizing st with
  | nil => rfl
  | cons u us ih =>
    simp only [rewriteProducers, forEachNode]
    cases rewriteProducer b t loc st u with
    | none => rfl
    | some st1 => exact ih st1

theorem rewriteConsumers_eq (b t : Value) (loc : Loc) (us : List Nat) (st : PassState) :
    rewriteConsumers b t loc us st = forEachNode (rewriteConsumer b t loc) us st := by
  induction us generalizing st with
  | nil => rfl
  | cons u us ih =>
    simp only [rewriteConsumers, forEachNode]
    cases rewriteConsumer b t loc st u with
    | none => rfl
    | some st1 => exact ih st1

theorem OpUpd.compose {R₁ R₂ R : Node → Node → Prop} {u : Nat} {us : List Nat}
    {lo mid hi : Nat} (hlm : lo ≤ mid) (hmh : mid ≤ hi) (hus : ∀ w ∈ us, w < lo)
    (h₁ : ∀ n n', R₁ n n' → R n n') (h₂ : ∀ n n', R₂ n n' → R n n') (x y z : Op)
    (hxy : OpUpd R₁ [u] lo mid x y) (hyz : OpUpd R₂ us mid hi y z) :
    OpUpd R (u :: us) lo hi x z := by
  cases x with
  | node v m =>
    rcases hxy with ⟨hv, rfl⟩ | ⟨hv, u', n', rfl, hl, hh, hR⟩
    · rcases hyz with ⟨hv', rfl⟩ | ⟨hv', u', n', rfl, hl, hh, hR⟩
      · exact Or.inl ⟨by simp at hv; simp [hv, hv'], rfl⟩
      · exact Or.inr ⟨by simp [hv'], u', n', rfl, by omega, hh, h₂ _ _ hR⟩
    · have hu' : u' ∉ us := fun hm => by have := hus u' hm; omega
      rcases hyz with ⟨_, rfl⟩ | ⟨hv', _⟩
      · exact Or.inr ⟨by simp at hv; simp [hv], u', n', rfl, hl, by omega, h₁ _ _ hR⟩
      · exact absurd hv' hu'
  | buffer m => cases hxy; cases hyz; rfl
  | stream c l => cases hxy; cases hyz; rfl
  | other k => cases hxy; cases hyz; rfl

/-- The generic loop: when every single step exchanges the node it is given for a
node related by `R` and keeps the invariant, the loop over distinct live handles
succeeds and relates the schedules by `OpUpd`. -/
theorem forEachNode_spec (step : PassState → Nat → Option PassState)
    (R : Nat → Nat → Node → Node → Prop) (Inv : PassState → Prop)
    (hmono : ∀ lo hi lo' hi' n n', lo' ≤ lo → hi ≤ hi' → R lo hi n n' → R lo' hi' n n')
    (hInv : ∀ st, Inv st → (nodeUids st.ops).Nodup ∧ ∀ u ∈ nodeUids st.ops, u < st.next)
    (hstep : ∀ st uid n, Inv st → findNode st.ops uid = some n →
      ∃ n' k, 0 < k ∧
        step st uid =
          some ⟨replaceNode st.ops uid (Op.node st.next n'), st.next + k, st.failed⟩ ∧
        R st.next (st.next + k) n n' ∧
        Inv ⟨replaceNode st.ops uid (Op.node st.next n'), st.next + k, st.failed⟩) :
    ∀ (us : List Nat) (st : PassState), Inv st → us.Nodup → (∀ u ∈ us, u ∈ nodeUids st.ops) →
      ∃ st', forEachNode step us st = some st' ∧ Inv st' ∧ st.next ≤ st'.next ∧
        st'.failed = st.failed ∧
        List.Forall₂ (OpUpd (R st.next st'.next) us st.next st'.next) st.ops st'.ops := by
  intro us
  induction us with
  | nil =>
    intro st hI _ _
    exact ⟨st, rfl, hI, le_refl _, rfl,
      forall₂_self fun o _ => opUpd_self_of_not_mem _ _ _ _ _ (by simp)⟩
  | cons u us ih =>
    intro st hI hnd hmem
    obtain ⟨hund, hult⟩ := hInv st hI
    obtain ⟨n, hn⟩ := mem_nodeUids.1 (hmem u (by simp))
    have hfind := findNode_of_mem hund hn
    obtain ⟨n', k, hk, hs, hR, hI'⟩ := hstep st u n hI hfind
    obtain ⟨l₁, l₂, hops, hrep⟩ := findNode_split hfind (Op.node st.next n')
    rw [hrep] at hs hI'
    simp only [List.nodup_cons] at hnd
    have hmem' : ∀ w ∈ us, w ∈ nodeUids (l₁ ++ Op.node st.next n' :: l₂) := by
      intro w hw
      have h1 := hmem w (by simp [hw])
      have hne : w ≠ u := fun e => hnd.1 (e ▸ hw)
      simp only [hops, nodeUids_append, nodeUids, List.mem_append, List.mem_cons] at h1 ⊢
      rcases h1 with h1 | h1 | h1
      · exact Or.inl h1
      · exact absurd h1 hne
      · exact Or.inr (Or.inr h1)
    obtain ⟨st', hrun, hI'', hle, hf, hall⟩ := ih _ hI' hnd.2 hmem'
    simp only at hle hf hall
    refine ⟨st', ?_, hI'', by omega, hf, ?_⟩
    · simp only [forEachNode, hs]
      exact hrun
    · have h1 : List.Forall₂ (OpUpd (R st.next (st.next + k)) [u] st.next (st.next + k)) st.ops
          (l₁ ++ Op.node st.next n' :: l₂) := by
        rw [hops]
        exact forall₂_replace (by rw [← hops]; exact hund) (le_refl _) (by omega) hR
      refine forall₂_compose (OpUpd.compose (by omega) hle ?_ ?_ ?_) h1 hall
      · intro w hw
        exact hult w (hmem w (by simp [hw]))
      · intro a b hab
        exact hmono _ _ _ _ _ _ (le_refl _) hle hab
      · intro a b hab
        exact hmono _ _ _ _ _ _ (by omega) (le_refl _) hab

theorem nodesOf_mem_of_find {ops : List Op} {uid : Nat} {n : Node}
    (h : findNode ops uid = some n) : n ∈ nodesOf ops :=
  mem_nodesOf.2 ⟨uid, findNode_mem h⟩

theorem rewriteProducer_step (b t : Value) (st : PassState) (uid : Nat) (n : Node)
    (hI : LoopInv t st) (hf : findNode st.ops uid = some n) :
    ∃ n' k, 0 < k ∧
      rewriteProducer b t Loc.unknown st uid =
        some ⟨replaceNode st.ops uid (Op.node st.next n'), st.next + k, st.failed⟩ ∧
      RebuiltP b t st.next (st.next + k) n n' ∧
      LoopInv t ⟨replaceNode st.ops uid (Op.node st.next n'), st.next + k, st.failed⟩ := by
  obtain ⟨hwf, ht, htb⟩ := hI
  obtain ⟨hs, hi, hb⟩ := hwf.2.2.2.2 n (nodesOf_mem_of_find hf)
  refine ⟨producerNode n b t Loc.unknown (st.next + 1) (st.next + 2), 3, by omega, ?_,
    ⟨st.next + 1, st.next + 2, by omega, by omega, rfl⟩, ?_⟩
  · simp [rewriteProducer, hf, rebuildProducer_eq, hs.producer_guard b]
  · obtain ⟨l₁, l₂, hops, hrep⟩ := findNode_split hf
      (Op.node st.next (producerNode n b t Loc.unknown (st.next + 1) (st.next + 2)))
    rw [hrep]
    have hi' : (producerNode n b t Loc.unknown (st.next + 1) (st.next + 2)).IdsBelow
        (st.next + 3) :=
      producerNode_idsBelow hi (by omega) b t Loc.unknown _ _ (by omega) (by omega)
    obtain ⟨hwf', hbuf⟩ := hwf.replace hops (by omega : 0 < 3)
      (producerNode_shapeOk hs b t Loc.unknown _ _) hi'
      (producerNode_noInOut hb b t Loc.unknown _ _ htb)
    refine ⟨hwf', ?_, ?_⟩
    · exact Nat.lt_of_lt_of_le ht (Nat.le_add_right _ _)
    · show t ∉ getBuffers _
      rw [hbuf]; exact htb

theorem rewriteConsumer_step (b t : Value) (st : PassState) (uid : Nat) (n : Node)
    (hI : LoopInv t st) (hf : findNode st.ops uid = some n) :
    ∃ n' k, 0 < k ∧
      rewriteConsumer b t Loc.unknown st uid =
        some ⟨replaceNode st.ops uid (Op.node st.next n'), st.next + k, st.failed⟩ ∧
      RebuiltC b t st.next (st.next + k) n n' ∧
      LoopInv t ⟨replaceNode st.ops uid (Op.node st.next n'), st.next + k, st.failed⟩ := by
  obtain ⟨hwf, ht, htb⟩ := hI
  obtain ⟨hs, hi, hb⟩ := hwf.2.2.2.2 n (nodesOf_mem_of_find hf)
  refine ⟨consumerNode n b t Loc.unknown (st.next + 1), 2, by omega, ?_,
    ⟨st.next + 1, by omega, by omega, rfl⟩, ?_⟩
  · simp [rewriteConsumer, hf, rebuildConsumer_eq, hs.consumer_guard b]
  · obtain ⟨l₁, l₂, hops, hrep⟩ := findNode_split hf
      (Op.node st.next (consumerNode n b t Loc.unknown (st.next + 1)))
    rw [hrep]
    have hi' : (consumerNode n b t Loc.unknown (st.next + 1)).IdsBelow (st.next + 2) :=
      consumerNode_idsBelow hi (by omega) b t Loc.unknown _ (by omega) (by omega)
    obtain ⟨hwf', hbuf⟩ := hwf.replace hops (by omega : 0 < 2)
      (consumerNode_shapeOk hs b t Loc.unknown _) hi'
      (consumerNode_noInOut hb b t Loc.unknown _ htb)
    refine ⟨hwf', ?_, ?_⟩
    · exact Nat.lt_of_lt_of_le ht (Nat.le_add_right _ _)
    · show t ∉ getBuffers _
      rw [hbuf]; exact htb

theorem RebuiltP.widen {b t : Value} {lo hi lo' hi' : Nat} {n n' : Node} (h₁ : lo' ≤ lo)
    (h₂ : hi ≤ hi') (h : RebuiltP b t lo hi n n') : RebuiltP b t lo' hi' n n' := by
  obtain ⟨a, c, ha, ha', e⟩ := h
  exact ⟨a, c, by omega, by omega, e⟩

theorem RebuiltC.widenC {b t : Value} {lo hi lo' hi' : Nat} {n n' : Node} (h₁ : lo' ≤ lo)
    (h₂ : hi ≤ hi') (h : RebuiltC b t lo hi n n') : RebuiltC b t lo' hi' n n' := by
  obtain ⟨a, ha, ha', e⟩ := h
  exact ⟨a, by omega, by omega, e⟩

theorem LoopInv.uids {t : Value} {st : PassState} (h : LoopInv t st) :
    (nodeUids st.ops).Nodup ∧ ∀ u ∈ nodeUids st.ops, u < st.next :=
  ⟨h.1.1, h.1.2.1⟩

theorem rewriteProducers_spec (b t : Value) (us : List Nat) (st : PassState) (hI : LoopInv t st)
    (hnd : us.Nodup) (hmem : ∀ u ∈ us, u ∈ nodeUids st.ops) :
    ∃ st', rewriteProducers b t Loc.unknown us st = some st' ∧ LoopInv t st' ∧
      st.next ≤ st'.next ∧ st'.failed = st.failed ∧
      List.Forall₂ (OpUpd (RebuiltP b t st.next st'.next) us st.next st'.next) st.ops st'.ops := by
  rw [rewriteProducers_eq]
  exact forEachNode_spec (rewriteProducer b t Loc.unknown) (RebuiltP b t) (LoopInv t)
    (fun _ _ _ _ _ _ h₁ h₂ h => h.widen h₁ h₂) (fun _ h => h.uids)
    (fun st uid n h hf => rewriteProducer_step b t st uid n h hf) us st hI hnd hmem

theorem rewriteConsumers_spec (b t : Value) (us : List Nat) (st : PassState) (hI : LoopInv t st)
    (hnd : us.Nodup) (hmem : ∀ u ∈ us, u ∈ nodeUids st.ops) :
    ∃ st', rewriteConsumers b t Loc.unknown us st = some st' ∧ LoopInv t st' ∧
      st.next ≤ st'.next ∧ st'.failed = st.failed ∧
      List.Forall₂ (OpUpd (RebuiltC b t st.next st'.next) us st.next st'.next) st.ops st'.ops := by
  rw [rewriteConsumers_eq]
  exact forEachNode_spec (rewriteConsumer b t Loc.unknown) (RebuiltC b t) (LoopInv t)
    (fun _ _ _ _ _ _ h₁ h₂ h => h.widenC h₁ h₂) (fun _ h => h.uids)
    (fun st uid n h hf => rewriteConsumer_step b t st uid n h hf) us st hI hnd hmem

/-! ### The loop body for one buffer -/

@[simp]
theorem nodesOf_insertAfterBuffer (ops : List Op) (b c : Value) (l : Loc) :
    nodesOf (insertAfterBuffer ops b (Op.stream c l)) = nodesOf ops := by
  induction ops with
  | nil => rfl
  | cons o ops ih =>
    cases o with
    | buffer m => by_cases h : m = b <;> simp [insertAfterBuffer, nodesOf, h, ih]
    | _ => simp [insertAfterBuffer, nodesOf, ih]

@[simp]
theorem nodeUids_insertAfterBuffer (ops : List Op) (b c : Value) (l : Loc) :
    nodeUids (insertAfterBuffer ops b (Op.stream c l)) = nodeUids ops := by
  induction ops with
  | nil => rfl
  | cons o ops ih =>
    cases o with
    | buffer m => by_cases h : m = b <;> simp [insertAfterBuffer, nodeUids, h, ih]
    | _ => simp [insertAfterBuffer, nodeUids, ih]

@[simp]
theorem getBuffers_insertAfterBuffer (ops : List Op) (b c : Value) (l : Loc) :
    getBuffers (insertAfterBuffer ops b (Op.stream c l)) = getBuffers ops := by
  induction ops with
  | nil => rfl
  | cons o ops ih =>
    cases o with
    | buffer m => by_cases h : m = b <;> simp [insertAfterBuffer, getBuffers, h, ih]
    | _ => simp [insertAfterBuffer, getBuffers, ih]

theorem mem_node_insertAfterBuffer (ops : List Op) (b c : Value) (l : Loc) (u : Nat) (n : Node) :
    Op.node u n ∈ insertAfterBuffer ops b (Op.stream c l) ↔ Op.node u n ∈ ops := by
  induction ops with
  | nil => simp [insertAfterBuffer]
  | cons o ops ih =>
    cases o with
    | buffer m => by_cases h : m = b <;> simp [insertAfterBuffer, h, ih]
    | _ => simp [insertAfterBuffer, ih]

theorem mem_getProducers {ops : List Op} {b : Value} {u : Nat} :
    u ∈ getProducers ops b ↔ ∃ n, Op.node u n ∈ ops ∧ b ∈ n.outputs := by
  unfold getProducers
  rw [List.mem_filterMap]
  constructor
  · rintro ⟨o, ho, h⟩
    cases o with
    | node v n =>
      by_cases hb : b ∈ n.outputs
      · simp [hb] at h; subst h; exact ⟨n, ho, hb⟩
      · simp [hb] at h
    | _ => simp at h
  · rintro ⟨n, hn, hb⟩
    exact ⟨Op.node u n, hn, by simp [hb]⟩

theorem mem_getConsumers {ops : List Op} {b : Value} {u : Nat} :
    u ∈ getConsumers ops b ↔ ∃ n, Op.node u n ∈ ops ∧ b ∈ n.inputs := by
  unfold getConsumers
  rw [List.mem_filterMap]
  constructor
  · rintro ⟨o, ho, h⟩
    cases o with
    | node v n =>
      by_cases hb : b ∈ n.inputs
      · simp [hb] at h; subst h; exact ⟨n, ho, hb⟩
      · simp [hb] at h
    | _ => simp at h
  · rintro ⟨n, hn, hb⟩
    exact ⟨Op.node u n, hn, by simp [hb]⟩

theorem getProducers_sublist (ops : List Op) (b : Value) :
    (getProducers ops b).Sublist (nodeUids ops) := by
  induction ops with
  | nil => simp [getProducers, nodeUids]
  | cons o ops ih =>
    unfold getProducers at ih ⊢
    cases o with
    | node u n =>
      by_cases hb : b ∈ n.outputs
      · simpa [List.filterMap_cons, hb, nodeUids] using ih
      · simpa [List.filterMap_cons, hb, nodeUids] using ih.trans (List.sublist_cons_self _ _)
    | _ => simpa [List.filterMap_cons, nodeUids] using ih

theorem getConsumers_sublist (ops : List Op) (b : Value) :
    (getConsumers ops b).Sublist (nodeUids ops) := by
  induction ops with
  | nil => simp [getConsumers, nodeUids]
  | cons o ops ih =>
    unfold getConsumers at ih ⊢
    cases o with
    | node u n =>
      by_cases hb : b ∈ n.inputs
      · simpa [List.filterMap_cons, hb, nodeUids] using ih
      · simpa [List.filterMap_cons, hb, nodeUids] using ih.trans (List.sublist_cons_self _ _)
    | _ => simpa [List.filterMap_cons, nodeUids] using ih

theorem node_unique {ops : List Op} (hnd : (nodeUids ops).Nodup) {u : Nat} {n m : Node}
    (hn : Op.node u n ∈ ops) (hm : Op.node u m ∈ ops) : n = m := by
  have h₁ := findNode_of_mem hnd hn
  have h₂ := findNode_of_mem hnd hm
  rw [h₁] at h₂
  exact Option.some.inj h₂

theorem forall₂_mem_left {α : Type} {R : α → α → Prop} {l l' : List α}
    (h : List.Forall₂ R l l') : List.Forall₂ (fun x y => x ∈ l ∧ R x y) l l' := by
  induction h with
  | nil => exact List.Forall₂.nil
  | cons hxy _ ih =>
    exact List.Forall₂.cons ⟨by simp, hxy⟩ (ih.imp fun _ _ h => ⟨by simp [h.1], h.2⟩)

theorem forall₂_exists_right {α : Type} {R : α → α → Prop} {l l' : List α}
    (h : List.Forall₂ R l l') {x : α} (hx : x ∈ l) : ∃ y ∈ l', R x y := by
  induction h with
  | nil => simp at hx
  | cons hxy _ ih =>
    simp only [List.mem_cons] at hx
    rcases hx with rfl | hx
    · exact ⟨_, by simp, hxy⟩
    · obtain ⟨y, hy, hR⟩ := ih hx
      exact ⟨y, by simp [hy], hR⟩

theorem forall₂_exists_left {α : Type} {R : α → α → Prop} {l l' : List α}
    (h : List.Forall₂ R l l') {y : α} (hy : y ∈ l') : ∃ x ∈ l, R x y := by
  induction h with
  | nil => simp at hy
  | cons hxy _ ih =>
    simp only [List.mem_cons] at hy
    rcases hy with rfl | hy
    · exact ⟨_, by simp, hxy⟩
    · obtain ⟨x, hx, hR⟩ := ih hy
      exact ⟨x, by simp [hx], hR⟩

theorem WellFormed.insertStream {st : PassState} (h : WellFormed st) (b : Value) :
    LoopInv ⟨st.next, tokenType⟩
      ⟨insertAfterBuffer st.ops b (Op.stream ⟨st.next, tokenType⟩ Loc.unknown), st.next + 1,
        st.failed⟩ := by
  obtain ⟨hnd, hlt, hbn, hbl, hn⟩ := h
  refine ⟨⟨?_, ?_, ?_, ?_, ?_⟩, ?_, ?_⟩
  · simpa using hnd
  · intro u hu
    have := hlt u (by simpa using hu)
    show u < st.next + 1
    omega
  · simpa using hbn
  · intro v hv
    have := hbl v (by simpa using hv)
    show v.id < st.next + 1
    omega
  · intro n hn'
    simp only [nodesOf_insertAfterBuffer, getBuffers_insertAfterBuffer] at hn' ⊢
    exact ⟨(hn n hn').1, (hn n hn').2.1.weaken (Nat.le_add_right _ _), (hn n hn').2.2⟩
  · show st.next < st.next + 1
    omega
  · intro hm
    have := hbl _ (by simpa using hm)
    simp at this

theorem OpUpd.toSame {R : Node → Node → Prop} {us : List Nat} {lo hi : Nat} {o o' : Op}
    (h : OpUpd R us lo hi o o') : SameUnlessNode o o' := by
  cases o with
  | node u n =>
    rcases h with ⟨_, rfl⟩ | ⟨_, u', n', rfl, _⟩
    · exact ⟨u, n, rfl⟩
    · exact ⟨u', n', rfl⟩
  | _ => exact h

theorem BufferStep.same {b t : Value} {lo hi : Nat} {o o' : Op}
    (h : BufferStep b t lo hi o o') : SameUnlessNode o o' := by
  cases o with
  | node u n =>
    rcases h with ⟨_, u', n', rfl, _⟩ | ⟨_, _, u', n', rfl, _⟩ | ⟨_, _, rfl⟩
    · exact ⟨u', n', rfl⟩
    · exact ⟨u', n', rfl⟩
    · exact ⟨u, n, rfl⟩
  | _ => exact h

theorem getBuffers_eq_of_forall₂ {l l' : List Op} (h : List.Forall₂ SameUnlessNode l l') :
    getBuffers l' = getBuffers l := by
  induction h with
  | nil => rfl
  | @cons x y l₁ l₂ hxy _ ih =>
    cases x with
    | node u n =>
      obtain ⟨u', n', rfl⟩ := hxy
      simpa [getBuffers] using ih
    | buffer m => cases hxy; simp [getBuffers, ih]
    | stream c lc => cases hxy; simpa [getBuffers] using ih
    | other k => cases hxy; simpa [getBuffers] using ih

/-- The loop body for one buffer of a well-formed schedule returns, keeps the
schedule well-formed and has the effect described by `StepFacts`. -/
theorem processBuffer_spec (st : PassState) (hwf : WellFormed st) (b : Value)
    (hb : b ∈ getBuffers st.ops) :
    ∃ st', processBuffer st b = some st' ∧ WellFormed st' ∧
      getBuffers st'.ops = getBuffers st.ops ∧ st.next ≤ st'.next ∧ StepFacts st b st' := by
  by_cases hsh : getProducers st.ops b = [] ∨ getConsumers st.ops b = []
  · refine ⟨st, ?_, hwf, rfl, le_refl _, Or.inl ⟨hsh, rfl⟩⟩
    unfold processBuffer rewriteBuffer
    rcases hsh with h | h <;> simp [h]
  · simp only [not_or] at hsh
    obtain ⟨hP, hC⟩ := hsh
    have hund := hwf.1
    have hult := hwf.2.1
    have hI1 := hwf.insertStream b
    obtain ⟨st2, hrun2, hI2, hle2, hf2, hall2⟩ :=
      rewriteProducers_spec b ⟨st.next, tokenType⟩ (getProducers st.ops b) _ hI1
        ((getProducers_sublist st.ops b).nodup hund)
        (fun u hu => by
          simpa using (getProducers_sublist st.ops b).subset hu)
    simp only at hle2 hf2 hall2
    -- the nodes of the first relation are those of the schedule at entry
    have hall2' := forall₂_mem_left hall2
    -- consumers are not producers, so they are still in the schedule
    have hnotP : ∀ u ∈ getConsumers st.ops b, u ∉ getProducers st.ops b := by
      intro u hu hu'
      obtain ⟨n, hn, hbn⟩ := mem_getConsumers.1 hu
      obtain ⟨m, hm, hbm⟩ := mem_getProducers.1 hu'
      have := node_unique hund hn hm
      subst this
      exact (hwf.2.2.2.2 n (mem_nodesOf.2 ⟨u, hn⟩)).2.2 b hb ⟨hbn, hbm⟩
    have hmemC : ∀ u ∈ getConsumers st.ops b, u ∈ nodeUids st2.ops := by
      intro u hu
      obtain ⟨n, hn, _⟩ := mem_getConsumers.1 hu
      have hn1 := (mem_node_insertAfterBuffer st.ops b ⟨st.next, tokenType⟩ Loc.unknown u n).2 hn
      obtain ⟨y, hy, hR⟩ := forall₂_exists_right hall2 hn1
      rcases hR with ⟨_, rfl⟩ | ⟨hin, _⟩
      · exact mem_nodeUids.2 ⟨n, hy⟩
      · exact absurd hin (hnotP u hu)
    obtain ⟨st3, hrun3, hI3, hle3, hf3, hall3⟩ :=
      rewriteConsumers_spec b ⟨st.next, tokenType⟩ (getConsumers st.ops b) st2 hI2
        ((getConsumers_sublist st.ops b).nodup hund) hmemC
    have hstep : List.Forall₂ (BufferStep b ⟨st.next, tokenType⟩ st.next st3.next)
        (insertAfterBuffer st.ops b (Op.stream ⟨st.next, tokenType⟩ Loc.unknown)) st3.ops := by
      refine forall₂_compose ?_ hall2' hall3
      rintro x y z ⟨hx, hxy⟩ hyz
      cases x with
      | node u n =>
        have hn := (mem_node_insertAfterBuffer st.ops b _ _ u n).1 hx
        by_cases hbo : b ∈ n.outputs
        · have huP : u ∈ getProducers st.ops b := mem_getProducers.2 ⟨n, hn, hbo⟩
          rcases hxy with ⟨hnin, _⟩ | ⟨_, u', n', rfl, hl, hh, hR⟩
          · exact absurd huP hnin
          · have hu'C : u' ∉ getConsumers st.ops b := by
              intro hm
              have := hult u' ((getConsumers_sublist st.ops b).subset hm)
              omega
            rcases hyz with ⟨_, rfl⟩ | ⟨hin, _⟩
            · exact Or.inl ⟨hbo, u', n', rfl, by omega, by omega,
                hR.widen (by omega) hle3⟩
            · exact absurd hin hu'C
        · have huP : u ∉ getProducers st.ops b := by
            intro hm
            obtain ⟨m, hm', hbm⟩ := mem_getProducers.1 hm
            have := node_unique hund hn hm'
            subst this
            exact hbo hbm
          rcases hxy with ⟨_, rfl⟩ | ⟨hin, _⟩
          · by_cases hbi : b ∈ n.inputs
            · have huC : u ∈ getConsumers st.ops b := mem_getConsumers.2 ⟨n, hn, hbi⟩
              rcases hyz with ⟨hnin, _⟩ | ⟨_, u', n', rfl, hl, hh, hR⟩
              · exact absurd huC hnin
              · exact Or.inr (Or.inl ⟨hbo, hbi, u', n', rfl, by omega, hh,
                  hR.widenC (by omega) (le_refl _)⟩)
            · have huC : u ∉ getConsumers st.ops b := by
                intro hm
                obtain ⟨m, hm', hbm⟩ := mem_getConsumers.1 hm
                have := node_unique hund hn hm'
                subst this
                exact hbi hbm
              rcases hyz with ⟨_, rfl⟩ | ⟨hin, _⟩
              · exact Or.inr (Or.inr ⟨hbo, hbi, rfl⟩)
              · exact absurd hin huC
          · exact absurd hin huP
      | buffer m => cases hxy; cases hyz; rfl
      | stream c l => cases hxy; cases hyz; rfl
      | other k => cases hxy; cases hyz; rfl
    refine ⟨st3, ?_, hI3.1, ?_, by omega, Or.inr ⟨hP, hC, by rw [hf3, hf2], by omega, hstep⟩⟩
    · unfold processBuffer rewriteBuffer
      have hP' : (getProducers st.ops b).isEmpty = false := by
        cases h : getProducers st.ops b with
        | nil => exact absurd h hP
        | cons _ _ => rfl
      have hC' : (getConsumers st.ops b).isEmpty = false := by
        cases h : getConsumers st.ops b with
        | nil => exact absurd h hC
        | cons _ _ => rfl
      simp only [hP', hC', Bool.or_self, Bool.false_eq_true, if_false, hrun2, hrun3]
    · rw [getBuffers_eq_of_forall₂ (hstep.imp fun _ _ h => h.same)]
      simp

/-! ### From operations to nodes -/

theorem nodesOf_forall₂ {b t : Value} {lo hi : Nat} {l l' : List Op}
    (h : List.Forall₂ (BufferStep b t lo hi) l l') :
    List.Forall₂ (NodeStep b t lo hi) (nodesOf l) (nodesOf l') := by
  induction h with
  | nil => exact List.Forall₂.nil
  | @cons x y l₁ l₂ hxy _ ih =>
    cases x with
    | node u n =>
      rcases hxy with ⟨h₁, u', n', rfl, _, _, hR⟩ | ⟨h₁, h₂, u', n', rfl, _, _, hR⟩ | ⟨h₁, h₂, rfl⟩
      · exact List.Forall₂.cons (Or.inl ⟨h₁, hR⟩) ih
      · exact List.Forall₂.cons (Or.inr (Or.inl ⟨h₁, h₂, hR⟩)) ih
      · exact List.Forall₂.cons (Or.inr (Or.inr ⟨h₁, h₂, rfl⟩)) ih
    | buffer m => cases hxy; simpa [nodesOf] using ih
    | stream c lc => cases hxy; simpa [nodesOf] using ih
    | other k => cases hxy; simpa [nodesOf] using ih

/-- Values other than the token are in the inputs and outputs of the node after
the step exactly when they were before. -/
theorem NodeStep.mem_iff {b t : Value} {lo hi : Nat} {n n' : Node} (h : NodeStep b t lo hi n n')
    {v : Value} (hv : v ≠ t) :
    (v ∈ n'.inputs ↔ v ∈ n.inputs) ∧ (v ∈ n'.outputs ↔ v ∈ n.outputs) := by
  rcases h with ⟨_, a, c, _, _, rfl⟩ | ⟨_, _, a, _, _, rfl⟩ | ⟨_, _, rfl⟩
  · exact ⟨Iff.rfl, by simp [producerNode, hv]⟩
  · exact ⟨by simp [consumerNode, hv], Iff.rfl⟩
  · exact ⟨Iff.rfl, Iff.rfl⟩

theorem countP_forall₂ {α : Type} {R : α → α → Prop} {p q : α → Bool} {l l' : List α}
    (h : List.Forall₂ R l l') (hpq : ∀ x y, R x y → p x = q y) :
    l.countP p = l'.countP q := by
  induction h with
  | nil => rfl
  | cons hxy _ ih => simp [List.countP_cons, hpq _ _ hxy, ih]

theorem getProducers_length (ops : List Op) (v : Value) :
    (getProducers ops v).length = (nodesOf ops).countP fun n => decide (v ∈ n.outputs) := by
  induction ops with
  | nil => rfl
  | cons o ops ih =>
    unfold getProducers at ih ⊢
    cases o with
    | node u n =>
      by_cases hv : v ∈ n.outputs <;> simp [List.filterMap_cons, nodesOf, hv, ih]
    | _ => simpa [List.filterMap_cons, nodesOf] using ih

theorem getConsumers_length (ops : List Op) (v : Value) :
    (getConsumers ops v).length = (nodesOf ops).countP fun n => decide (v ∈ n.inputs) := by
  induction ops with
  | nil => rfl
  | cons o ops ih =>
    unfold getConsumers at ih ⊢
    cases o with
    | node u n =>
      by_cases hv : v ∈ n.inputs <;> simp [List.filterMap_cons, nodesOf, hv, ih]
    | _ => simpa [List.filterMap_cons, nodesOf] using ih

/-- The node-level reading of the effect of one loop body. -/
theorem StepFacts.nodes {st st' : PassState} {b : Value} (h : StepFacts st b st') :
    st' = st ∨ List.Forall₂ (NodeStep b ⟨st.next, tokenType⟩ st.next st'.next)
      (nodesOf st.ops) (nodesOf st'.ops) := by
  rcases h with ⟨_, rfl⟩ | ⟨_, _, _, _, hall⟩
  · exact Or.inl rfl
  · right
    simpa using nodesOf_forall₂ hall

/-- One loop body changes the number of producers and of consumers of no value
that existed before it. -/
theorem StepFacts.frame {st st' : PassState} {b : Value} (h : StepFacts st b st') (v : Value)
    (hv : v.id < st.next) :
    (getProducers st'.ops v).length = (getProducers st.ops v).length ∧
      (getConsumers st'.ops v).length = (getConsumers st.ops v).length := by
  rcases h.nodes with rfl | hall
  · exact ⟨rfl, rfl⟩
  · have hne : v ≠ ⟨st.next, tokenType⟩ := by
      rintro rfl
      simp at hv
    rw [getProducers_length, getProducers_length, getConsumers_length, getConsumers_length]
    constructor
    · refine (countP_forall₂ hall fun x y hxy => ?_).symm
      simp [(hxy.mem_iff hne).2]
    · refine (countP_forall₂ hall fun x y hxy => ?_).symm
      simp [(hxy.mem_iff hne).1]

theorem Reached.start {st : PassState} (h : WellFormed st) : Reached st st :=
  ⟨h, rfl, le_refl _, rfl, fun _ _ => ⟨rfl, rfl⟩⟩

/-- Induction over the loop of the pass: an invariant indexed by the buffers still
to be visited that every loop body carries over holds at the end, and the pass
returns. -/
theorem processBuffers_induct (st0 : PassState) (I : List Value → PassState → Prop)
    (hstep : ∀ b rest st st', Reached st0 st → Reached st0 st' → b ∈ getBuffers st0.ops →
      b ∉ rest → st.next ≤ st'.next → StepFacts st b st' → I (b :: rest) st → I rest st') :
    ∀ (bs : List Value) (st : PassState), Reached st0 st → (∀ b ∈ bs, b ∈ getBuffers st0.ops) →
      bs.Nodup → I bs st →
      ∃ st', processBuffers bs st = some st' ∧ Reached st0 st' ∧ I [] st' := by
  intro bs
  induction bs with
  | nil => intro st hR _ _ hI; exact ⟨st, rfl, hR, hI⟩
  | cons b rest ih =>
    intro st hR hmem hnd hI
    simp only [List.nodup_cons] at hnd
    obtain ⟨hwf, hbuf, hle, hf, hsame⟩ := hR
    have hb : b ∈ getBuffers st.ops := by rw [hbuf]; exact hmem b (by simp)
    obtain ⟨st1, hrun, hwf1, hbuf1, hle1, hfacts⟩ := processBuffer_spec st hwf b hb
    have hf1 : st1.failed = st.failed := by
      rcases hfacts with ⟨_, rfl⟩ | ⟨_, _, h, _⟩
      · rfl
      · exact h
    have hR1 : Reached st0 st1 := by
      refine ⟨hwf1, by rw [hbuf1, hbuf], by omega, by rw [hf1, hf], fun v hv => ?_⟩
      have h1 := hfacts.frame v (by omega)
      have h2 := hsame v hv
      exact ⟨h1.1.trans h2.1, h1.2.trans h2.2⟩
    have hI1 := hstep b rest st st1 ⟨hwf, hbuf, hle, hf, hsame⟩ hR1 (hmem b (by simp)) hnd.1
      hle1 hfacts hI
    obtain ⟨st', hrun', hR', hI'⟩ := ih st1 hR1 (fun x hx => hmem x (by simp [hx])) hnd.2 hI1
    exact ⟨st', by simp only [processBuffers, hrun]; exact hrun', hR', hI'⟩

/-- The pass returns on every well-formed schedule, and an invariant of the loop
bodies holds of its result. -/
theorem runOnOperation_induct (st0 : PassState) (hwf : WellFormed st0)
    (I : List Value → PassState → Prop) (h0 : I (getBuffers st0.ops) st0)
    (hstep : ∀ b rest st st', Reached st0 st → Reached st0 st' → b ∈ getBuffers st0.ops →
      b ∉ rest → st.next ≤ st'.next → StepFacts st b st' → I (b :: rest) st → I rest st') :
    ∃ st', runOnOperation st0 = some st' ∧ Reached st0 st' ∧ I [] st' :=
  processBuffers_induct st0 I hstep (getBuffers st0.ops) st0 (Reached.start hwf)
    (fun _ h => h) hwf.2.2.1 h0

/-- Why well-formed schedules exclude a node with one buffer as input and as
output: such a node is in both snapshots, the producer loop erases it, and the
consumer loop then dereferences the erased node. -/
theorem inout_node_is_dereferenced_after_erasure :
    runOnOperation
      ⟨[Op.buffer ScenarioD.buf0,
          Op.node 10
            { loc := Loc.unknown, inputs := [ScenarioD.buf0], outputs := [ScenarioD.buf0],
              params := [], inputTaps := [0], level := none,
              body := { args := [⟨1, Ty.memref 0, Loc.unknown⟩, ⟨2, Ty.memref 0, Loc.unknown⟩],
                        ops := [] } }],
        20, false⟩ = none := by
  decide

/-! ## The claims about the token-stream insertion pass -/

/-- C2 (as stated, refuted): in Scenario D the node that replaces `N1` has the
output list `[token, buf0]`, which is not `[token]`: the token is inserted in
front of the buffer and the buffer stays an output. -/
theorem scenarioD_producer_outputs_keep_buffer :
    (runOnOperation ScenarioD.schedule).map
        (fun st' => (nodesOf st'.ops).map Node.outputs) =
      some [[ScenarioD.token, ScenarioD.buf0], [], []] ∧
    [ScenarioD.token, ScenarioD.buf0] ≠ [ScenarioD.token] := by
  decide

/-- C2 (amended): in Scenario D the pass returns a schedule with exactly one
stream, the token stream right after `buf0`; the node that replaces `N1` has the
output list `[token, buf0]`, and its body is the body of `N1` followed by a
constant `true` and, as last operation, a write of that constant to the block
argument that stands for the token. -/
theorem scenarioD_producer :
    ∃ st' u n c a,
      runOnOperation ScenarioD.schedule = some st' ∧
      st'.ops.countP Op.isStream = 1 ∧
      st'.ops[0]? = some (Op.buffer ScenarioD.buf0) ∧
      st'.ops[1]? = some (Op.stream ScenarioD.token Loc.unknown) ∧
      st'.ops[2]? = some (Op.node u n) ∧
      n.outputs = [ScenarioD.token, ScenarioD.buf0] ∧
      n.body.ops = ScenarioD.N1.body.ops ++ [BodyOp.constant c true, BodyOp.streamWrite a c] ∧
      n.operandOfArg a = some ScenarioD.token :=
  ⟨_, 21, _, 23, 22, rfl, by decide, by decide, by decide, rfl, by decide, by decide, by decide⟩

theorem processBuffers_unshared (bs : List Value) (st : PassState)
    (h : ∀ b ∈ bs, getProducers st.ops b = [] ∨ getConsumers st.ops b = []) :
    processBuffers bs st = some st := by
  induction bs with
  | nil => rfl
  | cons b rest ih =>
    have hb : processBuffer st b = some st := by
      unfold processBuffer rewriteBuffer
      rcases h b (by simp) with e | e <;> simp [e]
    simp only [processBuffers, hb]
    exact ih fun x hx => h x (by simp [hx])

/-- C6: a buffer with zero producers or zero consumers makes the loop body return
the state it was given (no stream created, no node replaced); and when every
buffer of the schedule has zero producers or zero consumers, the pass returns the
schedule it was given. -/
theorem unshared_buffers_identity (st : PassState) :
    (∀ b, getProducers st.ops b = [] ∨ getConsumers st.ops b = [] →
      processBuffer st b = some st) ∧
    ((∀ b ∈ getBuffers st.ops, getProducers st.ops b = [] ∨ getConsumers st.ops b = []) →
      runOnOperation st = some st) := by
  refine ⟨fun b hb => ?_, fun h => processBuffers_unshared _ st h⟩
  unfold processBuffer rewriteBuffer
  rcases hb with e | e <;> simp [e]

/-- C3: for a node with one tap per input and block arguments for all inputs
and outputs, both rebuilds return a node.  The rebuilt producer has the inputs,
input taps, parameters and level of the original, and deleting the entry at the
insertion position from its outputs gives the original outputs; the rebuilt
consumer has the outputs, parameters and level of the original, and deleting the
entry at the insertion position from its inputs and input taps gives the
original inputs and input taps.  When the token is not an operand of the
original, deleting the token by value gives the same. -/
theorem rebuild_preserves_operands (node : Node) (buffer token : Value) (loc : Loc)
    (a c : Nat) (hs : node.ShapeOk) :
    (∃ n', rebuildProducer node buffer token loc a c = some n' ∧
      n'.inputs = node.inputs ∧
      n'.outputs.eraseIdx (findIndex node.outputs buffer) = node.outputs ∧
      n'.inputTaps = node.inputTaps ∧ n'.params = node.params ∧ n'.level = node.level ∧
      (token ∉ node.outputs → n'.outputs.filter (fun v => decide (v ≠ token)) = node.outputs)) ∧
    (∃ n', rebuildConsumer node buffer token loc a = some n' ∧
      n'.inputs.eraseIdx (findIndex node.inputs buffer) = node.inputs ∧
      n'.inputTaps.eraseIdx (findIndex node.inputs buffer) = node.inputTaps ∧
      n'.outputs = node.outputs ∧ n'.params = node.params ∧ n'.level = node.level ∧
      (token ∉ node.inputs → n'.inputs.filter (fun v => decide (v ≠ token)) = node.inputs)) := by
  have hfilter : ∀ l : List Value, token ∉ l → l.filter (fun v => decide (v ≠ token)) = l := by
    intro l hl
    rw [List.filter_eq_self]
    intro v hv
    have hne : v ≠ token := by
      rintro rfl
      exact hl hv
    simpa using hne
  constructor
  · refine ⟨producerNode node buffer token loc a c, ?_, rfl, ?_, rfl, rfl, rfl, ?_⟩
    · simp [rebuildProducer_eq, hs.producer_guard buffer]
    · exact eraseIdx_insertAt _ _ _ (findIndex_le _ _)
    · intro ht
      show (insertAt node.outputs _ token).filter _ = _
      rw [filter_insertAt _ _ _ _ (by simp)]
      exact hfilter _ ht
  · refine ⟨consumerNode node buffer token loc a, ?_, ?_, ?_, rfl, rfl, rfl, ?_⟩
    · simp [rebuildConsumer_eq, hs.consumer_guard buffer]
    · exact eraseIdx_insertAt _ _ _ (findIndex_le _ _)
    · exact eraseIdx_insertAt _ _ _ (hs.consumer_guard buffer).1
    · intro ht
      show (insertAt node.inputs _ token).filter _ = _
      rw [filter_insertAt _ _ _ _ (by simp)]
      exact hfilter _ ht

/-- Witness of C3 at the first consumer of Scenario D. -/
theorem rebuild_preserves_operands_witness :
    ScenarioD.N2.ShapeOk ∧
    ((∃ n', rebuildProducer ScenarioD.N2 ScenarioD.buf0 ScenarioD.token Loc.unknown 22 23 =
        some n' ∧
      n'.inputs = ScenarioD.N2.inputs ∧
      n'.outputs.eraseIdx (findIndex ScenarioD.N2.outputs ScenarioD.buf0) =
        ScenarioD.N2.outputs ∧
      n'.inputTaps = ScenarioD.N2.inputTaps ∧ n'.params = ScenarioD.N2.params ∧
      n'.level = ScenarioD.N2.level ∧
      (ScenarioD.token ∉ ScenarioD.N2.outputs →
        n'.outputs.filter (fun v => decide (v ≠ ScenarioD.token)) = ScenarioD.N2.outputs)) ∧
    (∃ n', rebuildConsumer ScenarioD.N2 ScenarioD.buf0 ScenarioD.token Loc.unknown 22 = some n' ∧
      n'.inputs.eraseIdx (findIndex ScenarioD.N2.inputs ScenarioD.buf0) = ScenarioD.N2.inputs ∧
      n'.inputTaps.eraseIdx (findIndex ScenarioD.N2.inputs ScenarioD.buf0) =
        ScenarioD.N2.inputTaps ∧
      n'.outputs = ScenarioD.N2.outputs ∧ n'.params = ScenarioD.N2.params ∧
      n'.level = ScenarioD.N2.level ∧
      (ScenarioD.token ∉ ScenarioD.N2.inputs →
        n'.inputs.filter (fun v => decide (v ≠ ScenarioD.token)) = ScenarioD.N2.inputs))) :=
  ⟨by decide,
    rebuild_preserves_operands ScenarioD.N2 ScenarioD.buf0 ScenarioD.token Loc.unknown 22 23
      (by decide)⟩

/-- Witness of C6 on a schedule whose only buffer has a producer and no consumer. -/
theorem unshared_buffers_identity_witness :
    (getProducers [Op.buffer ScenarioD.buf0, Op.node 10 ScenarioD.N1] ScenarioD.buf0 = [] ∨
      getConsumers [Op.buffer ScenarioD.buf0, Op.node 10 ScenarioD.N1] ScenarioD.buf0 = []) ∧
    processBuffer ⟨[Op.buffer ScenarioD.buf0, Op.node 10 ScenarioD.N1], 20, false⟩
        ScenarioD.buf0 =
      some ⟨[Op.buffer ScenarioD.buf0, Op.node 10 ScenarioD.N1], 20, false⟩ ∧
    runOnOperation ⟨[Op.buffer ScenarioD.buf0, Op.node 10 ScenarioD.N1], 20, false⟩ =
      some ⟨[Op.buffer ScenarioD.buf0, Op.node 10 ScenarioD.N1], 20, false⟩ :=
  ⟨by decide,
    (unshared_buffers_identity ⟨[Op.buffer ScenarioD.buf0, Op.node 10 ScenarioD.N1], 20, false⟩).1
      ScenarioD.buf0 (by decide),
    (unshared_buffers_identity ⟨[Op.buffer ScenarioD.buf0, Op.node 10 ScenarioD.N1], 20, false⟩).2
      (by decide)⟩

theorem findIndex_first (l : List Value) (v : Value) (p : Nat) (hp : p < findIndex l v) :
    l[p]? ≠ some v := by
  unfold findIndex at hp
  induction l generalizing p with
  | nil => simp
  | cons x l ih =>
    by_cases hx : x = v
    · simp [List.indexOf_cons, hx] at hp
    · have hcons : List.indexOf v (x :: l) = List.indexOf v l + 1 := by
        simp [List.indexOf_cons, hx]
      rw [hcons] at hp
      cases p with
      | zero => simpa using hx
      | succ p => simpa using ih p (by omega)

theorem findIndex_getElem? (l : List Value) (v : Value) (h : v ∈ l) :
    l[findIndex l v]? = some v := by
  have hlt := (findIndex_lt_iff l v).2 h
  rw [List.getElem?_eq_getElem hlt]
  exact congrArg some (List.getElem_indexOf hlt)

/-- C4: for a consumer whose input list holds the buffer, first at index `i`, the
rebuild returns a node with the token at index `i` of the inputs, tap `0` at
index `i` of the input taps and the new block argument at index `i` of the body
arguments; inputs, taps and arguments before `i` keep their index, those from `i`
on (the buffer at `i` included) move up by one.  In Scenario D the two consumers
get the token as first input with tap `0`. -/
theorem consumer_token_position (node : Node) (buffer token : Value) (loc : Loc) (a : Nat)
    (hs : node.ShapeOk) (hb : buffer ∈ node.inputs) :
    (∃ n', rebuildConsumer node buffer token loc a = some n' ∧
      node.inputs[findIndex node.inputs buffer]? = some buffer ∧
      (∀ p, p < findIndex node.inputs buffer → node.inputs[p]? ≠ some buffer) ∧
      n'.inputs[findIndex node.inputs buffer]? = some token ∧
      n'.inputTaps[findIndex node.inputs buffer]? = some 0 ∧
      n'.body.args[findIndex node.inputs buffer]? = some ⟨a, token.ty, loc⟩ ∧
      (∀ p, p < findIndex node.inputs buffer →
        n'.inputs[p]? = node.inputs[p]? ∧ n'.inputTaps[p]? = node.inputTaps[p]? ∧
          n'.body.args[p]? = node.body.args[p]?) ∧
      (∀ p, findIndex node.inputs buffer ≤ p →
        n'.inputs[p + 1]? = node.inputs[p]? ∧ n'.inputTaps[p + 1]? = node.inputTaps[p]? ∧
          n'.body.args[p + 1]? = node.body.args[p]?) ∧
      n'.inputs[findIndex node.inputs buffer + 1]? = some buffer) ∧
    (runOnOperation ScenarioD.schedule).map
        (fun st' => (nodesOf st'.ops).map fun n => (n.inputs, n.inputTaps)) =
      some [([], []), ([ScenarioD.token, ScenarioD.buf0], [0, 3]),
        ([ScenarioD.token, ScenarioD.buf0], [0, 5])] := by
  obtain ⟨ht, ha⟩ := hs.consumer_guard buffer
  have hi := findIndex_le node.inputs buffer
  refine ⟨⟨consumerNode node buffer token loc a, ?_, findIndex_getElem? _ _ hb,
    findIndex_first _ _, ?_, ?_, ?_, ?_, ?_, ?_⟩, by decide⟩
  · simp [rebuildConsumer_eq, ht, ha]
  · exact getElem?_insertAt_self _ _ _ hi
  · exact getElem?_insertAt_self _ _ _ ht
  · exact getElem?_insertAt_self _ _ _ ha
  · intro p hp
    exact ⟨getElem?_insertAt_lt _ _ _ _ hp hi, getElem?_insertAt_lt _ _ _ _ hp ht,
      getElem?_insertAt_lt _ _ _ _ hp ha⟩
  · intro p hp
    exact ⟨getElem?_insertAt_ge _ _ _ _ hp hi, getElem?_insertAt_ge _ _ _ _ hp ht,
      getElem?_insertAt_ge _ _ _ _ hp ha⟩
  · show (insertAt node.inputs _ token)[_ + 1]? = _
    rw [getElem?_insertAt_ge _ _ _ _ (le_refl _) hi]
    exact findIndex_getElem? _ _ hb

/-- Witness of C4 at the first consumer of Scenario D. -/
theorem consumer_token_position_witness :
    ScenarioD.N2.ShapeOk ∧ ScenarioD.buf0 ∈ ScenarioD.N2.inputs ∧
    ∃ n', rebuildConsumer ScenarioD.N2 ScenarioD.buf0 ScenarioD.token Loc.unknown 25 = some n' ∧
      n'.inputs[findIndex ScenarioD.N2.inputs ScenarioD.buf0]? = some ScenarioD.token ∧
      n'.inputTaps[findIndex ScenarioD.N2.inputs ScenarioD.buf0]? = some 0 ∧
      n'.inputs[findIndex ScenarioD.N2.inputs ScenarioD.buf0 + 1]? = some ScenarioD.buf0 := by
  refine ⟨by decide, by decide, ?_⟩
  obtain ⟨⟨n', h₁, _, _, h₂, h₃, _, _, _, h₄⟩, _⟩ :=
    consumer_token_position ScenarioD.N2 ScenarioD.buf0 ScenarioD.token Loc.unknown 25
      (by decide) (by decide)
  exact ⟨n', h₁, h₂, h₃, h₄⟩

theorem producerNode_argsMatch {n : Node} (h : n.ArgsMatch) (b t : Value) (loc : Loc)
    (a c : Nat) : (producerNode n b t loc a c).ArgsMatch := by
  unfold Node.ArgsMatch at h ⊢
  simp only [producerNode, map_insertAt, List.map_append, h]
  rw [append_insertAt, List.length_map, Nat.add_comm]

theorem consumerNode_argsMatch {n : Node} (h : n.ArgsMatch) (b t : Value) (loc : Loc)
    (a : Nat) : (consumerNode n b t loc a).ArgsMatch := by
  unfold Node.ArgsMatch at h ⊢
  simp only [consumerNode, map_insertAt, List.map_append, h]
  rw [insertAt_append _ _ _ _ (by simpa using findIndex_le n.inputs b)]

theorem NodeStep.argsMatch {b t : Value} {lo hi : Nat} {n n' : Node}
    (h : NodeStep b t lo hi n n') (hm : n.ArgsMatch) : n'.ArgsMatch := by
  rcases h with ⟨_, a, c, _, _, rfl⟩ | ⟨_, _, a, _, _, rfl⟩ | ⟨_, _, rfl⟩
  · exact producerNode_argsMatch hm _ _ _ _ _
  · exact consumerNode_argsMatch hm _ _ _ _
  · exact hm

theorem StreamsInserted.of_unshared {P : Value → Prop} (lo : Nat) (ops : List Op)
    (h : ∀ b ∈ getBuffers ops, ¬ P b) : StreamsInserted P lo ops ops := by
  induction ops with
  | nil => exact StreamsInserted.nil
  | cons o ops ih =>
    cases o with
    | buffer m =>
      exact StreamsInserted.plain (h m (by simp [getBuffers]))
        (ih fun b hb => h b (by simp [getBuffers, hb]))
    | node u n => exact StreamsInserted.node (ih fun b hb => h b (by simpa [getBuffers] using hb))
    | stream c l =>
      exact StreamsInserted.stream (ih fun b hb => h b (by simpa [getBuffers] using hb))
    | other k => exact StreamsInserted.other (ih fun b hb => h b (by simpa [getBuffers] using hb))

theorem StreamsInserted.congr {P Q : Value → Prop} {lo : Nat} {l l' : List Op}
    (h : StreamsInserted P lo l l') (hpq : ∀ b ∈ getBuffers l, P b ↔ Q b) :
    StreamsInserted Q lo l l' := by
  induction h with
  | nil => exact StreamsInserted.nil
  | token hb hlo _ ih =>
    exact StreamsInserted.token ((hpq _ (by simp [getBuffers])).1 hb) hlo
      (ih fun b hb' => hpq b (by simp [getBuffers, hb']))
  | plain hb _ ih =>
    exact StreamsInserted.plain (fun hq => hb ((hpq _ (by simp [getBuffers])).2 hq))
      (ih fun b hb' => hpq b (by simp [getBuffers, hb']))
  | node _ ih => exact StreamsInserted.node (ih fun b hb' => hpq b (by simpa [getBuffers] using hb'))
  | stream _ ih =>
    exact StreamsInserted.stream (ih fun b hb' => hpq b (by simpa [getBuffers] using hb'))
  | other _ ih =>
    exact StreamsInserted.other (ih fun b hb' => hpq b (by simpa [getBuffers] using hb'))

theorem StreamsInserted.insert {P : Value → Prop} {lo : Nat} {l l' : List Op}
    (h : StreamsInserted P lo l l') (b : Value) (id : Nat) (hb : ¬ P b) (hid : lo ≤ id)
    (hnd : (getBuffers l).Nodup) :
    StreamsInserted (fun x => P x ∨ x = b) lo l
      (insertAfterBuffer l' b (Op.stream ⟨id, tokenType⟩ Loc.unknown)) := by
  induction h with
  | nil => exact StreamsInserted.nil
  | @token b₁ id₁ rest rest' hb₁ hlo _ ih =>
    have hne : b₁ ≠ b := fun e => hb (e ▸ hb₁)
    simp only [getBuffers, List.nodup_cons] at hnd
    simp only [insertAfterBuffer, hne, if_false]
    exact StreamsInserted.token (Or.inl hb₁) hlo (ih hnd.2)
  | @plain b₁ rest rest' hb₁ hrest ih =>
    simp only [getBuffers, List.nodup_cons] at hnd
    by_cases he : b₁ = b
    · subst he
      simp only [insertAfterBuffer, if_true]
      refine StreamsInserted.token (Or.inr rfl) hid (hrest.congr fun x hx => ?_)
      have hne : x ≠ b₁ := fun e => hnd.1 (e ▸ hx)
      simp [hne]
    · simp only [insertAfterBuffer, he, if_false]
      exact StreamsInserted.plain (fun hq => hq.elim hb₁ he) (ih hnd.2)
  | node _ ih => exact StreamsInserted.node (ih (by simpa [getBuffers] using hnd))
  | stream _ ih => exact StreamsInserted.stream (ih (by simpa [getBuffers] using hnd))
  | other _ ih => exact StreamsInserted.other (ih (by simpa [getBuffers] using hnd))

theorem StreamsInserted.transport {P : Value → Prop} {lo : Nat} {l l' l'' : List Op}
    (h : StreamsInserted P lo l l') (h' : List.Forall₂ SameUnlessNode l' l'') :
    StreamsInserted P lo l l'' := by
  induction h generalizing l'' with
  | nil => cases h'; exact StreamsInserted.nil
  | token hb hlo _ ih =>
    cases h' with
    | cons h₁ h₂ =>
      cases h₂ with
      | cons h₃ h₄ =>
        cases h₁; cases h₃
        exact StreamsInserted.token hb hlo (ih h₄)
  | plain hb _ ih =>
    cases h' with
    | cons h₁ h₂ => cases h₁; exact StreamsInserted.plain hb (ih h₂)
  | node _ ih =>
    cases h' with
    | cons h₁ h₂ =>
      obtain ⟨u'', n'', rfl⟩ := h₁
      exact StreamsInserted.node (ih h₂)
  | stream _ ih =>
    cases h' with
    | cons h₁ h₂ => cases h₁; exact StreamsInserted.stream (ih h₂)
  | other _ ih =>
    cases h' with
    | cons h₁ h₂ => cases h₁; exact StreamsInserted.other (ih h₂)

theorem StreamsInserted.count {P : Value → Prop} [DecidablePred P] {lo : Nat} {l l' : List Op}
    (h : StreamsInserted P lo l l') :
    l'.countP Op.isStream = l.countP Op.isStream + (getBuffers l).countP fun b => decide (P b) := by
  induction h with
  | nil => rfl
  | token hb _ _ ih => simp [List.countP_cons, Op.isStream, getBuffers, hb, ih]; omega
  | plain hb _ ih => simp [List.countP_cons, Op.isStream, getBuffers, hb, ih]
  | node _ ih => simp [List.countP_cons, Op.isStream, getBuffers, ih]
  | stream _ ih => simp [List.countP_cons, Op.isStream, getBuffers, ih]; omega
  | other _ ih => simp [List.countP_cons, Op.isStream, getBuffers, ih]

theorem shared_iff_of_reached {st0 st : PassState} (h0 : WellFormed st0) (h : Reached st0 st)
    {b : Value} (hb : b ∈ getBuffers st0.ops) : Shared st.ops b ↔ Shared st0.ops b := by
  obtain ⟨h₁, h₂⟩ := h.2.2.2.2 b (h0.2.2.2.1 b hb)
  unfold Shared
  rw [← List.length_pos, ← List.length_pos, ← List.length_pos, ← List.length_pos, h₁, h₂]

theorem NodeStep.counts {b t : Value} {lo hi : Nat} {n n' : Node} (h : NodeStep b t lo hi n n')
    (hs : n.ShapeOk) (hi : n.IdsBelow lo) (t₀ : Value) :
    n'.writesTo t₀ = n.writesTo t₀ + (if t₀ = t ∧ b ∈ n.outputs then 1 else 0) ∧
    n'.readsOf t₀ = n.readsOf t₀ + (if t₀ = t ∧ b ∉ n.outputs ∧ b ∈ n.inputs then 1 else 0) := by
  rcases h with ⟨hbo, a, c, ha, _, rfl⟩ | ⟨hbo, hbi, a, ha, _, rfl⟩ | ⟨hbo, hbi, rfl⟩
  · have hf := hi.freshArg ha
    rw [producerNode_writesTo n b t _ a c (hs.producer_guard b) hf,
      producerNode_readsOf n b t _ a c (hs.producer_guard b) hf]
    simp [hbo]
  · have hf := hi.freshArg ha
    rw [consumerNode_writesTo n b t _ a (hs.consumer_guard b).2 hf,
      consumerNode_readsOf n b t _ a (hs.consumer_guard b).2 hf]
    simp [hbo, hbi]
  · simp [hbo, hbi]

theorem sum_map_eq_countP {α : Type} (f : α → Nat) (p : α → Bool) (l : List α)
    (h : ∀ x ∈ l, f x = if p x then 1 else 0) : (l.map f).sum = l.countP p := by
  induction l with
  | nil => rfl
  | cons x l ih =>
    have hx := h x (by simp)
    have hl := ih fun y hy => h y (by simp [hy])
    by_cases hp : p x <;> simp [List.countP_cons, hx, hl, hp]; omega

theorem insertAfterBuffer_split {ops : List Op} {b : Value} (hb : b ∈ getBuffers ops) (new : Op) :
    ∃ pre post, insertAfterBuffer ops b new = pre ++ Op.buffer b :: new :: post := by
  induction ops with
  | nil => simp [getBuffers] at hb
  | cons o ops ih =>
    cases o with
    | buffer m =>
      by_cases hm : m = b
      · subst hm
        exact ⟨[], ops, by simp [insertAfterBuffer]⟩
      · simp only [getBuffers, List.mem_cons] at hb
        obtain ⟨pre, post, h⟩ := ih (hb.resolve_left (Ne.symm hm))
        exact ⟨Op.buffer m :: pre, post, by simp [insertAfterBuffer, hm, h]⟩
    | node u n =>
      obtain ⟨pre, post, h⟩ := ih (by simpa [getBuffers] using hb)
      exact ⟨Op.node u n :: pre, post, by simp [insertAfterBuffer, h]⟩
    | stream c l =>
      obtain ⟨pre, post, h⟩ := ih (by simpa [getBuffers] using hb)
      exact ⟨Op.stream c l :: pre, post, by simp [insertAfterBuffer, h]⟩
    | other k =>
      obtain ⟨pre, post, h⟩ := ih (by simpa [getBuffers] using hb)
      exact ⟨Op.other k :: pre, post, by simp [insertAfterBuffer, h]⟩

/-- Creating a stream after another buffer leaves a buffer and the stream after it
next to each other. -/
theorem insertAfterBuffer_keeps_pair (pre post : List Op) (b0 b t : Value) (new : Op)
    (hne : b ≠ b0) :
    ∃ pre' post', insertAfterBuffer (pre ++ Op.buffer b0 :: Op.stream t Loc.unknown :: post) b new =
      pre' ++ Op.buffer b0 :: Op.stream t Loc.unknown :: post' := by
  induction pre with
  | nil =>
    exact ⟨[], insertAfterBuffer post b new, by simp [insertAfterBuffer, Ne.symm hne]⟩
  | cons o pre ih =>
    obtain ⟨pre', post', h⟩ := ih
    cases o with
    | buffer m =>
      by_cases hm : m = b
      · subst hm
        exact ⟨Op.buffer m :: new :: pre, post, by simp [insertAfterBuffer]⟩
      · exact ⟨Op.buffer m :: pre', post', by simp [insertAfterBuffer, hm, h]⟩
    | node u n => exact ⟨Op.node u n :: pre', post', by simp [insertAfterBuffer, h]⟩
    | stream c l => exact ⟨Op.stream c l :: pre', post', by simp [insertAfterBuffer, h]⟩
    | other k => exact ⟨Op.other k :: pre', post', by simp [insertAfterBuffer, h]⟩

theorem sameUnlessNode_keeps_pair {pre post l' : List Op} {b0 t : Value}
    (h : List.Forall₂ SameUnlessNode (pre ++ Op.buffer b0 :: Op.stream t Loc.unknown :: post) l') :
    ∃ pre' post', l' = pre' ++ Op.buffer b0 :: Op.stream t Loc.unknown :: post' := by
  induction pre generalizing l' with
  | nil =>
    cases h with
    | cons h₁ h₂ =>
      cases h₂ with
      | cons h₃ h₄ =>
        cases h₁; cases h₃
        exact ⟨[], _, rfl⟩
  | cons o pre ih =>
    cases h with
    | cons h₁ h₂ =>
      obtain ⟨pre', post', rfl⟩ := ih h₂
      exact ⟨_ :: pre', post', rfl⟩

/-- The loop body for a shared buffer makes its new stream the token of the buffer. -/
theorem tokenFor_create {s s' : PassState} (hwf : WellFormed s) {b : Value}
    (hb : b ∈ getBuffers s.ops)
    (hall : List.Forall₂ (BufferStep b ⟨s.next, tokenType⟩ s.next s'.next)
      (insertAfterBuffer s.ops b (Op.stream ⟨s.next, tokenType⟩ Loc.unknown)) s'.ops) :
    TokenFor b ⟨s.next, tokenType⟩ s'.ops := by
  constructor
  · obtain ⟨pre, post, h⟩ := insertAfterBuffer_split hb (Op.stream ⟨s.next, tokenType⟩ Loc.unknown)
    rw [h] at hall
    exact sameUnlessNode_keeps_pair (hall.imp fun _ _ h => h.same)
  · intro n' hn'
    have hnodes := nodesOf_forall₂ hall
    rw [nodesOf_insertAfterBuffer] at hnodes
    obtain ⟨n, hn, hstep⟩ := forall₂_exists_left hnodes hn'
    obtain ⟨hs, hi, hio⟩ := hwf.2.2.2.2 n hn
    have hfresh : (⟨s.next, tokenType⟩ : Value) ∉ n.inputs ++ n.outputs :=
      hi.not_mem (le_refl _)
    have hne : b ≠ ⟨s.next, tokenType⟩ := by
      rintro rfl
      have := hwf.2.2.2.1 _ hb
      simp at this
    obtain ⟨hw, hr⟩ := hstep.counts hs hi ⟨s.next, tokenType⟩
    obtain ⟨hmi, hmo⟩ := hstep.mem_iff hne
    rw [hw, hr, writesTo_eq_zero hfresh, readsOf_eq_zero hfresh]
    have hno := hio b hb
    by_cases hbo : b ∈ n.outputs
    · have hbi : b ∉ n.inputs := fun h => hno ⟨h, hbo⟩
      simp [hmi, hmo, hbo, hbi]
    · by_cases hbi : b ∈ n.inputs <;> simp [hmi, hmo, hbo, hbi]

/-- The loop body for another buffer keeps the token of a buffer what it is. -/
theorem tokenFor_keep {s s' : PassState} (hwf : WellFormed s) {b0 t b : Value}
    (hb0 : b0.id < s.next) (ht : t.id < s.next) (hne : b ≠ b0) (h : TokenFor b0 t s.ops)
    (hall : List.Forall₂ (BufferStep b ⟨s.next, tokenType⟩ s.next s'.next)
      (insertAfterBuffer s.ops b (Op.stream ⟨s.next, tokenType⟩ Loc.unknown)) s'.ops) :
    TokenFor b0 t s'.ops := by
  obtain ⟨⟨pre, post, hops⟩, hcount⟩ := h
  constructor
  · obtain ⟨pre', post', h⟩ := insertAfterBuffer_keeps_pair pre post b0 b t
      (Op.stream ⟨s.next, tokenType⟩ Loc.unknown) hne
    rw [hops, h] at hall
    exact sameUnlessNode_keeps_pair (hall.imp fun _ _ h => h.same)
  · intro n' hn'
    have hnodes := nodesOf_forall₂ hall
    rw [nodesOf_insertAfterBuffer] at hnodes
    obtain ⟨n, hn, hstep⟩ := forall₂_exists_left hnodes hn'
    obtain ⟨hs, hi, _⟩ := hwf.2.2.2.2 n hn
    have hne' : t ≠ ⟨s.next, tokenType⟩ := by
      rintro rfl
      simp at ht
    have hne0 : b0 ≠ ⟨s.next, tokenType⟩ := by
      rintro rfl
      simp at hb0
    obtain ⟨hw, hr⟩ := hstep.counts hs hi t
    obtain ⟨hmi, hmo⟩ := hstep.mem_iff hne0
    obtain ⟨hw0, hr0⟩ := hcount n hn
    rw [hw, hr, hw0, hr0]
    simp [hne', hmi, hmo]

/-- C1: on a well-formed schedule, for a buffer with at least one producer and at
least one consumer, the pass returns a schedule in which a new stream stands
right after the buffer (its token); the token is written as many times as the
buffer has producers and read as many times as it has consumers, counted over all
node bodies; every node with the buffer among its outputs writes the token
exactly once and no other node writes it; every node with the buffer among its
inputs reads it exactly once and no other node reads it. -/
theorem token_counts (st : PassState) (hwf : WellFormed st) (b : Value)
    (hb : b ∈ getBuffers st.ops) (hP : 1 ≤ (getProducers st.ops b).length)
    (hC : 1 ≤ (getConsumers st.ops b).length) :
    ∃ st' t pre post, runOnOperation st = some st' ∧
      st'.ops = pre ++ Op.buffer b :: Op.stream t Loc.unknown :: post ∧
      st.next ≤ t.id ∧
      totalWrites st'.ops t = (getProducers st.ops b).length ∧
      totalReads st'.ops t = (getConsumers st.ops b).length ∧
      (∀ n ∈ nodesOf st'.ops, n.writesTo t = if b ∈ n.outputs then 1 else 0) ∧
      (∀ n ∈ nodesOf st'.ops, n.readsOf t = if b ∈ n.inputs then 1 else 0) := by
  have hshared : Shared st.ops b :=
    ⟨List.length_pos.1 (by omega), List.length_pos.1 (by omega)⟩
  have hbid := hwf.2.2.2.1 b hb
  obtain ⟨st', hrun, hR', hI⟩ := runOnOperation_induct st hwf
    (fun rem s => b ∈ rem ∨
      (b ∉ rem ∧ ∃ t : Value, st.next ≤ t.id ∧ t.id < s.next ∧ TokenFor b t s.ops))
    (Or.inl hb)
    (fun b₁ rest s s' hR hR' hb₁ hnotin hle hfacts hI => by
      by_cases hrest : b ∈ rest
      · exact Or.inl hrest
      · refine Or.inr ⟨hrest, ?_⟩
        rcases hI with hmem | ⟨hnot, t, hlo, hlt, htok⟩
        · -- the buffer is the one being visited
          have he : b = b₁ := by
            simp only [List.mem_cons] at hmem
            exact hmem.resolve_right hrest
          subst he
          have hsh := (shared_iff_of_reached hwf hR hb).2 hshared
          rcases hfacts with ⟨hun, _⟩ | ⟨_, _, _, hlt', hall⟩
          · rcases hun with e | e
            · exact absurd e hsh.1
            · exact absurd e hsh.2
          · exact ⟨⟨s.next, tokenType⟩, hR.2.2.1, hlt',
              tokenFor_create hR.1 (by rw [hR.2.1]; exact hb) hall⟩
        · -- the buffer has been visited before
          have hne : b₁ ≠ b := fun e => hnot (by simp [e])
          rcases hfacts with ⟨_, rfl⟩ | ⟨_, _, _, hlt', hall⟩
          · exact ⟨t, hlo, hlt, htok⟩
          · exact ⟨t, hlo, by omega,
              tokenFor_keep hR.1 (by have := hR.2.2.1; omega) hlt hne htok hall⟩)
  rcases hI with hmem | ⟨_, t, hlo, _, ⟨pre, post, hops⟩, hcount⟩
  · simp at hmem
  · obtain ⟨hp, hc⟩ := hR'.2.2.2.2 b hbid
    refine ⟨st', t, pre, post, hrun, hops, hlo, ?_, ?_, fun n hn => (hcount n hn).1,
      fun n hn => (hcount n hn).2⟩
    · rw [← hp, getProducers_length]
      exact sum_map_eq_countP _ _ _ fun n hn => by simpa using (hcount n hn).1
    · rw [← hc, getConsumers_length]
      exact sum_map_eq_countP _ _ _ fun n hn => by simpa using (hcount n hn).2

/-- Witness of C1 on Scenario D. -/
theorem token_counts_witness :
    WellFormed ScenarioD.schedule ∧ ScenarioD.buf0 ∈ getBuffers ScenarioD.schedule.ops ∧
    1 ≤ (getProducers ScenarioD.schedule.ops ScenarioD.buf0).length ∧
    1 ≤ (getConsumers ScenarioD.schedule.ops ScenarioD.buf0).length ∧
    ∃ st' t pre post, runOnOperation ScenarioD.schedule = some st' ∧
      st'.ops = pre ++ Op.buffer ScenarioD.buf0 :: Op.stream t Loc.unknown :: post ∧
      ScenarioD.schedule.next ≤ t.id ∧
      totalWrites st'.ops t = (getProducers ScenarioD.schedule.ops ScenarioD.buf0).length ∧
      totalReads st'.ops t = (getConsumers ScenarioD.schedule.ops ScenarioD.buf0).length ∧
      (∀ n ∈ nodesOf st'.ops, n.writesTo t = if ScenarioD.buf0 ∈ n.outputs then 1 else 0) ∧
      (∀ n ∈ nodesOf st'.ops, n.readsOf t = if ScenarioD.buf0 ∈ n.inputs then 1 else 0) :=
  ⟨by decide, by decide, by decide, by decide,
    token_counts ScenarioD.schedule (by decide) ScenarioD.buf0 (by decide) (by decide)
      (by decide)⟩

theorem writePairs_append (l₁ l₂ : List (Nat × Nat)) :
    writePairs (l₁ ++ l₂) = writePairs l₁ ++ writePairs l₂ := by
  induction l₁ with
  | nil => rfl
  | cons p l ih =>
    obtain ⟨a, c⟩ := p
    simp [writePairs, ih]

theorem BodyWrapped.step {b t : Value} {lo hi : Nat} {n₀ n n' : Node} (h₀ : BodyWrapped n₀ n)
    (h : NodeStep b t lo hi n n') : BodyWrapped n₀ n' := by
  obtain ⟨rs, ws, e⟩ := h₀
  rcases h with ⟨_, a, c, _, _, rfl⟩ | ⟨_, _, a, _, _, rfl⟩ | ⟨_, _, rfl⟩
  · refine ⟨rs, ws ++ [(a, c)], ?_⟩
    simp [producerNode, e, writePairs_append, writePairs]
  · refine ⟨a :: rs, ws, ?_⟩
    simp [consumerNode, e]
  · exact ⟨rs, ws, e⟩

theorem insertAt_length {α : Type} (l : List α) (x : α) : insertAt l l.length x = l ++ [x] := by
  simp [insertAt]

theorem findIndex_of_not_mem {l : List Value} {v : Value} (h : v ∉ l) :
    findIndex l v = l.length := by
  have h₁ := findIndex_le l v
  have h₂ := (findIndex_lt_iff l v).not.2 h
  omega

theorem rewriteProducer_failed {b t : Value} {loc : Loc} {st st' : PassState} {uid : Nat}
    (h : rewriteProducer b t loc st uid = some st') : st'.failed = st.failed := by
  unfold rewriteProducer at h
  split at h
  · cases h
  · split at h
    · cases h
    · cases h; rfl

theorem rewriteConsumer_failed {b t : Value} {loc : Loc} {st st' : PassState} {uid : Nat}
    (h : rewriteConsumer b t loc st uid = some st') : st'.failed = st.failed := by
  unfold rewriteConsumer at h
  split at h
  · cases h
  · split at h
    · cases h
    · cases h; rfl

theorem rewriteProducers_failed {b t : Value} {loc : Loc} (us : List Nat) {st st' : PassState}
    (h : rewriteProducers b t loc us st = some st') : st'.failed = st.failed := by
  induction us generalizing st with
  | nil => cases h; rfl
  | cons u us ih =>
    simp only [rewriteProducers] at h
    split at h
    · cases h
    · next st1 h1 => rw [ih h, rewriteProducer_failed h1]

theorem rewriteConsumers_failed {b t : Value} {loc : Loc} (us : List Nat) {st st' : PassState}
    (h : rewriteConsumers b t loc us st = some st') : st'.failed = st.failed := by
  induction us generalizing st with
  | nil => cases h; rfl
  | cons u us ih =>
    simp only [rewriteConsumers] at h
    split at h
    · cases h
    · next st1 h1 => rw [ih h, rewriteConsumer_failed h1]

theorem rewriteBuffer_failed {st st' : PassState} {b : Value} {ps cs : List Nat}
    (h : rewriteBuffer st b ps cs = some st') : st'.failed = st.failed := by
  unfold rewriteBuffer at h
  split at h
  · cases h; rfl
  · simp only at h
    split at h
    · cases h
    · next st2 h2 => rw [rewriteConsumers_failed _ h, rewriteProducers_failed _ h2]

/-- C8 (as stated, refuted): in the schedule of Scenario D let the loop body be
given `N3`, which does not have `buf0` among its outputs, as the producer of
`buf0`.  The loop body returns without setting the failure bit and with `N3`
rebuilt as a producer: the token is its new output and the write ends its body. -/
theorem inconsistent_producer_is_rewritten :
    (rewriteBuffer ScenarioD.schedule ScenarioD.buf0 [12] [11]).map
        (fun st' => (st'.failed,
          (nodesOf st'.ops).map fun n => (n.outputs, n.body.ops))) =
      some (false,
        [([ScenarioD.buf0], [.other 1]),
         ([], [.streamRead 25, .other 2]),
         ([ScenarioD.token], [.other 3, .constant 23 true, .streamWrite 22 23])]) ∧
    ScenarioD.buf0 ∉ ScenarioD.N3.outputs := by
  decide

/-- C8 (amended): the loop body never sets the failure bit, whatever nodes it is
given as producers and consumers.  A node given as producer without the buffer
among its outputs is rebuilt with the token appended to its outputs, the new
block argument at the index of the number of inputs plus the number of outputs,
and the constant and the write appended to its body; a node given as consumer
without the buffer among its inputs is rebuilt with the token appended to its
inputs, tap `0` appended to its taps, the new block argument at the index of the
number of inputs, and the read in front of its body. -/
theorem inconsistent_reference_not_rejected (node : Node) (hs : node.ShapeOk)
    (buffer token : Value) (loc : Loc) (a c : Nat) :
    (buffer ∉ node.outputs →
      ∃ n', rebuildProducer node buffer token loc a c = some n' ∧
        n'.outputs = node.outputs ++ [token] ∧
        n'.body.args = insertAt node.body.args (node.outputs.length + node.inputs.length)
          ⟨a, token.ty, loc⟩ ∧
        n'.body.ops = node.body.ops ++ [BodyOp.constant c true, BodyOp.streamWrite a c]) ∧
    (buffer ∉ node.inputs →
      ∃ n', rebuildConsumer node buffer token loc a = some n' ∧
        n'.inputs = node.inputs ++ [token] ∧ n'.inputTaps = node.inputTaps ++ [0] ∧
        n'.body.args = insertAt node.body.args node.inputs.length ⟨a, token.ty, loc⟩ ∧
        n'.body.ops = BodyOp.streamRead a :: node.body.ops) ∧
    (∀ st st' producers consumers,
      rewriteBuffer st buffer producers consumers = some st' → st'.failed = st.failed) := by
  refine ⟨fun hb => ?_, fun hb => ?_, fun st st' ps cs h => rewriteBuffer_failed h⟩
  · refine ⟨producerNode node buffer token loc a c, ?_, ?_, ?_, rfl⟩
    · simp [rebuildProducer_eq, hs.producer_guard buffer]
    · show insertAt node.outputs (findIndex node.outputs buffer) token = _
      rw [findIndex_of_not_mem hb, insertAt_length]
    · show insertAt node.body.args (findIndex node.outputs buffer + _) _ = _
      rw [findIndex_of_not_mem hb]
  · refine ⟨consumerNode node buffer token loc a, ?_, ?_, ?_, ?_, rfl⟩
    · simp [rebuildConsumer_eq, hs.consumer_guard buffer]
    · show insertAt node.inputs (findIndex node.inputs buffer) token = _
      rw [findIndex_of_not_mem hb, insertAt_length]
    · show insertAt node.inputTaps (findIndex node.inputs buffer) 0 = _
      rw [findIndex_of_not_mem hb, ← hs.1, insertAt_length]
    · show insertAt node.body.args (findIndex node.inputs buffer) _ = _
      rw [findIndex_of_not_mem hb]

/-- Witness of C8 (amended) at the node `N3` of Scenario D. -/
theorem inconsistent_reference_not_rejected_witness :
    ScenarioD.N3.ShapeOk ∧ ScenarioD.buf0 ∉ ScenarioD.N3.outputs ∧
    ∃ n', rebuildProducer ScenarioD.N3 ScenarioD.buf0 ScenarioD.token Loc.unknown 22 23 =
        some n' ∧
      n'.outputs = ScenarioD.N3.outputs ++ [ScenarioD.token] := by
  refine ⟨by decide, by decide, ?_⟩
  obtain ⟨n', h₁, h₂, _⟩ :=
    (inconsistent_reference_not_rejected ScenarioD.N3 (by decide) ScenarioD.buf0 ScenarioD.token
      Loc.unknown 22 23).1 (by decide)
  exact ⟨n', h₁, h₂⟩

end CreateTokenStream

/-! # Properties of the HLS C++ emitter -/

namespace EmitHLSCpp

/-! ### Decimal numerals -/

theorem toDigitsCore_succ (f n : Nat) (ds : List Char) :
    Nat.toDigitsCore 10 (f + 1) n ds =
      if n / 10 = 0 then Nat.digitChar (n % 10) :: ds
      else Nat.toDigitsCore 10 f (n / 10) (Nat.digitChar (n % 10) :: ds) := by
  simp [Nat.toDigitsCore]

theorem toDigitsCore_acc (f n : Nat) (ds : List Char) :
    Nat.toDigitsCore 10 f n ds = Nat.toDigitsCore 10 f n [] ++ ds := by
  induction f generalizing n ds with
  | zero => simp [Nat.toDigitsCore]
  | succ f ih =>
    rw [toDigitsCore_succ, toDigitsCore_succ]
    split
    · simp
    · rw [ih (n / 10) (Nat.digitChar (n % 10) :: ds), ih (n / 10) [Nat.digitChar (n % 10)]]
      simp

theorem digitValue_digitChar (k : Nat) (hk : k < 10) : digitValue (Nat.digitChar k) = k := by
  interval_cases k <;> rfl

theorem decodeDigits_append_singleton (l : List Char) (c : Char) :
    decodeDigits (l ++ [c]) = decodeDigits l * 10 + digitValue c := by
  simp [decodeDigits, List.foldl_append]

theorem decodeDigits_toDigitsCore (f n : Nat) (h : n < f) :
    decodeDigits (Nat.toDigitsCore 10 f n []) = n := by
  induction f generalizing n with
  | zero => omega
  | succ f ih =>
    rw [toDigitsCore_succ]
    split
    · next h0 =>
      have hn : n < 10 := by omega
      have hmod : n % 10 = n := Nat.mod_eq_of_lt hn
      simp [decodeDigits, hmod, digitValue_digitChar n hn]
    · next h0 =>
      rw [toDigitsCore_acc, decodeDigits_append_singleton, ih (n / 10) (by omega),
        digitValue_digitChar _ (Nat.mod_lt _ (by omega))]
      omega

theorem toString_nat_injective {a b : Nat} (h : toString a = toString b) : a = b := by
  have h' : Nat.toDigits 10 a = Nat.toDigits 10 b := by
    have := congrArg String.data h
    simpa [toString, Nat.repr, List.asString] using this
  have ha := decodeDigits_toDigitsCore (a + 1) a (by omega)
  have hb := decodeDigits_toDigitsCore (b + 1) b (by omega)
  unfold Nat.toDigits at h'
  rw [h'] at ha
  omega

theorem toDigits_ne_nil (n : Nat) : Nat.toDigits 10 n ≠ [] := by
  unfold Nat.toDigits
  rw [toDigitsCore_succ]
  split
  · simp
  · rw [toDigitsCore_acc]
    simp

theorem toString_nat_ne_empty (n : Nat) : toString n ≠ "" := by
  intro h
  have := congrArg String.data h
  exact toDigits_ne_nil n (by simpa [toString, Nat.repr, List.asString] using this)

theorem toString_int_ne_empty (i : Int) : toString i ≠ "" := by
  cases i with
  | ofNat m => exact toString_nat_ne_empty m
  | negSucc m =>
    intro h
    have := congrArg String.data h
    simp [toString, String.data_append] at this

theorem singleton_append_ne_empty (c : Char) (s : String) : String.singleton c ++ s ≠ "" := by
  intro h
  have := congrArg String.data h
  simp [String.data_append, String.singleton] at this

theorem mkName_ne_empty (p : Bool) (n : Nat) : mkName p n ≠ "" := by
  intro h
  have := congrArg String.data h
  cases p <;> simp [mkName, String.data_append] at this

theorem mkName_injective {p q : Bool} {a b : Nat} (h : mkName p a = mkName q b) : a = b := by
  have h' := congrArg String.data h
  cases p <;> cases q <;> simp [mkName, String.data_append] at h'
  · exact toString_nat_injective (String.ext h')
  · exact toString_nat_injective (String.ext h')

/-! ### The name table -/

theorem find?_eq_none {table : List (Value × String)} {val : Value} :
    find? table val = none ↔ val ∉ table.map Prod.fst := by
  induction table with
  | nil => simp [find?]
  | cons e table ih =>
    obtain ⟨k, name⟩ := e
    by_cases hk : k = val
    · simp [find?, hk]
    · simp [find?, hk, ih, Ne.symm hk]

theorem find?_some_mem {table : List (Value × String)} {val : Value} {name : String}
    (h : find? table val = some name) : (val, name) ∈ table := by
  induction table with
  | nil => simp [find?] at h
  | cons e table ih =>
    obtain ⟨k, old⟩ := e
    by_cases hk : k = val
    · simp [find?, hk] at h
      simp [hk, h]
    · simp [find?, hk] at h
      simp [ih h]

theorem assign_append_self (table : List (Value × String)) (val : Value) (old name : String)
    (h : val ∉ table.map Prod.fst) :
    assign (table ++ [(val, old)]) val name = table ++ [(val, name)] := by
  induction table with
  | nil => simp [assign]
  | cons e table ih =>
    obtain ⟨k, s⟩ := e
    simp only [List.map_cons, List.mem_cons, not_or] at h
    simp [assign, Ne.symm h.1, ih h.2]

theorem TableInv.name_ne_empty {table : List (Value × String)} (h : TableInv table)
    {val : Value} {name : String} (hm : (val, name) ∈ table) : name ≠ "" := by
  obtain ⟨i, hi⟩ := List.mem_iff_getElem?.1 hm
  obtain ⟨p, rfl⟩ := h.2 i val name hi
  exact mkName_ne_empty p _

theorem TableInv.append {table : List (Value × String)} (h : TableInv table) {val : Value}
    (hv : val ∉ table.map Prod.fst) (isPtr : Bool) :
    TableInv (table ++ [(val, mkName isPtr (table.length + 1))]) := by
  refine ⟨?_, ?_⟩
  · rw [List.map_append, List.nodup_append]
    exact ⟨h.1, by simp, by simpa using hv⟩
  · intro i k name hi
    by_cases hlt : i < table.length
    · rw [List.getElem?_append_left hlt] at hi
      exact h.2 i k name hi
    · rw [List.getElem?_append_right (by omega)] at hi
      have hi0 : i - table.length = 0 := by
        by_contra hne
        have : ([(val, mkName isPtr (table.length + 1))] : List (Value × String))[
            i - table.length]? = none := by
          rw [List.getElem?_eq_none]
          simp; omega
        rw [this] at hi
        cases hi
      rw [hi0] at hi
      simp only [List.getElem?_cons_zero, Option.some.injEq, Prod.mk.injEq] at hi
      have : i = table.length := by omega
      exact ⟨isPtr, by rw [← hi.2, this]⟩

theorem TableInv.injective {table : List (Value × String)} (h : TableInv table) :
    NamesInjective table := by
  intro v w name hv hw _
  obtain ⟨i, hi⟩ := List.mem_iff_getElem?.1 hv
  obtain ⟨j, hj⟩ := List.mem_iff_getElem?.1 hw
  obtain ⟨p, hp⟩ := h.2 i v name hi
  obtain ⟨q, hq⟩ := h.2 j w name hj
  have hij : i = j := by
    have := mkName_injective (hp.symm.trans hq)
    omega
  subst hij
  rw [hi] at hj
  exact (Prod.mk.inj (Option.some.inj hj)).1

/-! ### Runs of `getName` and `emitValue` -/

theorem lookupOrInsert_of_mem {table : List (Value × String)} {val : Value}
    (h : val ∈ table.map Prod.fst) :
    ∃ name, lookupOrInsert table val = (name, table) ∧ (val, name) ∈ table := by
  cases hf : find? table val with
  | none => exact absurd h (find?_eq_none.1 hf)
  | some name => exact ⟨name, by simp [lookupOrInsert, hf], find?_some_mem hf⟩

theorem lookupOrInsert_of_not_mem {table : List (Value × String)} {val : Value}
    (h : val ∉ table.map Prod.fst) : lookupOrInsert table val = ("", table ++ [(val, "")]) := by
  simp [lookupOrInsert, find?_eq_none.2 h]

theorem emitValueType_nameTable {val : Value} {st st' : HLSCppEmitterState}
    (h : emitValueType val st = some st') : st'.nameTable = st.nameTable := by
  unfold emitValueType at h
  generalize elementType val.ty = t at h
  cases t with
  | f32 => cases h; rfl
  | f64 => cases h; rfl
  | index => cases h; rfl
  | integer w sg => cases h; rfl
  | memref sh el =>
    simp only at h
    split at h
    · cases h
    · cases h; rfl
  | other k =>
    simp only at h
    split at h
    · cases h
    · cases h; rfl

/-- On a constant or a declared value `getName` leaves the name table as it is. -/
theorem getName_nameTable {declared : List Value} {st st1 : HLSCppEmitterState} {val : Value}
    {name : String} (hI : RunInv declared st)
    (hv : val.isConstant = true ∨ val ∈ declared) (h : getName val st = some (name, st1)) :
    st1.nameTable = st.nameTable := by
  have hkey : val.isConstant = true ∨ val ∈ st.nameTable.map Prod.fst := by
    rcases hv with hc | hd
    · exact Or.inl hc
    · exact hI.2 val hd
  unfold getName at h
  split at h
  · next hdef =>
    rcases hkey with hc | hk
    · simp [Value.isConstant, hdef] at hc
    · obtain ⟨nm, e, _⟩ := lookupOrInsert_of_mem hk
      simp only [e, Option.some.injEq, Prod.mk.injEq] at h
      rw [← h.2]
  · cases h; rfl
  · cases h; rfl
  · cases h
  · next hdef =>
    rcases hkey with hc | hk
    · simp [Value.isConstant, hdef] at hc
    · obtain ⟨nm, e, _⟩ := lookupOrInsert_of_mem hk
      simp only [e, Option.some.injEq, Prod.mk.injEq] at h
      rw [← h.2]

/-- What `getName` returns: for a constant its non-empty literal and the state;
for another value the result of reading the table. -/
theorem getName_cases {st st1 : HLSCppEmitterState} {val : Value} {name : String}
    (h : getName val st = some (name, st1)) :
    (val.isConstant = true ∧ name ≠ "" ∧ st1 = st) ∨
    (val.isConstant = false ∧ name = (lookupOrInsert st.nameTable val).1 ∧
      st1 = { st with nameTable := (lookupOrInsert st.nameTable val).2 }) := by
  unfold getName at h
  split at h
  · next hdef =>
    simp only [Option.some.injEq, Prod.mk.injEq] at h
    exact Or.inr ⟨by simp [Value.isConstant, hdef], h.1.symm, h.2.symm⟩
  · next hdef =>
    simp only [Option.some.injEq, Prod.mk.injEq] at h
    exact Or.inl ⟨by simp [Value.isConstant, hdef], by
      rw [← h.1]; exact singleton_append_ne_empty _ _, h.2.symm⟩
  · next hdef =>
    simp only [Option.some.injEq, Prod.mk.injEq] at h
    exact Or.inl ⟨by simp [Value.isConstant, hdef], by
      rw [← h.1]; exact toString_int_ne_empty _, h.2.symm⟩
  · cases h
  · next hdef =>
    simp only [Option.some.injEq, Prod.mk.injEq] at h
    exact Or.inr ⟨by simp [Value.isConstant, hdef], h.1.symm, h.2.symm⟩

/-- A call of `emitValue` keeps the invariant and declares its value. -/
theorem emitValue_runInv {declared : List Value} {st st' : HLSCppEmitterState} {val : Value}
    {isPtr : Bool} (hI : RunInv declared st) (h : emitValue val isPtr st = some st') :
    RunInv (val :: declared) st' := by
  unfold emitValue at h
  split at h
  · cases h
  · next valName st1 hget =>
    rcases getName_cases hget with ⟨hc, hne, rfl⟩ | ⟨hc, hname, rfl⟩
    · -- a constant: only its literal is written
      simp only [hne, ne_eq, not_false_eq_true, if_true, Option.some.injEq] at h
      subst h
      refine ⟨hI.1, fun v hv => ?_⟩
      simp only [List.mem_cons] at hv
      rcases hv with rfl | hv
      · exact Or.inl hc
      · exact hI.2 v hv
    · by_cases hk : val ∈ st.nameTable.map Prod.fst
      · -- the value has an entry, whose name is not empty
        obtain ⟨nm, e, hm⟩ := lookupOrInsert_of_mem hk
        rw [e] at hname
        simp only at hname
        subst hname
        have hne := hI.1.name_ne_empty hm
        simp only [e, hne, ne_eq, not_false_eq_true, if_true, Option.some.injEq] at h
        subst h
        refine ⟨hI.1, fun v hv => ?_⟩
        simp only [List.mem_cons] at hv
        rcases hv with rfl | hv
        · exact Or.inr hk
        · exact hI.2 v hv
      · -- the value is new: it is entered under the next number
        have e := lookupOrInsert_of_not_mem hk
        rw [e] at hname
        simp only at hname
        subst hname
        simp only [e, ne_eq, not_true_eq_false, if_false] at h
        split at h
        · cases h
        · next st2 htype =>
          have htab := emitValueType_nameTable htype
          simp only at htab
          simp only [addName, Option.some.injEq] at h
          subst h
          have hnew : assign st2.nameTable val
              ((if isPtr then "*" else "") ++ ("val" ++ toString st2.nameTable.length)) =
              st.nameTable ++ [(val, mkName isPtr (st.nameTable.length + 1))] := by
            rw [htab, assign_append_self _ _ _ _ hk]
            simp [mkName]
          refine ⟨?_, fun v hv => ?_⟩
          · show TableInv (assign _ _ _)
            rw [hnew]
            exact hI.1.append hk isPtr
          · show _ ∨ v ∈ (assign _ _ _).map Prod.fst
            rw [hnew]
            simp only [List.mem_cons] at hv
            rcases hv with rfl | hv
            · exact Or.inr (by simp)
            · rcases hI.2 v hv with hc' | hk'
              · exact Or.inl hc'
              · exact Or.inr (by simp only [List.map_append, List.mem_append]; exact Or.inl hk')

theorem runCalls_tableInv (calls : List Call) :
    ∀ (declared : List Value) (st st' : HLSCppEmitterState), RunInv declared st →
      declaredBeforeUse declared calls = true → runCalls calls st = some st' →
      TableInv st'.nameTable := by
  induction calls with
  | nil =>
    intro declared st st' hI _ h
    cases h
    exact hI.1
  | cons c calls ih =>
    intro declared st st' hI hd h
    simp only [runCalls] at h
    split at h
    · cases h
    · next st1 hc =>
      cases c with
      | getName val =>
        simp only [declaredBeforeUse, Bool.and_eq_true, Bool.or_eq_true, decide_eq_true_eq] at hd
        simp only [runCall, Option.map_eq_some'] at hc
        obtain ⟨⟨name, st1'⟩, hget, rfl⟩ := hc
        have htab := getName_nameTable hI hd.1 hget
        exact ih declared _ st' ⟨by simp only [htab]; exact hI.1, by
          simp only [htab]; exact hI.2⟩ hd.2 h
      | emitValue val isPtr =>
        simp only [declaredBeforeUse] at hd
        exact ih (val :: declared) st1 st' (emitValue_runInv hI hc) hd h

theorem getName_isSome (st : HLSCppEmitterState) (val : Value)
    (hc : val.emittable = true) : ∃ r, getName val st = some r := by
  unfold getName
  unfold Value.emittable at hc
  split
  · exact ⟨_, rfl⟩
  · exact ⟨_, rfl⟩
  · exact ⟨_, rfl⟩
  · next hdef => simp [hdef] at hc
  · exact ⟨_, rfl⟩

theorem emitValueType_isSome (st : HLSCppEmitterState) (val : Value)
    (hc : val.emittable = true) : ∃ st', emitValueType val st = some st' := by
  unfold emitValueType
  unfold Value.emittable at hc
  generalize elementType val.ty = t at hc ⊢
  cases hdef : val.defn with
  | blockArgument =>
    rw [hdef] at hc
    cases t <;> first | exact ⟨_, rfl⟩ | simp at hc
  | constant a => cases t <;> exact ⟨_, rfl⟩
  | operation k => cases t <;> exact ⟨_, rfl⟩

theorem runCall_isSome (st : HLSCppEmitterState) (c : Call) (hc : c.value.emittable = true) :
    ∃ st', runCall st c = some st' := by
  cases c with
  | getName val =>
    obtain ⟨r, hr⟩ := getName_isSome st val hc
    exact ⟨r.2, by simp [runCall, hr]⟩
  | emitValue val isPtr =>
    obtain ⟨⟨name, st1⟩, hget⟩ := getName_isSome st val hc
    obtain ⟨st2, htype⟩ := emitValueType_isSome st1 val hc
    unfold runCall emitValue
    simp only [hget, htype]
    by_cases hn : name = ""
    · simp [hn]
    · simp [hn]

theorem runCalls_isSome (calls : List Call) :
    ∀ st, (∀ c ∈ calls, c.value.emittable = true) → ∃ st', runCalls calls st = some st' := by
  induction calls with
  | nil => intro st _; exact ⟨st, rfl⟩
  | cons c calls ih =>
    intro st h
    obtain ⟨st1, h1⟩ := runCall_isSome st c (h c (by simp))
    obtain ⟨st', h'⟩ := ih st1 fun x hx => h x (by simp [hx])
    exact ⟨st', by simp only [runCalls, h1]; exact h'⟩

/-! ### `getName` and `emitValue`, case by case -/

theorem find?_append_of_some {table : List (Value × String)} {val : Value} {name : String}
    (h : find? table val = some name) (more : List (Value × String)) :
    find? (table ++ more) val = some name := by
  induction table with
  | nil => simp [find?] at h
  | cons e table ih =>
    obtain ⟨k, old⟩ := e
    by_cases hk : k = val
    · simpa [find?, hk] using h
    · simp only [find?, hk, if_false, List.cons_append] at h ⊢
      exact ih h

theorem find?_append_of_none {table : List (Value × String)} {val : Value}
    (h : find? table val = none) (more : List (Value × String)) :
    find? (table ++ more) val = find? more val := by
  induction table with
  | nil => rfl
  | cons e table ih =>
    obtain ⟨k, old⟩ := e
    by_cases hk : k = val
    · simp [find?, hk] at h
    · simp only [find?, hk, if_false, List.cons_append] at h ⊢
      exact ih h

theorem find?_assign_self (table : List (Value × String)) (val : Value) (name : String) :
    find? (assign table val name) val = some name := by
  induction table with
  | nil => simp [assign, find?]
  | cons e table ih =>
    obtain ⟨k, old⟩ := e
    by_cases hk : k = val
    · simp [assign, find?, hk]
    · simp [assign, find?, hk, ih]

theorem find?_assign_of_ne (table : List (Value × String)) {val w : Value} (name : String)
    (h : w ≠ val) : find? (assign table w name) val = find? table val := by
  induction table with
  | nil => simp [assign, find?, h]
  | cons e table ih =>
    obtain ⟨k, old⟩ := e
    by_cases hk : k = w
    · subst hk
      simp [assign, find?, h]
    · by_cases hv : k = val
      · subst hv
        simp [assign, find?, hk]
      · simp [assign, find?, hk, hv, ih]

theorem length_assign_of_some {table : List (Value × String)} {val : Value} {old : String}
    (h : find? table val = some old) (name : String) :
    (assign table val name).length = table.length := by
  induction table with
  | nil => simp [find?] at h
  | cons e table ih =>
    obtain ⟨k, s⟩ := e
    by_cases hk : k = val
    · simp [assign, hk]
    · simp only [find?, hk, if_false] at h
      simp [assign, hk, ih h]

/-- `getName` on a value that is not a constant reads the table. -/
theorem getName_of_not_constant {val : Value} (hc : val.isConstant = false)
    (st : HLSCppEmitterState) :
    getName val st =
      some ((lookupOrInsert st.nameTable val).1,
        { st with nameTable := (lookupOrInsert st.nameTable val).2 }) := by
  unfold getName
  split
  · rfl
  · next hdef => simp [Value.isConstant, hdef] at hc
  · next hdef => simp [Value.isConstant, hdef] at hc
  · next hdef => simp [Value.isConstant, hdef] at hc
  · rfl

/-- `getName` on a constant does not look at the state. -/
theorem getName_of_constant {val : Value} (hc : val.isConstant = true)
    {st st1 : HLSCppEmitterState} {name : String} (h : getName val st = some (name, st1))
    (st' : HLSCppEmitterState) : getName val st' = some (name, st') ∧ st1 = st ∧ name ≠ "" := by
  rcases getName_cases h with ⟨_, hne, rfl⟩ | ⟨hc', _⟩
  · refine ⟨?_, rfl, hne⟩
    unfold getName at h ⊢
    split at h
    · next hdef => simp [Value.isConstant, hdef] at hc
    · next hdef =>
      simp only [Option.some.injEq, Prod.mk.injEq] at h
      simp [h.1]
    · next hdef =>
      simp only [Option.some.injEq, Prod.mk.injEq] at h
      simp [h.1]
    · cases h
    · next hdef => simp [Value.isConstant, hdef] at hc
  · rw [hc] at hc'
    cases hc'

theorem getName_of_found {val : Value} (hc : val.isConstant = false) {st : HLSCppEmitterState}
    {name : String} (h : find? st.nameTable val = some name) :
    getName val st = some (name, st) := by
  rw [getName_of_not_constant hc]
  simp [lookupOrInsert, h]

theorem hasName_of_found {val : Value} (hc : val.isConstant = false) {st : HLSCppEmitterState}
    {name : String} (h : find? st.nameTable val = some name) (hne : name ≠ "") :
    HasName st val name :=
  ⟨getName_of_found hc h, hne⟩

/-- A value that has a name is a constant with that literal, or has it in the
table. -/
theorem HasName.cases {st : HLSCppEmitterState} {val : Value} {name : String}
    (h : HasName st val name) :
    val.isConstant = true ∨ (val.isConstant = false ∧ find? st.nameTable val = some name) := by
  by_cases hc : val.isConstant = true
  · exact Or.inl hc
  · simp only [Bool.not_eq_true] at hc
    refine Or.inr ⟨hc, ?_⟩
    have h1 := h.1
    rw [getName_of_not_constant hc] at h1
    simp only [Option.some.injEq, Prod.mk.injEq] at h1
    cases hf : find? st.nameTable val with
    | some n =>
      simp only [lookupOrInsert, hf] at h1
      rw [h1.1]
    | none =>
      simp only [lookupOrInsert, hf] at h1
      exact absurd h1.1.symm h.2

/-- `emitValue` on a value that has a name writes the name. -/
theorem emitValue_of_hasName {st : HLSCppEmitterState} {val : Value} {name : String}
    (h : HasName st val name) (isPtr : Bool) : emitValue val isPtr st = some (write st name) := by
  unfold emitValue
  simp [h.1, h.2, write]

theorem emitValueType_of_typeText {val : Value} {text : String}
    (h : typeText (elementType val.ty) = some text) (st : HLSCppEmitterState) :
    emitValueType val st = some (write st text) := by
  unfold emitValueType
  generalize elementType val.ty = t at h
  cases t with
  | f32 => cases h; rfl
  | f64 => cases h; rfl
  | index => cases h; rfl
  | integer w sg =>
    simp only [typeText, Option.some.injEq] at h
    subst h
    simp [write, String.append_assoc]
  | memref sh el => cases h
  | other k => cases h

/-- `emitValueType` changes neither the name table nor the indentation, and does
not reset the failure flag. -/
theorem emitValueType_fields {val : Value} {st st' : HLSCppEmitterState}
    (h : emitValueType val st = some st') :
    st'.nameTable = st.nameTable ∧ st'.currentIndent = st.currentIndent ∧
      (st.encounteredError = true → st'.encounteredError = true) := by
  unfold emitValueType at h
  generalize elementType val.ty = t at h
  cases t with
  | f32 => cases h; exact ⟨rfl, rfl, id⟩
  | f64 => cases h; exact ⟨rfl, rfl, id⟩
  | index => cases h; exact ⟨rfl, rfl, id⟩
  | integer w sg => cases h; exact ⟨rfl, rfl, id⟩
  | memref sh el =>
    simp only at h
    split at h
    · cases h
    · cases h; exact ⟨rfl, rfl, fun _ => rfl⟩
  | other k =>
    simp only at h
    split at h
    · cases h
    · cases h; exact ⟨rfl, rfl, fun _ => rfl⟩

/-- `emitValue` on a fresh value of a type it lowers declares the value. -/
theorem emitValue_of_fresh {st : HLSCppEmitterState} {val : Value} (h : Fresh st val)
    {text : String} (ht : typeText (elementType val.ty) = some text) (isPtr : Bool) :
    emitValue val isPtr st = some (declared st val isPtr text) := by
  obtain ⟨hc, hf⟩ := h
  have hk := find?_eq_none.1 hf
  unfold emitValue
  rw [getName_of_not_constant hc, lookupOrInsert_of_not_mem hk]
  simp only [ne_eq, not_true_eq_false, if_false, emitValueType_of_typeText ht, addName, write,
    declared, List.length_append, List.length_singleton]
  rw [assign_append_self _ _ _ _ hk]
  simp [mkName, String.append_assoc]

theorem HasName.of_nameTable_eq {st st' : HLSCppEmitterState} {val : Value} {name : String}
    (h : HasName st val name) (ht : st'.nameTable = st.nameTable) : HasName st' val name := by
  rcases h.cases with hc | ⟨hc, hf⟩
  · exact ⟨(getName_of_constant hc h.1 st').1, h.2⟩
  · exact hasName_of_found hc (by rw [ht]; exact hf) h.2

/-- What `getName` does to the name table: nothing, or a new entry with the empty
name at its end. -/
theorem getName_nameTable_cases {val : Value} {st st1 : HLSCppEmitterState} {name : String}
    (h : getName val st = some (name, st1)) :
    st1.nameTable = st.nameTable ∨
      (find? st.nameTable val = none ∧ st1.nameTable = st.nameTable ++ [(val, "")]) := by
  rcases getName_cases h with ⟨_, _, rfl⟩ | ⟨_, _, rfl⟩
  · exact Or.inl rfl
  · cases hf : find? st.nameTable val with
    | some n => exact Or.inl (by simp [lookupOrInsert, hf])
    | none => exact Or.inr ⟨rfl, by simp [lookupOrInsert, hf]⟩

theorem getName_fields {val : Value} {st st1 : HLSCppEmitterState} {name : String}
    (h : getName val st = some (name, st1)) :
    st1.os = st.os ∧ st1.encounteredError = st.encounteredError ∧
      st1.currentIndent = st.currentIndent := by
  rcases getName_cases h with ⟨_, _, rfl⟩ | ⟨_, _, rfl⟩
  · exact ⟨rfl, rfl, rfl⟩
  · exact ⟨rfl, rfl, rfl⟩

theorem HasName.after_getName {st st1 : HLSCppEmitterState} {val w : Value} {name n : String}
    (h : HasName st val name) (hg : getName w st = some (n, st1)) : HasName st1 val name := by
  rcases h.cases with hc | ⟨hc, hf⟩
  · exact ⟨(getName_of_constant hc h.1 st1).1, h.2⟩
  · refine hasName_of_found hc ?_ h.2
    rcases getName_nameTable_cases hg with e | ⟨_, e⟩
    · rw [e]; exact hf
    · rw [e]; exact find?_append_of_some hf _

/-- `emitValue`, unfolded: the name found is written, or the type prefix and a new
name are written and the name is assigned. -/
theorem emitValue_cases {val : Value} {isPtr : Bool} {st st' : HLSCppEmitterState}
    (h : emitValue val isPtr st = some st') :
    (∃ name st1, getName val st = some (name, st1) ∧ name ≠ "" ∧ st' = write st1 name) ∨
    (∃ st1 st2, getName val st = some ("", st1) ∧ val.isConstant = false ∧
      emitValueType val st1 = some st2 ∧
      st' = write (addName val isPtr st2).2 (addName val isPtr st2).1) := by
  unfold emitValue at h
  split at h
  · cases h
  · next valName st1 hget =>
    by_cases hn : valName = ""
    · subst hn
      simp only [ne_eq, not_true_eq_false, if_false] at h
      split at h
      · cases h
      · next st2 htype =>
        simp only [Option.some.injEq] at h
        subst h
        refine Or.inr ⟨st1, st2, hget, ?_, htype, rfl⟩
        rcases getName_cases hget with ⟨_, hne, _⟩ | ⟨hc, _⟩
        · exact absurd rfl hne
        · exact hc
    · simp only [ne_eq, hn, not_false_eq_true, if_true, Option.some.injEq] at h
      exact Or.inl ⟨valName, st1, hget, hn, h.symm⟩

theorem HasName.after_emitValue {st st' : HLSCppEmitterState} {val w : Value} {name : String}
    {isPtr : Bool} (h : HasName st val name) (he : emitValue w isPtr st = some st') :
    HasName st' val name := by
  rcases emitValue_cases he with ⟨n, st1, hg, _, rfl⟩ | ⟨st1, st2, hg, hwc, htype, rfl⟩
  · exact (h.after_getName hg).of_nameTable_eq rfl
  · have h1 := h.after_getName hg
    rcases h1.cases with hc | ⟨hc, hf⟩
    · exact ⟨(getName_of_constant hc h.1 _).1, h.2⟩
    · have hne : w ≠ val := by
        rintro rfl
        have := getName_of_found hc hf
        -- the name found for `w` in `st1` is not empty
        have hg1 := h1.1
        rcases h.cases with hc' | ⟨_, hf0⟩
        · rw [hc] at hc'; cases hc'
        · have := getName_of_found hc hf0
          rw [this] at hg
          simp only [Option.some.injEq, Prod.mk.injEq] at hg
          exact h.2 hg.1
      refine hasName_of_found hc ?_ h.2
      show find? (assign st2.nameTable w _) val = some name
      rw [find?_assign_of_ne _ _ hne, (emitValueType_fields htype).1]
      exact hf

theorem HasName.after_runCalls {val : Value} {name : String} (calls : List Call) :
    ∀ {st st' : HLSCppEmitterState}, HasName st val name → runCalls calls st = some st' →
      HasName st' val name := by
  induction calls with
  | nil => intro st st' h hr; cases hr; exact h
  | cons c calls ih =>
    intro st st' h hr
    simp only [runCalls] at hr
    split at hr
    · cases hr
    · next st1 hc =>
      refine ih ?_ hr
      cases c with
      | getName w =>
        simp only [runCall, Option.map_eq_some'] at hc
        obtain ⟨⟨n, st1'⟩, hget, rfl⟩ := hc
        exact h.after_getName hget
      | emitValue w q => exact h.after_emitValue hc

/-- After `emitValue` a value that is not a constant has a name. -/
theorem emitValue_hasName {val : Value} {isPtr : Bool} {st st' : HLSCppEmitterState}
    (hc : val.isConstant = false) (h : emitValue val isPtr st = some st') :
    ∃ name, HasName st' val name := by
  rcases emitValue_cases h with ⟨n, st1, hg, hn, rfl⟩ | ⟨st1, st2, hg, _, htype, rfl⟩
  · refine ⟨n, hasName_of_found hc ?_ hn⟩
    show find? st1.nameTable val = some n
    rw [getName_of_not_constant hc] at hg
    simp only [Option.some.injEq, Prod.mk.injEq] at hg
    cases hf : find? st.nameTable val with
    | some m =>
      simp only [lookupOrInsert, hf] at hg
      rw [← hg.2, ← hg.1]
      exact hf
    | none =>
      simp only [lookupOrInsert, hf] at hg
      exact absurd hg.1.symm hn
  · exact ⟨_, hasName_of_found hc (find?_assign_self _ _ _) (mkName_ne_empty _ _)⟩

/-- `emitValue` on a fresh value enters it in the name table under the number
after the size of the table. -/
theorem emitValue_fresh_nameTable {val : Value} {isPtr : Bool} {st st' : HLSCppEmitterState}
    (hf : Fresh st val) (h : emitValue val isPtr st = some st') :
    st'.nameTable = st.nameTable ++ [(val, mkName isPtr (st.nameTable.length + 1))] := by
  have hk := find?_eq_none.1 hf.2
  have hget : getName val st = some ("", { st with nameTable := st.nameTable ++ [(val, "")] }) := by
    rw [getName_of_not_constant hf.1, lookupOrInsert_of_not_mem hk]
  rcases emitValue_cases h with ⟨n, st1, hg, hn, _⟩ | ⟨st1, st2, hg, _, htype, rfl⟩
  · rw [hget] at hg
    simp only [Option.some.injEq, Prod.mk.injEq] at hg
    exact absurd hg.1.symm hn
  · rw [hget] at hg
    simp only [Option.some.injEq, Prod.mk.injEq, true_and] at hg
    subst hg
    have ht := (emitValueType_fields htype).1
    simp only at ht
    show assign st2.nameTable val _ = _
    rw [ht, assign_append_self _ _ _ _ hk]
    simp [mkName]

/-- C11 (as stated, refuted): after `emitValue v`, `getName u`, `emitValue w` from
the fresh state, for three distinct block arguments of type `index`, the two
values declared one after the other are named `val1` and `val3`: the lookup of
the undeclared `u` in between took the number 2. -/
theorem numbering_gap :
    (runCalls
        [Call.emitValue ⟨1, Ty.index, ValueDef.blockArgument⟩ false,
          Call.getName ⟨2, Ty.index, ValueDef.blockArgument⟩,
          Call.emitValue ⟨3, Ty.index, ValueDef.blockArgument⟩ false]
        HLSCppEmitterState.init).map (fun st => st.nameTable) =
      some [(⟨1, Ty.index, ValueDef.blockArgument⟩, "val1"),
        (⟨2, Ty.index, ValueDef.blockArgument⟩, ""),
        (⟨3, Ty.index, ValueDef.blockArgument⟩, "val3")] := by
  decide

/-- C11 (amended): for every sequence of `getName` and `emitValue` calls from the
fresh state in which `getName` is called on a value only when it is a constant
or an earlier `emitValue` call was on it, in the state the sequence ends in the
entry at position `i` of the name table, the `i + 1`-st value declared, has the
identifier `val<i+1>`, after `*` or not; and a further `emitValue` on a fresh
value enters it at the end of the table under `val<k>`, after `*` exactly when
it is a pointer, with `k` one more than the number of entries, that is one more
than the number of the value declared last.  The sequence ends in a state when
none of its values is a constant of an unsupported type or a block argument of a
type that cannot be lowered. -/
theorem sequential_identifiers (calls : List Call) (hd : declaredBeforeUse [] calls = true) :
    (∀ st', runCalls calls HLSCppEmitterState.init = some st' →
      (∀ i k name, st'.nameTable[i]? = some (k, name) → ∃ isPtr, name = mkName isPtr (i + 1)) ∧
      (∀ val isPtr st'', Fresh st' val → emitValue val isPtr st' = some st'' →
        st''.nameTable =
          st'.nameTable ++ [(val, mkName isPtr (st'.nameTable.length + 1))])) ∧
    ((∀ c ∈ calls, c.value.emittable = true) →
      ∃ st', runCalls calls HLSCppEmitterState.init = some st') := by
  have hinit : RunInv [] HLSCppEmitterState.init :=
    ⟨⟨by simp [HLSCppEmitterState.init], by simp [HLSCppEmitterState.init]⟩, by simp⟩
  refine ⟨fun st' h => ⟨(runCalls_tableInv calls [] _ st' hinit hd h).2,
    fun val isPtr st'' hf he => emitValue_fresh_nameTable hf he⟩,
    fun hem => runCalls_isSome calls HLSCppEmitterState.init hem⟩

/-- Witness of C11 (amended): two declarations, the second of a pointer. -/
theorem sequential_identifiers_witness :
    declaredBeforeUse []
        [Call.emitValue ⟨1, Ty.index, ValueDef.blockArgument⟩ false,
          Call.emitValue ⟨2, Ty.f32, ValueDef.operation 0⟩ true] = true ∧
    ∃ st',
      runCalls
          [Call.emitValue ⟨1, Ty.index, ValueDef.blockArgument⟩ false,
            Call.emitValue ⟨2, Ty.f32, ValueDef.operation 0⟩ true]
          HLSCppEmitterState.init = some st' ∧
        st'.nameTable = [(⟨1, Ty.index, ValueDef.blockArgument⟩, "val1"),
          (⟨2, Ty.f32, ValueDef.operation 0⟩, "*val2")] ∧
        ∀ i k name, st'.nameTable[i]? = some (k, name) → ∃ isPtr, name = mkName isPtr (i + 1) :=
  ⟨by decide, _, rfl, by decide,
    ((sequential_identifiers
      [Call.emitValue ⟨1, Ty.index, ValueDef.blockArgument⟩ false,
        Call.emitValue ⟨2, Ty.f32, ValueDef.operation 0⟩ true] (by decide)).1 _ rfl).1⟩

/-- C12: once `emitValue` has returned on a value that is not a constant, the
value has a non-empty identifier in the name table; after any further sequence of
`getName` and `emitValue` calls it still has that identifier, and a further
`emitValue` on it writes that identifier and nothing else and leaves the name
table, the failure flag and the indentation as they are. -/
theorem no_double_declaration (st st1 : HLSCppEmitterState) (v : Value) (isPtr : Bool)
    (hc : v.isConstant = false) (h : emitValue v isPtr st = some st1) :
    ∃ name, name ≠ "" ∧ find? st1.nameTable v = some name ∧
      ∀ calls st2, runCalls calls st1 = some st2 →
        find? st2.nameTable v = some name ∧
        ∀ q, emitValue v q st2 =
          some { os := st2.os ++ name, encounteredError := st2.encounteredError,
                 diagnostics := st2.diagnostics, currentIndent := st2.currentIndent,
                 nameTable := st2.nameTable } := by
  obtain ⟨name, hn⟩ := emitValue_hasName hc h
  have hfound : ∀ s, HasName s v name → find? s.nameTable v = some name := fun s hs => by
    rcases hs.cases with hc' | ⟨_, hf⟩
    · rw [hc] at hc'; cases hc'
    · exact hf
  refine ⟨name, hn.2, hfound _ hn, fun calls st2 hr => ?_⟩
  have h2 := hn.after_runCalls calls hr
  exact ⟨hfound _ h2, fun q => emitValue_of_hasName h2 q⟩

/-- Witness of C12: a block argument of type `index` declared in the fresh state. -/
theorem no_double_declaration_witness :
    (⟨1, Ty.index, ValueDef.blockArgument⟩ : Value).isConstant = false ∧
    ∃ st1, emitValue ⟨1, Ty.index, ValueDef.blockArgument⟩ false HLSCppEmitterState.init =
        some st1 ∧
      ∃ name, name ≠ "" ∧ find? st1.nameTable ⟨1, Ty.index, ValueDef.blockArgument⟩ = some name ∧
        ∀ calls st2, runCalls calls st1 = some st2 →
          find? st2.nameTable ⟨1, Ty.index, ValueDef.blockArgument⟩ = some name ∧
          ∀ q, emitValue ⟨1, Ty.index, ValueDef.blockArgument⟩ q st2 =
            some { os := st2.os ++ name, encounteredError := st2.encounteredError,
                   diagnostics := st2.diagnostics, currentIndent := st2.currentIndent,
                   nameTable := st2.nameTable } :=
  ⟨by decide, _, rfl,
    no_double_declaration HLSCppEmitterState.init _ ⟨1, Ty.index, ValueDef.blockArgument⟩ false
      (by decide) rfl⟩

/-! ## The claims about statements and operations -/

/-- C14 (the code at the failing input): for the load `z = A[i][j]` with all
operands named, `emitLoad` ends the statement after the first index and puts the
second index on a line of its own, where the claim has `val1[val2][val3];`; with
one index the statement is as claimed, with no index it is not ended at all. -/
theorem load_two_indices :
    outputOf (emitLoad Example.z Example.A [Example.i, Example.j] Example.named) =
      some "  float val6 = val1[val2];\n[val3];\n" ∧
    "  float val6 = val1[val2];\n[val3];\n" ≠ "  float val6 = val1[val2][val3];\n" ∧
    outputOf (emitLoad Example.z Example.A [Example.i] Example.named) =
      some "  float val6 = val1[val2];\n" ∧
    outputOf (emitLoad Example.z Example.A [] Example.named) = some "  float val6 = val1" := by
  decide

/-- C15 (the code at the failing input): for the allocation of a 4x4 array of
`f32`, `emitAlloc` ends the declaration after the first extent and puts the
second extent on a line of its own, where the claim has `[4][4];`; for a shape of
one dimension the statement is as claimed, for the empty shape it is not ended. -/
theorem alloc_two_dimensions :
    outputOf (emitAlloc Example.R Example.named) = some "  float val6[4];\n[4];\n" ∧
    "  float val6[4];\n[4];\n" ≠ "  float val6[4][4];\n" ∧
    outputOf (emitAlloc ⟨7, Ty.memref [8] Ty.f32, ValueDef.operation 3⟩ Example.named) =
      some "  float val6[8];\n" ∧
    outputOf (emitAlloc ⟨7, Ty.memref [] Ty.f32, ValueDef.operation 3⟩ Example.named) =
      some "  float val6" := by
  decide

/-- C18 (as stated, refuted): a block of an operation outside the vocabulary
followed by an addition: emission is aborted at the first operation, in the
state it started in, so the failure flag is not set and the addition is not
emitted. -/
theorem unsupported_operation_aborts_block :
    emitBlock [Operation.unsupported 0, Operation.binary BinaryKind.addF Example.z Example.x
        Example.y] Example.named =
      Except.error (Stop.aborted Example.named) ∧
    Example.named.encounteredError = false ∧ Example.named.os = "" :=
  ⟨rfl, rfl, rfl⟩

/-- C18 (amended): for every operation outside the vocabulary `emitOperation` does
not return: the expression visitor reaches `visitInvalidOp`, which reports the
operation and aborts the process, in the state `emitOperation` was called in (the
failure flag is not touched); hence the emission of a block aborts at such an
operation, whatever follows it, after the operations in front of it have been
emitted. -/
theorem unsupported_operation_aborts (k : Nat) (st : HLSCppEmitterState)
    (front rest : List Operation) :
    emitOperation (Operation.unsupported k) st = Except.error (Stop.aborted st) ∧
    emitBlock (Operation.unsupported k :: rest) st = Except.error (Stop.aborted st) ∧
    (∀ st1, emitBlock front st = Except.ok st1 →
      emitBlock (front ++ Operation.unsupported k :: rest) st =
        Except.error (Stop.aborted st1)) := by
  refine ⟨rfl, rfl, ?_⟩
  induction front generalizing st with
  | nil =>
    intro st1 h
    cases h
    rfl
  | cons op front ih =>
    intro st1 h
    simp only [emitBlock, List.cons_append] at h ⊢
    cases hop : emitOperation op st with
    | error e => rw [hop] at h; cases h
    | ok st0 =>
      rw [hop] at h
      exact ih st0 st1 h

/-- C20 (the code at the failing input): on a block argument of a type it cannot
lower, `emitValue` does not return (it asks the block argument for its defining
operation and reports the error on the null pointer), and neither does
`emitFunction` on a function with such an argument.  On a fresh operation result
of such a type it sets the failure flag, writes no type and declares the value;
for the types it lowers it writes `float `, `double `, `int `, `ap_int<W> ` or
`ap_uint<W> ` in front of the identifier. -/
theorem unsupported_type_of_block_argument :
    emitValue ⟨1, Ty.other 0, ValueDef.blockArgument⟩ false HLSCppEmitterState.init = none ∧
    outputOf (emitFunction
      { name := "f", numResults := 0,
        blocks := [{ args := [⟨1, Ty.other 0, ValueDef.blockArgument⟩],
                     ops := [Operation.return []] }] }
      HLSCppEmitterState.init) = none ∧
    emitValue ⟨1, Ty.other 0, ValueDef.operation 0⟩ false HLSCppEmitterState.init =
      some { os := "val1", encounteredError := true, diagnostics := 1, currentIndent := 0,
             nameTable := [(⟨1, Ty.other 0, ValueDef.operation 0⟩, "val1")] } ∧
    (emitValue ⟨1, Ty.f32, ValueDef.blockArgument⟩ false HLSCppEmitterState.init).map
      (fun st => (st.os, st.encounteredError)) = some ("float val1", false) ∧
    (emitValue ⟨1, Ty.f64, ValueDef.operation 0⟩ false HLSCppEmitterState.init).map
      (fun st => (st.os, st.encounteredError)) = some ("double val1", false) ∧
    (emitValue ⟨1, Ty.index, ValueDef.blockArgument⟩ false HLSCppEmitterState.init).map
      (fun st => (st.os, st.encounteredError)) = some ("int val1", false) ∧
    (emitValue ⟨1, Ty.integer 32 Signedness.signless, ValueDef.blockArgument⟩ false
      HLSCppEmitterState.init).map
      (fun st => (st.os, st.encounteredError)) = some ("ap_int<32> val1", false) ∧
    (emitValue ⟨1, Ty.integer 8 Signedness.signed, ValueDef.operation 0⟩ false
      HLSCppEmitterState.init).map
      (fun st => (st.os, st.encounteredError)) = some ("ap_int<8> val1", false) ∧
    (emitValue ⟨1, Ty.memref [4] (Ty.integer 16 Signedness.unsigned), ValueDef.blockArgument⟩
      false HLSCppEmitterState.init).map
      (fun st => (st.os, st.encounteredError)) = some ("ap_uint<16> val1", false) := by
  decide

/-! ## Expressions -/

/-- Writing changes neither the name table nor what `getName` returns. -/
theorem HasName.after_write {st : HLSCppEmitterState} {val : Value} {name : String}
    (h : HasName st val name) (text : String) : HasName (write st text) val name :=
  h.of_nameTable_eq rfl

/-- Writing twice is writing the concatenation. -/
theorem write_write (st : HLSCppEmitterState) (a b : String) :
    write (write st a) b = write st (a ++ b) := by
  simp [write, String.append_assoc]

/-- `emitOperation` on a binary operation is `emitBinary` with the table entry of
its kind. -/
theorem emitOperation_binary (kind : BinaryKind) (result lhs rhs : Value)
    (st : HLSCppEmitterState) :
    emitOperation (Operation.binary kind result lhs rhs) st =
      emitBinary result lhs rhs (binarySyntax kind) st := by
  simp only [emitOperation, emitOperationWith, ExprVisitor.dispatchVisitor]
  cases emitBinary result lhs rhs (binarySyntax kind) st <;> rfl

/-- `emitBinary` once the destination is emitted, for operands that have names. -/
theorem emitBinary_of_emitValue {result lhs rhs : Value} {st st1 : HLSCppEmitterState}
    {l r : String} (text : String) (hl : HasName st lhs l) (hr : HasName st rhs r)
    (he : emitValue result false (indent st) = some st1) :
    emitBinary result lhs rhs text st =
      Except.ok (write st1 (" = " ++ l ++ " " ++ text ++ " " ++ r ++ ";\n")) := by
  have hl1 : HasName st1 lhs l := (hl.after_write _).after_emitValue he
  have hr1 : HasName st1 rhs r := (hr.after_write _).after_emitValue he
  have hr2 := (hr1.after_write (" = " ++ l ++ (" " ++ text ++ " "))).1
  simp only [emitBinary, he, hl1.1, write_write, hr2]
  simp [String.append_assoc]

/-- C17: for a binary arithmetic operation whose operands have the names `l` and
`r`, `emitOperation` returns, and it has written exactly the current
indentation, the destination, ` = `, `l`, a space, the table entry of the kind, a
space, `r`, `;` and a newline.  The destination is its name `d` when it has one
(nothing else changes); when it is fresh and of a type with prefix `t`, it is the
declaration `t` followed by the next identifier `val<n+1>`, which is entered in
the name table. -/
theorem binary_expression_shape (kind : BinaryKind) (result lhs rhs : Value)
    (st : HLSCppEmitterState) (l r : String)
    (hl : HasName st lhs l) (hr : HasName st rhs r) :
    (∀ d, HasName st result d →
      emitOperation (Operation.binary kind result lhs rhs) st =
        Except.ok (write st (spaces st.currentIndent ++ d ++ " = " ++ l ++ " " ++
          binarySyntax kind ++ " " ++ r ++ ";\n"))) ∧
    (∀ t, Fresh st result → typeText (elementType result.ty) = some t →
      emitOperation (Operation.binary kind result lhs rhs) st =
        Except.ok
          { os := st.os ++ (spaces st.currentIndent ++ t ++
              mkName false (st.nameTable.length + 1) ++ " = " ++ l ++ " " ++
              binarySyntax kind ++ " " ++ r ++ ";\n"),
            encounteredError := st.encounteredError,
            diagnostics := st.diagnostics,
            currentIndent := st.currentIndent,
            nameTable := st.nameTable ++
              [(result, mkName false (st.nameTable.length + 1))] }) := by
  refine ⟨fun d hd => ?_, fun t hf ht => ?_⟩
  · rw [emitOperation_binary,
      emitBinary_of_emitValue _ hl hr (emitValue_of_hasName (hd.after_write _) false)]
    simp [indent, write, String.append_assoc]
  · have hf1 : Fresh (indent st) result := hf
    rw [emitOperation_binary, emitBinary_of_emitValue _ hl hr (emitValue_of_fresh hf1 ht false)]
    simp [indent, write, declared, String.append_assoc]

/-- Scenario C: `AddFOp(x, y)` with `x` named `val4` and `y` named `val5`, at
indentation 2, into a fresh `f32` destination and into the destination `x`. -/
theorem binary_expression_shape_witness :
    HasName Example.named Example.x "val4" ∧ HasName Example.named Example.y "val5" ∧
    Fresh Example.named Example.z ∧
    emitOperation (Operation.binary BinaryKind.addF Example.z Example.x Example.y)
        Example.named =
      Except.ok
        { os := "  float val6 = val4 + val5;\n",
          encounteredError := false,
          diagnostics := 0,
          currentIndent := 2,
          nameTable := Example.named.nameTable ++ [(Example.z, "val6")] } ∧
    emitOperation (Operation.binary BinaryKind.addF Example.x Example.x Example.y)
        Example.named =
      Except.ok (write Example.named "  val4 = val4 + val5;\n") := by
  have hx : HasName Example.named Example.x "val4" := by decide
  have hy : HasName Example.named Example.y "val5" := by decide
  have h := binary_expression_shape BinaryKind.addF Example.z Example.x Example.y
    Example.named "val4" "val5" hx hy
  have h2 := binary_expression_shape BinaryKind.addF Example.x Example.x Example.y
    Example.named "val4" "val5" hx hy
  refine ⟨hx, hy, by decide, ?_, ?_⟩
  · rw [h.2 "float " (by decide) (by decide)]
    exact congrArg Except.ok (by decide)
  · rw [h2.1 "val4" hx]
    exact congrArg Except.ok (by decide)

/-! ## What the emitters keep -/

theorem Reports.of_eq {st st' : HLSCppEmitterState} (hd : st'.diagnostics = st.diagnostics)
    (he : st'.encounteredError = st.encounteredError) : Reports st st' := by
  unfold Reports
  rw [hd, he]
  simp

theorem Reports.chain {a b c : HLSCppEmitterState} (h1 : Reports a b) (h2 : Reports b c) :
    Reports a c := by
  obtain ⟨d1, f1⟩ := h1
  obtain ⟨d2, f2⟩ := h2
  refine ⟨Nat.le_trans d1 d2, ?_⟩
  rw [f2, f1]
  constructor
  · rintro ((h | h) | h)
    · exact Or.inl h
    · exact Or.inr (Nat.lt_of_lt_of_le h d2)
    · exact Or.inr (Nat.lt_of_le_of_lt d1 h)
  · rintro (h | h)
    · exact Or.inl (Or.inl h)
    · by_cases hb : a.diagnostics < b.diagnostics
      · exact Or.inl (Or.inr hb)
      · exact Or.inr (by omega)

theorem Reports.by_emitError (st : HLSCppEmitterState) : Reports st (emitError st) :=
  ⟨Nat.le_succ _, by simp [emitError]⟩

theorem Extends.rfl (st : HLSCppEmitterState) : Extends st st :=
  ⟨Eq.refl _, id, Reports.of_eq (Eq.refl _) (Eq.refl _), "", by simp⟩

theorem Extends.trans {a b c : HLSCppEmitterState} (h1 : Extends a b) (h2 : Extends b c) :
    Extends a c := by
  obtain ⟨i1, e1, r1, t1, o1⟩ := h1
  obtain ⟨i2, e2, r2, t2, o2⟩ := h2
  exact ⟨i2.trans i1, fun h => e2 (e1 h), r1.chain r2, t1 ++ t2,
    by rw [o2, o1, String.append_assoc]⟩

theorem Extends.of_write (st : HLSCppEmitterState) (text : String) : Extends st (write st text) :=
  ⟨Eq.refl _, id, Reports.of_eq (Eq.refl _) (Eq.refl _), text, Eq.refl _⟩

theorem Extends.of_indent (st : HLSCppEmitterState) : Extends st (indent st) :=
  Extends.of_write st _

theorem Extends.of_emitError (st : HLSCppEmitterState) : Extends st (emitError st) :=
  ⟨Eq.refl _, fun _ => Eq.refl _, Reports.by_emitError st, "", by simp [emitError]⟩

theorem getName_diagnostics {val : Value} {st st1 : HLSCppEmitterState} {name : String}
    (h : getName val st = some (name, st1)) : st1.diagnostics = st.diagnostics := by
  rcases getName_cases h with ⟨_, _, rfl⟩ | ⟨_, _, rfl⟩
  · rfl
  · rfl

theorem Extends.of_getName {val : Value} {st st1 : HLSCppEmitterState} {name : String}
    (h : getName val st = some (name, st1)) : Extends st st1 := by
  obtain ⟨ho, he, hi⟩ := getName_fields h
  exact ⟨hi, fun h => by rw [he]; exact h, Reports.of_eq (getName_diagnostics h) he, "",
    by simp [ho]⟩

theorem Extends.of_emitValueType {val : Value} {st st' : HLSCppEmitterState}
    (h : emitValueType val st = some st') : Extends st st' := by
  have key : Reports st st' ∧ ∃ text, st'.os = st.os ++ text := by
    unfold emitValueType at h
    generalize elementType val.ty = t at h
    cases t with
    | f32 => cases h; exact ⟨Reports.of_eq (Eq.refl _) (Eq.refl _), _, Eq.refl _⟩
    | f64 => cases h; exact ⟨Reports.of_eq (Eq.refl _) (Eq.refl _), _, Eq.refl _⟩
    | index => cases h; exact ⟨Reports.of_eq (Eq.refl _) (Eq.refl _), _, Eq.refl _⟩
    | integer w sg =>
      cases h
      exact ⟨Reports.of_eq (Eq.refl _) (Eq.refl _),
        "ap_" ++ (if sg = .unsigned then "u" else "") ++ "int<" ++ toString w ++ "> ",
        by simp [String.append_assoc]⟩
    | memref sh el =>
      simp only at h
      split at h
      · cases h
      · cases h; exact ⟨Reports.by_emitError st, "", by simp [emitError]⟩
    | other k =>
      simp only at h
      split at h
      · cases h
      · cases h; exact ⟨Reports.by_emitError st, "", by simp [emitError]⟩
  exact ⟨(emitValueType_fields h).2.1, (emitValueType_fields h).2.2, key.1, key.2⟩

theorem Extends.of_emitValue {val : Value} {isPtr : Bool} {st st' : HLSCppEmitterState}
    (h : emitValue val isPtr st = some st') : Extends st st' := by
  rcases emitValue_cases h with ⟨n, st1, hg, _, rfl⟩ | ⟨st1, st2, hg, _, htype, rfl⟩
  · exact (Extends.of_getName hg).trans (Extends.of_write _ _)
  · refine ((Extends.of_getName hg).trans (Extends.of_emitValueType htype)).trans ?_
    exact ⟨Eq.refl _, id, Reports.of_eq (Eq.refl _) (Eq.refl _), _, Eq.refl _⟩

theorem Extends.of_foldl_write {α : Type} (f : α → String) (l : List α)
    (st : HLSCppEmitterState) : Extends st (l.foldl (fun s d => write s (f d)) st) := by
  induction l generalizing st with
  | nil => exact Extends.rfl st
  | cons d l ih => exact (Extends.of_write st _).trans (ih _)

theorem Extends.of_emitShape (shape : List Int) (st : HLSCppEmitterState) :
    Extends st (emitShape shape st) :=
  Extends.of_foldl_write _ shape st

theorem Extends.of_emitAlloc {result : Value} {st st' : HLSCppEmitterState}
    (h : emitAlloc result st = Except.ok st') : Extends st st' := by
  unfold emitAlloc at h
  split at h
  · cases h
  · next st1 he =>
    cases h
    exact ((Extends.of_indent st).trans (Extends.of_emitValue he)).trans
      (Extends.of_foldl_write _ _ _)

theorem Extends.of_emitLoadIndices (indices : List Value) :
    ∀ {st st' : HLSCppEmitterState}, emitLoadIndices indices st = Except.ok st' →
      Extends st st' := by
  induction indices with
  | nil => intro st st' h; cases h; exact Extends.rfl st
  | cons v l ih =>
    intro st st' h
    simp only [emitLoadIndices] at h
    split at h
    · cases h
    · next name st1 hg =>
      exact ((Extends.of_getName hg).trans (Extends.of_write _ _)).trans (ih h)

theorem Extends.of_emitStoreIndices (indices : List Value) :
    ∀ {st st' : HLSCppEmitterState}, emitStoreIndices indices st = Except.ok st' →
      Extends st st' := by
  induction indices with
  | nil => intro st st' h; cases h; exact Extends.rfl st
  | cons v l ih =>
    intro st st' h
    simp only [emitStoreIndices] at h
    split at h
    · cases h
    · next name st1 hg =>
      exact ((Extends.of_getName hg).trans (Extends.of_write _ _)).trans (ih h)

theorem Extends.of_emitLoad {result base : Value} {indices : List Value}
    {st st' : HLSCppEmitterState} (h : emitLoad result base indices st = Except.ok st') :
    Extends st st' := by
  unfold emitLoad at h
  split at h
  · cases h
  · next st1 he =>
    split at h
    · cases h
    · next name st2 hg =>
      exact ((((Extends.of_indent st).trans (Extends.of_emitValue he)).trans
        (Extends.of_getName hg)).trans (Extends.of_write _ _)).trans
        (Extends.of_emitLoadIndices _ h)

theorem Extends.of_emitStore {value base : Value} {indices : List Value}
    {st st' : HLSCppEmitterState} (h : emitStore value base indices st = Except.ok st') :
    Extends st st' := by
  unfold emitStore at h
  split at h
  · cases h
  · next name st1 hg =>
    split at h
    · cases h
    · next st2 hs =>
      split at h
      · cases h
      · next vname st3 hv =>
        cases h
        exact (((((Extends.of_indent st).trans (Extends.of_getName hg)).trans
          (Extends.of_write _ _)).trans (Extends.of_emitStoreIndices _ hs)).trans
          (Extends.of_getName hv)).trans (Extends.of_write _ _)

theorem Extends.of_emitBinary {result lhs rhs : Value} {text : String}
    {st st' : HLSCppEmitterState} (h : emitBinary result lhs rhs text st = Except.ok st') :
    Extends st st' := by
  unfold emitBinary at h
  split at h
  · cases h
  · next st1 he =>
    split at h
    · cases h
    · next l st2 hl =>
      split at h
      · cases h
      · next r st3 hr =>
        cases h
        exact ((((((Extends.of_indent st).trans (Extends.of_emitValue he)).trans
          (Extends.of_getName hl)).trans (Extends.of_write _ _)).trans
          (Extends.of_write _ _)).trans (Extends.of_getName hr)).trans (Extends.of_write _ _)

theorem Extends.of_emitUnary {result operand : Value} {text : String}
    {st st' : HLSCppEmitterState} (h : emitUnary result operand text st = Except.ok st') :
    Extends st st' := by
  unfold emitUnary at h
  split at h
  · cases h
  · next st1 he =>
    split at h
    · cases h
    · next name st2 hg =>
      cases h
      exact (((Extends.of_indent st).trans (Extends.of_emitValue he)).trans
        (Extends.of_getName hg)).trans (Extends.of_write _ _)

theorem Extends.of_claimed {e : Emit} {st : HLSCppEmitterState}
    (he : ∀ st', e = Except.ok st' → Extends st st') {b : Bool} {st' : HLSCppEmitterState}
    (h : claimed e = Except.ok (b, st')) : Extends st st' := by
  cases e with
  | error x => cases h
  | ok s =>
    simp only [claimed, Except.ok.injEq, Prod.mk.injEq] at h
    rw [← h.2]
    exact he s (Eq.refl _)

theorem Extends.of_exprVisitor {op : Operation} {b : Bool} {st st' : HLSCppEmitterState}
    (h : ExprVisitor.dispatchVisitor op st = Except.ok (b, st')) : Extends st st' := by
  unfold ExprVisitor.dispatchVisitor at h
  split at h
  · exact Extends.of_claimed (fun _ => Extends.of_emitBinary) h
  · split at h
    · exact Extends.of_claimed (fun _ => Extends.of_emitBinary) h
    · cases h; exact Extends.rfl _
  · exact Extends.of_claimed (fun _ => Extends.of_emitBinary) h
  · exact Extends.of_claimed (fun _ => Extends.of_emitUnary) h
  · cases h; exact Extends.rfl _
  · cases h; exact Extends.rfl _
  · cases h; exact Extends.rfl _
  · cases h
  · cases h; exact Extends.rfl _

theorem Extends.of_emitAffineForHeader {iv : Value} {lb ub : Option Int} {step : Int}
    {st st' : HLSCppEmitterState} (h : emitAffineForHeader iv lb ub step st = Except.ok st') :
    Extends st st' := by
  unfold emitAffineForHeader at h
  split at h
  · cases h
  · next st1 he =>
    have h1 : Extends st st1 :=
      ((Extends.of_indent st).trans (Extends.of_write _ _)).trans (Extends.of_emitValue he)
    simp only at h
    split at h
    · cases h
    · next st4 hub =>
      split at h
      · cases h
      · next name st5 hg =>
        cases h
        have h2 : Extends st1 st4 := by
          cases lb with
          | none =>
            cases ub with
            | none => simp only [Option.some.injEq] at hub; rw [← hub]; exact Extends.rfl _
            | some u =>
              simp only at hub
              split at hub
              · cases hub
              · next n st3 hg3 =>
                cases hub
                exact (Extends.of_getName hg3).trans (Extends.of_write _ _)
          | some l =>
            cases ub with
            | none =>
              simp only [Option.some.injEq] at hub; rw [← hub]; exact Extends.of_write _ _
            | some u =>
              simp only at hub
              split at hub
              · cases hub
              · next n st3 hg3 =>
                cases hub
                exact ((Extends.of_write _ _).trans (Extends.of_getName hg3)).trans
                  (Extends.of_write _ _)
        exact ((h1.trans h2).trans (Extends.of_getName hg)).trans (Extends.of_write _ _)

theorem Extends.of_ok (s s' : HLSCppEmitterState)
    (h : (Except.ok s : Emit) = Except.ok s') : Extends s s' := by
  cases h
  exact Extends.rfl s

theorem Extends.of_emitAffineFor {emitRegion : HLSCppEmitterState → Emit}
    (hr : ∀ s s', emitRegion s = Except.ok s' → Extends s s') {iv : Value}
    {lb ub : Option Int} {step : Int} {st st' : HLSCppEmitterState}
    (h : emitAffineFor emitRegion iv lb ub step st = Except.ok st') : Extends st st' := by
  unfold emitAffineFor at h
  split at h
  · cases h
  · next st1 hh =>
    split at h
    · cases h
    · next st2 hb =>
      cases h
      exact (((Extends.of_emitAffineForHeader hh).trans (hr _ _ hb)).trans
        (Extends.of_indent _)).trans (Extends.of_write _ _)

theorem Extends.of_stmtVisitor {emitRegion : HLSCppEmitterState → Emit}
    (hr : ∀ s s', emitRegion s = Except.ok s' → Extends s s') {op : Operation} {b : Bool}
    {st st' : HLSCppEmitterState}
    (h : StmtVisitor.dispatchVisitor emitRegion op st = Except.ok (b, st')) :
    Extends st st' := by
  unfold StmtVisitor.dispatchVisitor at h
  split at h
  · exact Extends.of_claimed (fun _ => Extends.of_emitAlloc) h
  · exact Extends.of_claimed (fun _ => Extends.of_emitLoad) h
  · exact Extends.of_claimed (fun _ => Extends.of_emitStore) h
  · exact Extends.of_claimed (fun _ => Extends.of_emitAffineFor hr) h
  all_goals first | (cases h; exact Extends.rfl _) | cases h

theorem Extends.of_emitOperationWith {emitRegion : HLSCppEmitterState → Emit}
    (hr : ∀ s s', emitRegion s = Except.ok s' → Extends s s') {op : Operation}
    {st st' : HLSCppEmitterState} (h : emitOperationWith emitRegion op st = Except.ok st') :
    Extends st st' := by
  unfold emitOperationWith at h
  split at h
  · cases h
  · next st1 he => cases h; exact Extends.of_exprVisitor he
  · next st1 he =>
    split at h
    · cases h
    · next st2 hs =>
      cases h
      exact (Extends.of_exprVisitor he).trans (Extends.of_stmtVisitor hr hs)
    · next st2 hs =>
      cases h
      exact ((Extends.of_exprVisitor he).trans (Extends.of_stmtVisitor hr hs)).trans
        (Extends.of_emitError _)

theorem Extends.of_addIndent_reduceIndent {a b : HLSCppEmitterState}
    (h : Extends (addIndent a) b) : Extends a (reduceIndent b) := by
  obtain ⟨hi, he, hr, t, ho⟩ := h
  refine ⟨?_, he, hr, t, ho⟩
  show b.currentIndent - 2 = a.currentIndent
  rw [hi]
  show a.currentIndent + 2 - 2 = a.currentIndent
  omega

mutual

/-- When `emitOperation` returns, the indentation is the one it started with, a
failure flag that was set is still set, and the output is extended. -/
theorem Extends.of_emitOperation : ∀ (op : Operation) (st st' : HLSCppEmitterState),
    emitOperation op st = Except.ok st' → Extends st st'
  | .affineFor iv lb ub step body, st, st', h => by
    simp only [emitOperation] at h
    refine Extends.of_emitOperationWith (fun s s' hs => ?_) h
    split at hs
    · cases hs
    · next s2 hb =>
      cases hs
      exact Extends.of_addIndent_reduceIndent (Extends.of_emitBlock body (addIndent s) s2 hb)
  | .alloc _, st, st', h =>
    Extends.of_emitOperationWith Extends.of_ok
      (by simpa only [emitOperation] using h)
  | .load _ _ _, st, st', h =>
    Extends.of_emitOperationWith Extends.of_ok
      (by simpa only [emitOperation] using h)
  | .store _ _ _, st, st', h =>
    Extends.of_emitOperationWith Extends.of_ok
      (by simpa only [emitOperation] using h)
  | .affineIf, st, st', h =>
    Extends.of_emitOperationWith Extends.of_ok
      (by simpa only [emitOperation] using h)
  | .affineParallel, st, st', h =>
    Extends.of_emitOperationWith Extends.of_ok
      (by simpa only [emitOperation] using h)
  | .affineApply, st, st', h =>
    Extends.of_emitOperationWith Extends.of_ok
      (by simpa only [emitOperation] using h)
  | .affineMax, st, st', h =>
    Extends.of_emitOperationWith Extends.of_ok
      (by simpa only [emitOperation] using h)
  | .affineMin, st, st', h =>
    Extends.of_emitOperationWith Extends.of_ok
      (by simpa only [emitOperation] using h)
  | .affineLoad, st, st', h =>
    Extends.of_emitOperationWith Extends.of_ok
      (by simpa only [emitOperation] using h)
  | .affineStore, st, st', h =>
    Extends.of_emitOperationWith Extends.of_ok
      (by simpa only [emitOperation] using h)
  | .unary _ _ _, st, st', h =>
    Extends.of_emitOperationWith Extends.of_ok
      (by simpa only [emitOperation] using h)
  | .binary _ _ _ _, st, st', h =>
    Extends.of_emitOperationWith Extends.of_ok
      (by simpa only [emitOperation] using h)
  | .cmpF _ _ _ _, st, st', h =>
    Extends.of_emitOperationWith Extends.of_ok
      (by simpa only [emitOperation] using h)
  | .cmpI _ _ _ _, st, st', h =>
    Extends.of_emitOperationWith Extends.of_ok
      (by simpa only [emitOperation] using h)
  | .affineYield, st, st', h =>
    Extends.of_emitOperationWith Extends.of_ok
      (by simpa only [emitOperation] using h)
  | .constant _, st, st', h =>
    Extends.of_emitOperationWith Extends.of_ok
      (by simpa only [emitOperation] using h)
  | .return _, st, st', h =>
    Extends.of_emitOperationWith Extends.of_ok
      (by simpa only [emitOperation] using h)
  | .unsupported _, st, st', h =>
    Extends.of_emitOperationWith Extends.of_ok
      (by simpa only [emitOperation] using h)

/-- When `emitBlock` returns, the indentation is the one it started with, a
failure flag that was set is still set, and the output is extended. -/
theorem Extends.of_emitBlock : ∀ (ops : List Operation) (st st' : HLSCppEmitterState),
    emitBlock ops st = Except.ok st' → Extends st st'
  | [], st, st', h => by
    simp only [emitBlock, Except.ok.injEq] at h
    rw [← h]
    exact Extends.rfl st
  | op :: rest, st, st', h => by
    simp only [emitBlock] at h
    split at h
    · cases h
    · next st1 ho =>
      exact (Extends.of_emitOperation op st st1 ho).trans (Extends.of_emitBlock rest st1 st' h)

end

/-! ## Loops -/

/-- `emitOperation` on an affine loop: the header, the operations of the body at
the deeper indentation, the closing brace. -/
theorem emitOperation_affineFor (iv : Value) (lb ub : Option Int) (step : Int)
    (body : List Operation) (st : HLSCppEmitterState) :
    emitOperation (Operation.affineFor iv lb ub step body) st =
      match emitAffineForHeader iv lb ub step st with
      | Except.error e => Except.error e
      | Except.ok st1 =>
          match emitBlock body (addIndent st1) with
          | Except.error e => Except.error e
          | Except.ok st2 => Except.ok (write (indent (reduceIndent st2)) "\x7d\n") := by
  simp only [emitOperation, emitOperationWith, ExprVisitor.dispatchVisitor,
    StmtVisitor.dispatchVisitor, emitAffineFor]
  cases emitAffineForHeader iv lb ub step st with
  | error e => rfl
  | ok st1 =>
    dsimp only
    cases emitBlock body (addIndent st1) <;> rfl

/-- A value just declared has the name it was declared under. -/
theorem HasName.of_declared {st : HLSCppEmitterState} {val : Value} (h : Fresh st val)
    (isPtr : Bool) (text : String) :
    HasName (declared st val isPtr text) val (mkName isPtr (st.nameTable.length + 1)) := by
  refine hasName_of_found h.1 ?_ (mkName_ne_empty _ _)
  show find? (st.nameTable ++ [(val, mkName isPtr (st.nameTable.length + 1))]) val = _
  rw [find?_append_of_none h.2]
  simp [find?]

/-- The header of a loop with constant bounds whose induction variable is fresh
and of type `index`. -/
theorem emitAffineForHeader_of_fresh {st : HLSCppEmitterState} {iv : Value}
    (hf : Fresh st iv) (ht : iv.ty = Ty.index) (lb ub step : Int) :
    emitAffineForHeader iv (some lb) (some ub) step st =
      Except.ok (afterLoopHeader st iv lb ub step) := by
  have hf1 : Fresh (write (indent st) "for (") iv := hf
  have htt : typeText (elementType iv.ty) = some "int " := by rw [ht]; rfl
  have hn := HasName.of_declared hf1 false "int "
  have h2 := (hn.after_write (" = " ++ toString lb ++ "; ")).1
  have h3 := ((hn.after_write (" = " ++ toString lb ++ "; ")).after_write
    (mkName false ((write (indent st) "for (").nameTable.length + 1) ++ " < " ++
      toString ub ++ "; ")).1
  simp only [emitAffineForHeader, emitValue_of_fresh hf1 htt false, h2, h3]
  simp [afterLoopHeader, write, indent, declared, String.append_assoc]

/-- C16: for an affine loop with constant lower bound `lb`, constant upper bound
`ub` and step `step` whose induction variable is fresh and of type `index`,
emission writes the current indentation and
`for (int <iv> = lb; <iv> < ub; <iv> += step) {` with a newline, where `<iv>` is
the next identifier; it then emits the operations of the body from a state whose
indentation is 2 columns deeper; when the body does not return, neither does the
loop; when the body returns, it returns at that deeper indentation, and the loop
writes its own indentation and `}` with a newline and returns at the indentation
it started with. -/
theorem affine_loop_shape (iv : Value) (lb ub step : Int) (body : List Operation)
    (st : HLSCppEmitterState) (hf : Fresh st iv) (ht : iv.ty = Ty.index) :
    emitAffineForHeader iv (some lb) (some ub) step st =
      Except.ok (afterLoopHeader st iv lb ub step) ∧
    (addIndent (afterLoopHeader st iv lb ub step)).currentIndent = st.currentIndent + 2 ∧
    (∀ e, emitBlock body (addIndent (afterLoopHeader st iv lb ub step)) = Except.error e →
      emitOperation (Operation.affineFor iv (some lb) (some ub) step body) st =
        Except.error e) ∧
    (∀ st2, emitBlock body (addIndent (afterLoopHeader st iv lb ub step)) = Except.ok st2 →
      st2.currentIndent = st.currentIndent + 2 ∧
      emitOperation (Operation.affineFor iv (some lb) (some ub) step body) st =
        Except.ok
          { os := st2.os ++ (spaces st.currentIndent ++ "\x7d\n"),
            encounteredError := st2.encounteredError,
            diagnostics := st2.diagnostics,
            currentIndent := st.currentIndent,
            nameTable := st2.nameTable }) := by
  have hh := emitAffineForHeader_of_fresh hf ht lb ub step
  refine ⟨hh, rfl, fun e he => ?_, fun st2 hb => ?_⟩
  · simp only [emitOperation_affineFor, hh, he]
  · have hi : st2.currentIndent = st.currentIndent + 2 :=
      (Extends.of_emitBlock body _ st2 hb).1
    refine ⟨hi, ?_⟩
    simp only [emitOperation_affineFor, hh, hb]
    simp [write, indent, reduceIndent, hi, String.append_assoc]

/-- Scenario B: the loop with lower bound 0, upper bound 10, step 1 and an empty
body, in the initial state; and the same loop around an addition, at
indentation 2. -/
theorem affine_loop_shape_witness :
    Fresh HLSCppEmitterState.init Example.iv ∧ Example.iv.ty = Ty.index ∧
    emitBlock [] (addIndent (afterLoopHeader HLSCppEmitterState.init Example.iv 0 10 1)) =
      Except.ok (addIndent (afterLoopHeader HLSCppEmitterState.init Example.iv 0 10 1)) ∧
    emitOperation (Operation.affineFor Example.iv (some 0) (some 10) 1 [])
        HLSCppEmitterState.init =
      Except.ok
        { os := "for (int val1 = 0; val1 < 10; val1 += 1) \x7b\n\x7d\n",
          encounteredError := false,
          diagnostics := 0,
          currentIndent := 0,
          nameTable := [(Example.iv, "val1")] } ∧
    outputOf (emitOperation (Operation.affineFor Example.iv (some 0) (some 10) 1
        [Operation.binary BinaryKind.addF Example.z Example.x Example.y]) Example.named) =
      some ("  for (int val6 = 0; val6 < 10; val6 += 1) \x7b\n" ++
        "    float val7 = val4 + val5;\n" ++ "  \x7d\n") := by
  have h := affine_loop_shape Example.iv 0 10 1 [] HLSCppEmitterState.init
    (by decide) (by decide)
  refine ⟨by decide, by decide, rfl, ?_, by decide⟩
  rw [(h.2.2.2 _ rfl).2]
  exact congrArg Except.ok (by decide)

/-! ## Function signatures -/

theorem emitShape_eq (shape : List Int) (st : HLSCppEmitterState) :
    emitShape shape st = write st (shapeText shape) := by
  unfold emitShape
  induction shape generalizing st with
  | nil => simp [shapeText, write]
  | cons d rest ih =>
    rw [List.foldl_cons, ih, write_write]
    rfl

theorem unsignedPred_eq_iff {n i k : Nat} (h : i + (k + 1) = n) (hn : n < 4294967296) :
    i = unsignedPred n ↔ k = 0 := by
  unfold unsignedPred
  omega

/-- The state after one parameter of a signature is written for a fresh value. -/
theorem parameter_step {st : HLSCppEmitterState} {val : Value} (hf : Fresh st val)
    (ht : (typeText (elementType val.ty)).isSome = true) (isPtr : Bool) (sep : String) :
    ∃ st1, emitValue val isPtr (indent st) = some st1 ∧
      write (emitShape val.ty.shape st1) sep =
        { os := st.os ++ (parameterLine st.currentIndent isPtr (st.nameTable.length + 1) val ++
            sep),
          encounteredError := st.encounteredError,
          diagnostics := st.diagnostics,
          currentIndent := st.currentIndent,
          nameTable := st.nameTable ++ [(val, mkName isPtr (st.nameTable.length + 1))] } := by
  obtain ⟨t, htt⟩ := Option.isSome_iff_exists.1 ht
  have hf1 : Fresh (indent st) val := hf
  refine ⟨_, emitValue_of_fresh hf1 htt isPtr, ?_⟩
  rw [emitShape_eq, write_write]
  simp [write, declared, indent, parameterLine, htt, String.append_assoc]

/-- Values that can be declared can still be declared after another value is. -/
theorem Declarable.tail {st st' : HLSCppEmitterState} {val : Value} {rest : List Value}
    {name : String} (h : Declarable st (val :: rest))
    (ht : st'.nameTable = st.nameTable ++ [(val, name)]) : Declarable st' rest := by
  obtain ⟨hnd, hall⟩ := h
  rw [List.nodup_cons] at hnd
  refine ⟨hnd.2, fun w hw => ?_⟩
  obtain ⟨⟨hc, hfind⟩, hty⟩ := hall w (List.mem_cons_of_mem _ hw)
  refine ⟨⟨hc, ?_⟩, hty⟩
  rw [ht, find?_append_of_none hfind]
  have hne : val ≠ w := by
    rintro rfl
    exact hnd.1 hw
  simp [find?, hne]

theorem separated_cons (last line : String) (rest : List String) :
    separated last (line :: rest) =
      line ++ (if rest.length = 0 then last else ",\n") ++ separated last rest := by
  cases rest with
  | nil => simp [separated]
  | cons a r => simp [separated]

theorem parameterLines_eq_nil (indentation : Nat) (isPtr : Bool) (size : Nat)
    (vals : List Value) : parameterLines indentation isPtr size vals = [] ↔ vals = [] := by
  cases vals <;> simp [parameterLines]

/-- The loop of `emitFunction` over the arguments, when they can be declared. -/
theorem emitFunctionArguments_of_declarable (numArguments numResults : Nat)
    (hn : numArguments < 4294967296) (rest : List Value) :
    ∀ (argIdx : Nat) (st : HLSCppEmitterState), Declarable st rest →
      argIdx + rest.length = numArguments →
      emitFunctionArguments numArguments numResults rest argIdx st =
        Except.ok
          { os := st.os ++ separated (if numResults = 0 then "\n" else ",\n")
              (parameterLines st.currentIndent false st.nameTable.length rest),
            encounteredError := st.encounteredError,
            diagnostics := st.diagnostics,
            currentIndent := st.currentIndent,
            nameTable := st.nameTable ++ declarations false st.nameTable.length rest } := by
  induction rest with
  | nil =>
    intro argIdx st _ _
    simp [emitFunctionArguments, separated, parameterLines, declarations]
  | cons val rest ih =>
    intro argIdx st hd hidx
    obtain ⟨hf, hty⟩ := hd.2 val (List.mem_cons_self _ _)
    have hlast := unsignedPred_eq_iff (by simpa using hidx) hn
    have hsep : (if argIdx = unsignedPred numArguments ∧ numResults = 0 then "\n" else ",\n") =
        (if rest.length = 0 then (if numResults = 0 then "\n" else ",\n") else ",\n") := by
      by_cases hr : rest.length = 0 <;> by_cases h0 : numResults = 0 <;> simp [hlast, hr, h0]
    obtain ⟨st1, he, hs⟩ := parameter_step hf hty false
      (if argIdx = unsignedPred numArguments ∧ numResults = 0 then "\n" else ",\n")
    have hite : (if argIdx = unsignedPred numArguments ∧ numResults = 0 then
          write (emitShape val.ty.shape st1) "\n"
        else write (emitShape val.ty.shape st1) ",\n") =
        write (emitShape val.ty.shape st1)
          (if argIdx = unsignedPred numArguments ∧ numResults = 0 then "\n" else ",\n") := by
      split <;> rfl
    simp only [emitFunctionArguments, he, hite, hs]
    rw [ih (argIdx + 1) _ (hd.tail (Eq.refl _))
      (by simp only [List.length_cons] at hidx; omega), hsep]
    simp [separated_cons, parameterLines, declarations, String.append_assoc,
      parameterLines_eq_nil]

/-- The loop of `emitFunction` over the returned values, when they can be
declared. -/
theorem emitFunctionResults_of_declarable (numResults : Nat)
    (hn : numResults < 4294967296) (rest : List Value) :
    ∀ (resultIdx : Nat) (st : HLSCppEmitterState), Declarable st rest →
      resultIdx + rest.length = numResults →
      emitFunctionResults numResults rest resultIdx st =
        Except.ok
          { os := st.os ++ separated "\n"
              (parameterLines st.currentIndent true st.nameTable.length rest),
            encounteredError := st.encounteredError,
            diagnostics := st.diagnostics,
            currentIndent := st.currentIndent,
            nameTable := st.nameTable ++ declarations true st.nameTable.length rest } := by
  induction rest with
  | nil =>
    intro resultIdx st _ _
    simp [emitFunctionResults, separated, parameterLines, declarations]
  | cons val rest ih =>
    intro resultIdx st hd hidx
    obtain ⟨hf, hty⟩ := hd.2 val (List.mem_cons_self _ _)
    have hlast := unsignedPred_eq_iff (by simpa using hidx) hn
    have hsep : (if resultIdx = unsignedPred numResults then "\n" else ",\n") =
        (if rest.length = 0 then "\n" else ",\n") := by
      by_cases hr : rest.length = 0 <;> simp [hlast, hr]
    obtain ⟨st1, he, hs⟩ := parameter_step hf hty true
      (if resultIdx = unsignedPred numResults then "\n" else ",\n")
    have hite : (if resultIdx = unsignedPred numResults then
          write (emitShape val.ty.shape st1) "\n"
        else write (emitShape val.ty.shape st1) ",\n") =
        write (emitShape val.ty.shape st1)
          (if resultIdx = unsignedPred numResults then "\n" else ",\n") := by
      split <;> rfl
    simp only [emitFunctionResults, he, hite, hs]
    rw [ih (resultIdx + 1) _ (hd.tail (Eq.refl _))
      (by simp only [List.length_cons] at hidx; omega), hsep]
    simp [separated_cons, parameterLines, declarations, String.append_assoc,
      parameterLines_eq_nil]

theorem length_declarations (isPtr : Bool) (size : Nat) (vals : List Value) :
    (declarations isPtr size vals).length = vals.length := by
  induction vals generalizing size with
  | nil => rfl
  | cons v rest ih => simp [declarations, ih]

theorem find?_declarations_of_not_mem (isPtr : Bool) (size : Nat) {vals : List Value}
    {w : Value} (h : w ∉ vals) : find? (declarations isPtr size vals) w = none := by
  induction vals generalizing size with
  | nil => rfl
  | cons v rest ih =>
    rw [List.mem_cons, not_or] at h
    have hne : ¬ v = w := fun e => h.1 e.symm
    simp only [declarations, find?, hne, if_false]
    exact ih (size + 1) h.2

/-- The values of the first part of a list that can be declared can be declared,
and so can the values of the second part once the ones of the first are. -/
theorem Declarable.split {st : HLSCppEmitterState} {args results : List Value}
    (h : Declarable st (args ++ results)) :
    Declarable (addIndent (write st "")) args ∧
    ∀ st2 : HLSCppEmitterState,
      st2.nameTable = st.nameTable ++ declarations false st.nameTable.length args →
      Declarable st2 results := by
  obtain ⟨hnd, hall⟩ := h
  rw [List.nodup_append] at hnd
  refine ⟨⟨hnd.1, fun v hv => hall v (List.mem_append_left _ hv)⟩, fun st2 ht => ?_⟩
  refine ⟨hnd.2.1, fun w hw => ?_⟩
  obtain ⟨⟨hc, hfind⟩, hty⟩ := hall w (List.mem_append_right _ hw)
  refine ⟨⟨hc, ?_⟩, hty⟩
  rw [ht, find?_append_of_none hfind]
  exact find?_declarations_of_not_mem _ _ (fun hin => hnd.2.2 hin hw)

/-- C13 (the code at the failing input): for a single-block function that returns
its own argument, a 4x4 array of `f32`, the parameter written for the returned
value is the bare identifier of the argument with its extents, without a type and
without the pointer marker; for a single-block function that returns a constant,
the parameter written is the literal of the constant. -/
theorem returned_argument_is_not_declared :
    outputOf (emitFunction
      { name := "f", numResults := 1,
        blocks := [{ args := [Example.A], ops := [Operation.return [Example.A]] }] }
      HLSCppEmitterState.init) =
      some "void f(\n  float val1[4][4],\n  val1[4][4]\n) \x7b\n\x7d\n" ∧
    outputOf (emitFunction
      { name := "c", numResults := 1,
        blocks := [{ args := [],
                     ops := [Operation.return
                       [⟨20, Ty.integer 32 Signedness.signless,
                         ValueDef.constant (ConstAttr.integer 0)⟩]] }] }
      HLSCppEmitterState.init) =
      some "void c(\n  0\n) \x7b\n\x7d\n" := by
  decide

/-- The signature for fresh values: for a single-block function terminated by a
return whose arguments and returned values are pairwise distinct, fresh and of
types the emitter lowers (so no returned value is an argument, a constant, or
returned twice), `emitFunction` writes `void <name>(`, one parameter per argument in
order, then one parameter per returned value in order, each a typed declaration
whose identifier is the next number, for a returned value after the pointer
marker `*`, followed by its bracketed extents; the parameters are separated by a
comma and a newline; then `) {`; it then emits the body from that state and,
when the body returns, closes the function with `}`. -/
theorem function_signature (name : String) (args operands : List Value)
    (ops : List Operation) (st : HLSCppEmitterState)
    (hlast : ops.getLast? = some (Operation.return operands))
    (hd : Declarable st (args ++ operands))
    (ha : args.length < 4294967296) (ho : operands.length < 4294967296) :
    emitFunction
        { name := name, numResults := operands.length,
          blocks := [{ args := args, ops := ops }] } st =
      match emitBlock ops (afterSignature st name args operands) with
      | Except.error e => Except.error e
      | Except.ok st4 => Except.ok (write (reduceIndent st4) "\x7d\n") := by
  obtain ⟨hda, hdr⟩ := hd.split
  have h1 := emitFunctionArguments_of_declarable args.length operands.length ha args 0
    (addIndent (write st ("void " ++ name ++ "(\n"))) hda (by simp)
  have hdr2 := hdr
    { os := (addIndent (write st ("void " ++ name ++ "(\n"))).os ++
        separated (if operands.length = 0 then "\n" else ",\n")
          (parameterLines (st.currentIndent + 2) false st.nameTable.length args),
      encounteredError := st.encounteredError,
      diagnostics := st.diagnostics,
      currentIndent := st.currentIndent + 2,
      nameTable := st.nameTable ++ declarations false st.nameTable.length args } (Eq.refl _)
  have h2 := emitFunctionResults_of_declarable operands.length ho operands 0 _ hdr2 (by simp)
  simp only [emitFunction, List.length_singleton, ne_eq, not_true_eq_false, if_false]
  have e1 : (addIndent (write st ("void " ++ name ++ "(\n"))).currentIndent =
      st.currentIndent + 2 := rfl
  have e2 : (addIndent (write st ("void " ++ name ++ "(\n"))).nameTable = st.nameTable := rfl
  have e3 : (addIndent (write st ("void " ++ name ++ "(\n"))).encounteredError =
      st.encounteredError := rfl
  have e5 : (addIndent (write st ("void " ++ name ++ "(\n"))).diagnostics =
      st.diagnostics := rfl
  rw [e1, e2, e3, e5] at h1
  rw [h1]
  simp only [hlast]
  rw [h2]
  have e4 : addIndent (write (reduceIndent
      { os := (addIndent (write st ("void " ++ name ++ "(\n"))).os ++
          separated (if operands.length = 0 then "\n" else ",\n")
            (parameterLines (st.currentIndent + 2) false st.nameTable.length args) ++
          separated "\n" (parameterLines (st.currentIndent + 2) true
            (st.nameTable ++ declarations false st.nameTable.length args).length operands),
        encounteredError := st.encounteredError,
        diagnostics := st.diagnostics,
        currentIndent := st.currentIndent + 2,
        nameTable := st.nameTable ++ declarations false st.nameTable.length args ++
          declarations true
            (st.nameTable ++ declarations false st.nameTable.length args).length operands })
      ") \x7b\n") = afterSignature st name args operands := by
    simp [addIndent, write, reduceIndent, afterSignature, List.length_append,
      length_declarations, String.append_assoc]
  simp only [e4]

/-- Scenario A: inputs `A`, a 4x4 array of `f32`, and `B`, a 32-bit integer; one
returned 4x4 array of `f32`, the result of an operation of the body. -/
theorem function_signature_witness :
    [Operation.alloc Example.R, Operation.return [Example.R]].getLast? =
      some (Operation.return [Example.R]) ∧
    Declarable HLSCppEmitterState.init ([Example.A, Example.B] ++ [Example.R]) ∧
    (afterSignature HLSCppEmitterState.init "f" [Example.A, Example.B] [Example.R]).os =
      "void f(\n  float val1[4][4],\n  ap_int<32> val2,\n  float *val3[4][4]\n) \x7b\n" ∧
    emitFunction
        { name := "f", numResults := [Example.R].length,
          blocks := [{ args := [Example.A, Example.B],
                       ops := [Operation.alloc Example.R, Operation.return [Example.R]] }] }
        HLSCppEmitterState.init =
      match emitBlock [Operation.alloc Example.R, Operation.return [Example.R]]
          (afterSignature HLSCppEmitterState.init "f" [Example.A, Example.B] [Example.R]) with
      | Except.error e => Except.error e
      | Except.ok st4 => Except.ok (write (reduceIndent st4) "\x7d\n") :=
  ⟨rfl, by decide, by decide,
    function_signature "f" [Example.A, Example.B] [Example.R]
      [Operation.alloc Example.R, Operation.return [Example.R]] HLSCppEmitterState.init rfl
      (by decide) (by decide) (by decide)⟩

/-! ## Functions and modules -/

theorem Extends.of_addIndent_write (st : HLSCppEmitterState) (text : String) :
    Extends (addIndent st) (addIndent (write st text)) :=
  ⟨Eq.refl _, id, Reports.of_eq (Eq.refl _) (Eq.refl _), text, Eq.refl _⟩

theorem Extends.of_emitFunctionArguments (numArguments numResults : Nat) (args : List Value) :
    ∀ (argIdx : Nat) {st st' : HLSCppEmitterState},
      emitFunctionArguments numArguments numResults args argIdx st = Except.ok st' →
      Extends st st' := by
  induction args with
  | nil => intro argIdx st st' h; cases h; exact Extends.rfl st
  | cons v rest ih =>
    intro argIdx st st' h
    simp only [emitFunctionArguments] at h
    split at h
    · cases h
    · next st1 he =>
      have h1 : Extends st (emitShape v.ty.shape st1) :=
        ((Extends.of_indent st).trans (Extends.of_emitValue he)).trans
          (Extends.of_emitShape _ _)
      refine (h1.trans ?_).trans (ih _ h)
      split
      · exact Extends.of_write _ _
      · exact Extends.of_write _ _

theorem Extends.of_emitFunctionResults (numResults : Nat) (results : List Value) :
    ∀ (resultIdx : Nat) {st st' : HLSCppEmitterState},
      emitFunctionResults numResults results resultIdx st = Except.ok st' →
      Extends st st' := by
  induction results with
  | nil => intro resultIdx st st' h; cases h; exact Extends.rfl st
  | cons v rest ih =>
    intro resultIdx st st' h
    simp only [emitFunctionResults] at h
    split at h
    · cases h
    · next st1 he =>
      have h1 : Extends st (emitShape v.ty.shape st1) :=
        ((Extends.of_indent st).trans (Extends.of_emitValue he)).trans
          (Extends.of_emitShape _ _)
      refine (h1.trans ?_).trans (ih _ h)
      split
      · exact Extends.of_write _ _
      · exact Extends.of_write _ _

/-- When `emitFunction` returns, the indentation is the one it started with, a
failure flag that was set is still set, and the output is extended. -/
theorem Extends.of_emitFunction {func : FuncOp} {st st' : HLSCppEmitterState}
    (h : emitFunction func st = Except.ok st') : Extends st st' := by
  have h0 : Extends st (if func.blocks.length ≠ 1 then emitError st else st) := by
    split
    · exact Extends.of_emitError st
    · exact Extends.rfl st
  simp only [emitFunction] at h
  split at h
  · cases h
  · next front others hb =>
    split at h
    · cases h
    · next st2 ha =>
      split at h
      · cases h
      · next terminator hl =>
        split at h
        · cases h
        · next st3 hr =>
          split at h
          · cases h
          · next st4 hbody =>
            cases h
            have e1 : Extends (addIndent (if func.blocks.length ≠ 1 then emitError st else st))
                st2 :=
              (Extends.of_addIndent_write _ _).trans (Extends.of_emitFunctionArguments _ _ _ _ ha)
            have e2 : Extends st2 st3 := by
              split at hr
              · exact Extends.of_emitFunctionResults _ _ _ hr
              · cases hr; exact Extends.of_emitError _
            have e3 : Extends (if func.blocks.length ≠ 1 then emitError st else st)
                (reduceIndent st3) := Extends.of_addIndent_reduceIndent (e1.trans e2)
            have e4 : Extends (addIndent (reduceIndent st3)) st4 :=
              (Extends.of_addIndent_write _ _).trans (Extends.of_emitBlock _ _ _ hbody)
            exact ((h0.trans e3).trans (Extends.of_addIndent_reduceIndent e4)).trans
              (Extends.of_write _ _)

theorem Extends.of_emitTopLevel (ops : List TopLevelOp) :
    ∀ {st st' : HLSCppEmitterState}, emitTopLevel ops st = Except.ok st' → Extends st st' := by
  induction ops with
  | nil => intro st st' h; cases h; exact Extends.rfl st
  | cons op rest ih =>
    intro st st' h
    cases op with
    | func f =>
      simp only [emitTopLevel] at h
      split at h
      · cases h
      · next st1 hf => exact (Extends.of_emitFunction hf).trans (ih h)
    | moduleTerminator =>
      simp only [emitTopLevel] at h
      exact ih h
    | other k =>
      simp only [emitTopLevel] at h
      exact (Extends.of_emitError st).trans (ih h)

/-- The loop of `emitModule` over a concatenation. -/
theorem emitTopLevel_append (before after : List TopLevelOp) (st : HLSCppEmitterState) :
    emitTopLevel (before ++ after) st =
      match emitTopLevel before st with
      | Except.error e => Except.error e
      | Except.ok st1 => emitTopLevel after st1 := by
  induction before generalizing st with
  | nil => rfl
  | cons op rest ih =>
    cases op with
    | func f =>
      simp only [List.cons_append, emitTopLevel]
      cases emitFunction f st with
      | error e => rfl
      | ok st1 => exact ih st1
    | moduleTerminator =>
      simp only [List.cons_append, emitTopLevel]
      exact ih st
    | other k =>
      simp only [List.cons_append, emitTopLevel]
      exact ih _

/-- A function of more than one block is emitted as the function of its front
block alone is, after the failure flag is set. -/
theorem emitFunction_of_multi_block (f : FuncOp) (front : FuncBlock) (others : List FuncBlock)
    (hb : f.blocks = front :: others) (hm : others ≠ []) (st : HLSCppEmitterState) :
    emitFunction f st =
      emitFunction { name := f.name, numResults := f.numResults, blocks := [front] }
        (emitError st) := by
  have hlen : ¬ (front :: others).length = 1 := by
    cases others with
    | nil => exact absurd rfl hm
    | cons b r => simp
  simp only [emitFunction, hb, hlen, ne_eq, not_false_eq_true, if_true, List.length_singleton,
    not_true_eq_false, if_false]

set_option maxRecDepth 100000 in
/-- C19 (as stated, refuted): a module of a function `g` of two blocks and a
function `h`.  When the front block of `g` ends with a return, `g` is emitted
from its front block, its allocation included, and then `h` is; when the front
block of `g` ends with a branch, the allocation of `g` is written and the process
is aborted at the branch, so `h` is not emitted. -/
theorem multi_block_function_is_emitted :
    outputOf (emitModule [TopLevelOp.func Example.g, TopLevelOp.func Example.h]
        HLSCppEmitterState.init) =
      some (preamble ++ "void g(\n) \x7b\n  float val1[8];\n\x7d\n" ++
        "void h(\n) \x7b\n\x7d\n") ∧
    abortedOutput (emitModule [TopLevelOp.func Example.gBranch, TopLevelOp.func Example.h]
        HLSCppEmitterState.init) =
      some (preamble ++ "void g(\n) \x7b\n  float val1[8];\n") := by
  decide

/-- C19 (amended): for a module containing a function of more than one block,
`emitModule` emits the operations in front of the function, then sets the
failure flag and emits the function as the function of its front block alone is
emitted (signature and body operations), then emits the operations behind it, in
order, each step only when the one before returns; when `emitModule` returns, the
failure flag is set. -/
theorem multi_block_function (f : FuncOp) (front : FuncBlock) (others : List FuncBlock)
    (hb : f.blocks = front :: others) (hm : others ≠ [])
    (before after : List TopLevelOp) (st : HLSCppEmitterState) :
    emitModule (before ++ TopLevelOp.func f :: after) st =
      (match emitModule before st with
        | Except.error e => Except.error e
        | Except.ok st1 =>
            match emitFunction { name := f.name, numResults := f.numResults, blocks := [front] }
                (emitError st1) with
            | Except.error e => Except.error e
            | Except.ok st2 => emitTopLevel after st2) ∧
    (∀ st', emitModule (before ++ TopLevelOp.func f :: after) st = Except.ok st' →
      st'.encounteredError = true) := by
  have h1 : emitModule (before ++ TopLevelOp.func f :: after) st =
      (match emitModule before st with
        | Except.error e => Except.error e
        | Except.ok st1 =>
            match emitFunction { name := f.name, numResults := f.numResults, blocks := [front] }
                (emitError st1) with
            | Except.error e => Except.error e
            | Except.ok st2 => emitTopLevel after st2) := by
    simp only [emitModule, emitTopLevel_append]
    cases emitTopLevel before (write st preamble) with
    | error e => rfl
    | ok st1 =>
      simp only [emitTopLevel, emitFunction_of_multi_block f front others hb hm]
  refine ⟨h1, fun st' h => ?_⟩
  rw [h1] at h
  split at h
  · cases h
  · next st1 _ =>
    split at h
    · cases h
    · next st2 hf =>
      exact (Extends.of_emitTopLevel after h).2.1 ((Extends.of_emitFunction hf).2.1 rfl)

/-- The module of the two-block function `g`, whose front block returns, and of
the function `h`. -/
theorem multi_block_function_witness :
    Example.g.blocks =
      { args := [], ops := [Operation.alloc Example.S, Operation.return []] } ::
        [{ args := [], ops := [Operation.return []] }] ∧
    ∀ st', emitModule ([] ++ TopLevelOp.func Example.g :: [TopLevelOp.func Example.h])
        HLSCppEmitterState.init = Except.ok st' → st'.encounteredError = true :=
  ⟨rfl, (multi_block_function Example.g
    { args := [], ops := [Operation.alloc Example.S, Operation.return []] }
    [{ args := [], ops := [Operation.return []] }] rfl (by simp) [] [TopLevelOp.func Example.h]
    HLSCppEmitterState.init).2⟩

/-! ## The failure flag, the dispatch tables and the operator table -/

/-- When `emitModule` returns, the failure flag has followed the diagnostics. -/
theorem Extends.of_emitModule {module : List TopLevelOp} {st st' : HLSCppEmitterState}
    (h : emitModule module st = Except.ok st') : Extends st st' :=
  (Extends.of_write st preamble).trans (Extends.of_emitTopLevel module h)

/-- C21: the failure flag starts false (and no diagnostic is reported yet); every
`emitError` call sets it and reports one more diagnostic; no emitter resets it:
when `emitValue`, `emitOperation`, `emitFunction` or `emitModule` returns, a flag
that was set is still set, and the flag is set afterwards exactly when it was set
before or a diagnostic has been reported through `emitError` in between; hence,
when `emitHLSCpp` returns, its result is `failure` if and only if at least one
diagnostic has been reported through `emitError` during the run, whatever their
number. -/
theorem failure_flag :
    (HLSCppEmitterState.init.encounteredError = false ∧
      HLSCppEmitterState.init.diagnostics = 0) ∧
    (∀ st, (emitError st).encounteredError = true ∧
      (emitError st).diagnostics = st.diagnostics + 1) ∧
    (∀ val isPtr st st', emitValue val isPtr st = some st' →
      (st.encounteredError = true → st'.encounteredError = true) ∧ Reports st st') ∧
    (∀ op st st', emitOperation op st = Except.ok st' →
      (st.encounteredError = true → st'.encounteredError = true) ∧ Reports st st') ∧
    (∀ func st st', emitFunction func st = Except.ok st' →
      (st.encounteredError = true → st'.encounteredError = true) ∧ Reports st st') ∧
    (∀ module st st', emitModule module st = Except.ok st' →
      (st.encounteredError = true → st'.encounteredError = true) ∧ Reports st st') ∧
    (∀ module result st', emitHLSCpp module = Except.ok (result, st') →
      (result = LogicalResult.failure ↔ 0 < st'.diagnostics)) := by
  refine ⟨⟨rfl, rfl⟩, fun st => ⟨rfl, rfl⟩,
    fun val isPtr st st' h => ⟨(Extends.of_emitValue h).2.1, (Extends.of_emitValue h).2.2.1⟩,
    fun op st st' h =>
      ⟨(Extends.of_emitOperation op st st' h).2.1, (Extends.of_emitOperation op st st' h).2.2.1⟩,
    fun func st st' h => ⟨(Extends.of_emitFunction h).2.1, (Extends.of_emitFunction h).2.2.1⟩,
    fun module st st' h => ⟨(Extends.of_emitModule h).2.1, (Extends.of_emitModule h).2.2.1⟩,
    fun module result st' h => ?_⟩
  unfold emitHLSCpp at h
  split at h
  · cases h
  · next st hm =>
    simp only [Except.ok.injEq, Prod.mk.injEq] at h
    obtain ⟨hr, hs⟩ := h
    subst hs
    have hrep := (Extends.of_emitModule hm).2.2.1.2
    rw [← hr]
    have h0 : HLSCppEmitterState.init.encounteredError = false := rfl
    have hd0 : HLSCppEmitterState.init.diagnostics = 0 := rfl
    rw [h0, hd0] at hrep
    unfold failure
    cases hf : st.encounteredError with
    | true =>
      rw [hf] at hrep
      simp only [if_true, true_iff]
      simpa using hrep
    | false =>
      rw [hf] at hrep
      simp only [Bool.false_eq_true, if_false]
      constructor
      · intro h
        cases h
      · intro hpos
        have := hrep.2 (Or.inr hpos)
        cases this

/-- Three runs of `emitHLSCpp`: a module of one well-formed function gives
`success` with no diagnostic; a module of one, and one of two, operations that
are neither functions nor the terminator give `failure`, with one and with two
diagnostics. -/
theorem failure_flag_witness :
    (emitHLSCpp [TopLevelOp.func Example.h, TopLevelOp.moduleTerminator]).toOption.map
        (fun r => (r.1, r.2.diagnostics)) = some (LogicalResult.success, 0) ∧
    (emitHLSCpp [TopLevelOp.other 0, TopLevelOp.func Example.h,
        TopLevelOp.moduleTerminator]).toOption.map
        (fun r => (r.1, r.2.diagnostics)) = some (LogicalResult.failure, 1) ∧
    (emitHLSCpp [TopLevelOp.other 0, TopLevelOp.other 1, TopLevelOp.func Example.h,
        TopLevelOp.moduleTerminator]).toOption.map
        (fun r => (r.1, r.2.diagnostics)) = some (LogicalResult.failure, 2) ∧
    (emitError (emitError HLSCppEmitterState.init)).encounteredError = true :=
  ⟨by decide, by decide, by decide, (failure_flag.2.1 _).1⟩

/-- `emitOperation` is the body of `ModuleEmitter::emitOperation` with the
emission of the region of the operation. -/
theorem emitOperation_eq (op : Operation) (st : HLSCppEmitterState) :
    emitOperation op st = emitOperationWith (emitRegionOf op) op st := by
  cases op <;> rfl

/-- C22: for an operation of a kind in the vocabulary of `dispatchVisitor`, exactly
one of `ExprVisitor` and `StmtVisitor` claims the kind; the dispatch of a visitor,
when it returns, returns `true` exactly for the kinds the visitor claims (for the
affine loop, claimed by `StmtVisitor` through `emitAffineFor`, whatever the
emission of its region does); `emitOperation` runs the two dispatches with the
emission of the region of the operation and returns what the claiming visitor
returns, and its error branch, taken when both dispatches return `false`, is not
reached. -/
theorem dispatch_partition (op : Operation) (st : HLSCppEmitterState)
    (hv : op.inVocabulary = true) :
    ((ExprVisitor.claims op = true ∧ StmtVisitor.claims op = false) ∨
      (ExprVisitor.claims op = false ∧ StmtVisitor.claims op = true)) ∧
    (∀ b st1, ExprVisitor.dispatchVisitor op st = Except.ok (b, st1) →
      b = ExprVisitor.claims op) ∧
    (∀ emitRegion b st1, StmtVisitor.dispatchVisitor emitRegion op st = Except.ok (b, st1) →
      b = StmtVisitor.claims op) ∧
    emitOperation op st = emitOperationWith (emitRegionOf op) op st ∧
    (ExprVisitor.claims op = true →
      emitOperation op st = stateOf (ExprVisitor.dispatchVisitor op st)) ∧
    (StmtVisitor.claims op = true →
      emitOperation op st = stateOf (StmtVisitor.dispatchVisitor (emitRegionOf op) op st)) ∧
    (∀ emitRegion st1 st2, ExprVisitor.dispatchVisitor op st = Except.ok (false, st1) →
      StmtVisitor.dispatchVisitor emitRegion op st1 = Except.ok (false, st2) → False) := by
  have hclaimed : ∀ (e : Emit) (b : Bool) (st1 : HLSCppEmitterState),
      claimed e = Except.ok (b, st1) → b = true := by
    intro e b st1 h
    cases e with
    | error x => cases h
    | ok s =>
      simp only [claimed, Except.ok.injEq, Prod.mk.injEq] at h
      exact h.1.symm
  refine ⟨?_, ?_, ?_, emitOperation_eq op st, ?_, ?_, ?_⟩
  · cases op <;> first | exact Or.inl ⟨rfl, rfl⟩ | exact Or.inr ⟨rfl, rfl⟩ | cases hv
  · intro b st1 h
    cases op with
    | unsupported k => cases hv
    | binary kind result lhs rhs => exact hclaimed _ b st1 h
    | cmpI predicate result lhs rhs => exact hclaimed _ b st1 h
    | unary kind result operand => exact hclaimed _ b st1 h
    | cmpF predicate result lhs rhs =>
      simp only [ExprVisitor.dispatchVisitor] at h
      split at h
      · exact hclaimed _ b st1 h
      · simp only [Except.ok.injEq, Prod.mk.injEq] at h
        exact h.1.symm
    | _ =>
      simp only [ExprVisitor.dispatchVisitor, Except.ok.injEq, Prod.mk.injEq] at h
      exact h.1.symm
  · intro emitRegion b st1 h
    cases op with
    | unsupported k => cases hv
    | alloc result => exact hclaimed _ b st1 h
    | load result base indices => exact hclaimed _ b st1 h
    | store value base indices => exact hclaimed _ b st1 h
    | affineFor iv lb ub step body => exact hclaimed _ b st1 h
    | _ =>
      simp only [StmtVisitor.dispatchVisitor, Except.ok.injEq, Prod.mk.injEq] at h
      exact h.1.symm
  · intro hc
    rw [emitOperation_eq]
    cases op with
    | binary kind result lhs rhs =>
      simp only [emitOperationWith, ExprVisitor.dispatchVisitor]
      cases emitBinary result lhs rhs (binarySyntax kind) st <;> rfl
    | cmpI predicate result lhs rhs =>
      simp only [emitOperationWith, ExprVisitor.dispatchVisitor]
      cases emitBinary result lhs rhs (cmpISyntax predicate) st <;> rfl
    | unary kind result operand =>
      simp only [emitOperationWith, ExprVisitor.dispatchVisitor]
      cases emitUnary result operand (unarySyntax kind) st <;> rfl
    | cmpF predicate result lhs rhs =>
      simp only [emitOperationWith, ExprVisitor.dispatchVisitor]
      cases cmpFSyntax predicate with
      | none => rfl
      | some s =>
        dsimp only
        cases emitBinary result lhs rhs s st <;> rfl
    | _ => first | rfl | cases hc
  · intro hc
    rw [emitOperation_eq]
    cases op with
    | alloc result =>
      simp only [emitOperationWith, ExprVisitor.dispatchVisitor, StmtVisitor.dispatchVisitor]
      cases emitAlloc result st <;> rfl
    | load result base indices =>
      simp only [emitOperationWith, ExprVisitor.dispatchVisitor, StmtVisitor.dispatchVisitor]
      cases emitLoad result base indices st <;> rfl
    | store value base indices =>
      simp only [emitOperationWith, ExprVisitor.dispatchVisitor, StmtVisitor.dispatchVisitor]
      cases emitStore value base indices st <;> rfl
    | affineFor iv lb ub step body =>
      simp only [emitOperationWith, ExprVisitor.dispatchVisitor, StmtVisitor.dispatchVisitor]
      cases emitAffineFor (emitRegionOf (Operation.affineFor iv lb ub step body)) iv lb ub step
        st <;> rfl
    | _ => first | rfl | cases hc
  · intro emitRegion st1 st2 he hs
    cases op with
    | unsupported k => cases hv
    | binary kind result lhs rhs => cases hclaimed _ _ _ he
    | cmpI predicate result lhs rhs => cases hclaimed _ _ _ he
    | unary kind result operand => cases hclaimed _ _ _ he
    | cmpF predicate result lhs rhs =>
      simp only [ExprVisitor.dispatchVisitor] at he
      split at he
      · cases hclaimed _ _ _ he
      · simp at he
    | alloc result => cases hclaimed _ _ _ hs
    | load result base indices => cases hclaimed _ _ _ hs
    | store value base indices => cases hclaimed _ _ _ hs
    | affineFor iv lb ub step body => cases hclaimed _ _ _ hs
    | _ =>
      first
      | (simp [ExprVisitor.dispatchVisitor] at he; done)
      | simp [StmtVisitor.dispatchVisitor] at hs

/-- An addition, claimed by `ExprVisitor`, and an allocation and an affine loop,
claimed by `StmtVisitor`. -/
theorem dispatch_partition_witness :
    (Operation.binary BinaryKind.addF Example.z Example.x Example.y).inVocabulary = true ∧
    ExprVisitor.claims (Operation.binary BinaryKind.addF Example.z Example.x Example.y) =
      true ∧
    emitOperation (Operation.binary BinaryKind.addF Example.z Example.x Example.y)
        Example.named =
      stateOf (ExprVisitor.dispatchVisitor
        (Operation.binary BinaryKind.addF Example.z Example.x Example.y) Example.named) ∧
    StmtVisitor.claims (Operation.alloc Example.S) = true ∧
    emitOperation (Operation.alloc Example.S) Example.named =
      stateOf (StmtVisitor.dispatchVisitor (emitRegionOf (Operation.alloc Example.S))
        (Operation.alloc Example.S) Example.named) ∧
    StmtVisitor.claims (Operation.affineFor Example.iv (some 0) (some 10) 1 []) = true ∧
    emitOperation (Operation.affineFor Example.iv (some 0) (some 10) 1 []) Example.named =
      stateOf (StmtVisitor.dispatchVisitor (emitRegion [])
        (Operation.affineFor Example.iv (some 0) (some 10) 1 []) Example.named) ∧
    (StmtVisitor.dispatchVisitor (emitRegion [])
        (Operation.affineFor Example.iv (some 0) (some 10) 1 [])
        HLSCppEmitterState.init).toOption.map (fun r => (r.1, r.2.os)) =
      some (true, "for (int val1 = 0; val1 < 10; val1 += 1) \x7b\n\x7d\n") :=
  ⟨rfl, rfl,
    (dispatch_partition (Operation.binary BinaryKind.addF Example.z Example.x Example.y)
      Example.named rfl).2.2.2.2.1 rfl,
    rfl,
    (dispatch_partition (Operation.alloc Example.S) Example.named rfl).2.2.2.2.2.1 rfl,
    rfl,
    (dispatch_partition (Operation.affineFor Example.iv (some 0) (some 10) 1 [])
      Example.named rfl).2.2.2.2.2.1 rfl,
    by decide⟩

/-- C23 (the code at the failing input): the operator table of `ExprVisitor` maps
the signed remainder to `/` and the unsigned division to `%`; the signed division
is mapped to `/` and the unsigned remainder to `%`, as are the float division and
remainder.  For `k = m rem n` (signed) with `m` named `val1` and `n` named `val2`
the statement emitted divides, and for `k = m div n` (unsigned) it takes the
remainder. -/
theorem integer_division_operators :
    binarySyntax BinaryKind.signedDivI = "/" ∧
    binarySyntax BinaryKind.signedRemI = "/" ∧
    binarySyntax BinaryKind.unsignedDivI = "%" ∧
    binarySyntax BinaryKind.unsignedRemI = "%" ∧
    binarySyntax BinaryKind.divF = "/" ∧
    binarySyntax BinaryKind.remF = "%" ∧
    outputOf (emitOperation
        (Operation.binary BinaryKind.signedRemI Example.k Example.m Example.n)
        Example.integers) = some "  ap_int<32> val3 = val1 / val2;\n" ∧
    outputOf (emitOperation
        (Operation.binary BinaryKind.unsignedDivI Example.k Example.m Example.n)
        Example.integers) = some "  ap_int<32> val3 = val1 % val2;\n" ∧
    outputOf (emitOperation
        (Operation.binary BinaryKind.signedDivI Example.k Example.m Example.n)
        Example.integers) = some "  ap_int<32> val3 = val1 / val2;\n" ∧
    outputOf (emitOperation
        (Operation.binary BinaryKind.unsignedRemI Example.k Example.m Example.n)
        Example.integers) = some "  ap_int<32> val3 = val1 % val2;\n" := by
  decide

/-! ## The claims about the injectivity of naming -/

theorem Numbered.snoc {table : List (Value × String)} (h : Numbered table) {val : Value}
    (hv : val ∉ table.map Prod.fst) {name : String}
    (hn : name = "" ∨ ∃ isPtr, name = mkName isPtr (table.length + 1)) :
    Numbered (table ++ [(val, name)]) := by
  refine ⟨?_, ?_⟩
  · rw [List.map_append, List.nodup_append]
    exact ⟨h.1, by simp, by simpa using hv⟩
  · intro i k nm hi
    by_cases hlt : i < table.length
    · rw [List.getElem?_append_left hlt] at hi
      exact h.2 i k nm hi
    · rw [List.getElem?_append_right (by omega)] at hi
      have hi0 : i - table.length = 0 := by
        by_contra hne
        have : ([(val, name)] : List (Value × String))[i - table.length]? = none := by
          rw [List.getElem?_eq_none]
          simp; omega
        rw [this] at hi
        cases hi
      rw [hi0] at hi
      simp only [List.getElem?_cons_zero, Option.some.injEq, Prod.mk.injEq] at hi
      have hil : i = table.length := by omega
      rw [← hi.2, hil]
      exact hn

theorem Numbered.names_injective {table : List (Value × String)} (h : Numbered table) :
    NamesInjective table := by
  intro v w name hv hw hne
  obtain ⟨i, hi⟩ := List.mem_iff_getElem?.1 hv
  obtain ⟨j, hj⟩ := List.mem_iff_getElem?.1 hw
  rcases h.2 i v name hi with he | ⟨p, hp⟩
  · exact absurd he hne
  rcases h.2 j w name hj with he | ⟨q, hq⟩
  · exact absurd he hne
  have hij : i = j := by
    have := mkName_injective (hp.symm.trans hq)
    omega
  subst hij
  rw [hi] at hj
  exact (Prod.mk.inj (Option.some.inj hj)).1

/-- A call of `getName` keeps the table numbered. -/
theorem getName_numbered {val : Value} {st st1 : HLSCppEmitterState} {name : String}
    (hI : Numbered st.nameTable) (h : getName val st = some (name, st1)) :
    Numbered st1.nameTable := by
  rcases getName_nameTable_cases h with e | ⟨hf, e⟩
  · rw [e]; exact hI
  · rw [e]; exact hI.snoc (find?_eq_none.1 hf) (Or.inl rfl)

/-- A call of `emitValue` on a value that does not hold an empty entry keeps the
table numbered. -/
theorem emitValue_numbered {val : Value} {isPtr : Bool} {st st' : HLSCppEmitterState}
    (hI : Numbered st.nameTable) (hv : find? st.nameTable val ≠ some "")
    (h : emitValue val isPtr st = some st') : Numbered st'.nameTable := by
  rcases emitValue_cases h with ⟨n, st1, hg, _, rfl⟩ | ⟨st1, st2, hg, hc, _, _⟩
  · exact (getName_numbered hI hg : Numbered st1.nameTable)
  · have hfresh : Fresh st val := by
      refine ⟨hc, ?_⟩
      rw [getName_of_not_constant hc] at hg
      simp only [Option.some.injEq, Prod.mk.injEq] at hg
      cases hf : find? st.nameTable val with
      | none => rfl
      | some m =>
        simp only [lookupOrInsert, hf] at hg
        rw [hf, hg.1] at hv
        exact absurd rfl hv
    rw [emitValue_fresh_nameTable hfresh h]
    exact hI.snoc (find?_eq_none.1 hfresh.2) (Or.inr ⟨isPtr, rfl⟩)

theorem runCalls_numbered (calls : List Call) :
    ∀ (st st' : HLSCppEmitterState), Numbered st.nameTable →
      declaresNoUsedValue st calls = true → runCalls calls st = some st' →
      Numbered st'.nameTable := by
  induction calls with
  | nil =>
    intro st st' hI _ h
    cases h
    exact hI
  | cons c calls ih =>
    intro st st' hI hd h
    simp only [runCalls] at h
    split at h
    · cases h
    · next st1 hc =>
      simp only [declaresNoUsedValue, hc, Bool.and_eq_true] at hd
      refine ih st1 st' ?_ hd.2 h
      cases c with
      | getName val =>
        simp only [runCall, Option.map_eq_some'] at hc
        obtain ⟨⟨name, st1'⟩, hget, rfl⟩ := hc
        exact getName_numbered hI hget
      | emitValue val isPtr =>
        simp only [decide_eq_true_eq] at hd
        exact emitValue_numbered hI hd.1 hc

end EmitHLSCpp
